import Mathlib

/-!
# Process management of rpi3-os (`kern/proc.c`)

A shallow embedding of the process table, the ready queue, the hashed sleep
queues and the lifecycle operations of `kern/proc.c`, followed by the
properties proved about them.

Modelling conventions.

* `static struct proc proc[NPROC]` is a total map from slot index to `proc`;
  only the indices below `Config.NPROC` are scanned by `proc_alloc`.  A
  `struct proc *` is the slot index (`Option Nat`, `none` for the null
  pointer); when such a pointer is used as a wait channel it is converted to
  its address with `procAddr`.
* An intrusive `struct list_head` list is the list of the slot indices linked
  on it, head first.  `list_init` gives the empty list, `list_empty` tests for
  it, `list_front` / `list_pop_front` are the head and the removal of the head
  (a pattern match on the list), `list_push_back` appends, `list_drop` erases
  the entry from the list it was taken from, and `LIST_FOREACH_ENTRY_SAFE`
  visits the entries that were on the list when the loop started (the successor
  is read before the body runs).
* Calls into other modules (`kalloc`, `uvm_copy`, `vm_init`, `namei`) are
  represented by the value they return, passed as an argument; `0` is the
  failure value.  `kfree` and `vm_free` are recorded in a log.  The contents of
  the kernel stack page (trap frame, saved context), the page tables, the user
  pages and the file system are outside the model.
* `thiscpu()` is the argument `k` of an operation and `thisproc()` is the
  running process recorded for that CPU.
* `swtch` into the scheduler is the scheduler's resumption: it clears the
  running-process marker of the CPU (lines 194-195 of `scheduler`).  A process
  that is switched out inside `sleep` or `yield` continues after the `swtch`
  when it is selected again; for `wait` that is the next pass of its loop.
* Each operation is one critical section on `ptable.lock`; the lock itself is
  not represented.  A store through a null pointer ends the operation with
  `Halt.nullDeref`, a `panic` or a failed `assert` with the other `Halt` values.
-/

namespace Rpi3os

/-! ## The embedding of `proc.c` -/

/-- Modelled from the spec: `enum procstate` is declared in `proc.h`, which is
not among the sources.  The constructors are the state names that occur in
`proc.c`; `UNUSED` is the value of a zero-initialised slot (the table is a
static array in which `proc_alloc` looks for `UNUSED` slots). -/
inductive procstate where
  | UNUSED
  | EMBRYO
  | SLEEPING
  | RUNNABLE
  | RUNNING
  | ZOMBIE
  deriving DecidableEq, Repr

/-- The members of `struct proc` that `proc.c` accesses.  The declaration
itself is in `proc.h`, which is not among the sources, so the member that lies
at offset 0 is a parameter of the model (`Config.head`). -/
inductive member where
  | sz
  | pgdir
  | kstack
  | state
  | pid
  | parent
  | tf
  | context
  | link
  | chan
  | name
  | stksz
  | base
  | ofile
  | cwd
  | child
  | clink
  deriving DecidableEq, Repr

/-- Modelled from the spec: `struct proc` is declared in `proc.h`, which is not
among the sources.  One slot of the process table, with the members that
`proc.c` accesses.  `tf` and `context` are the pointers into the kernel stack
page (the frames they point to are outside the slot and not represented);
`parent` is the slot index of the parent; `child` is the list headed by `child`
and linked through the `clink` members of the children; the `link` member is
represented by the queue the slot is on (`State.sched_que`, `State.slpque`). -/
structure proc where
  sz : Nat
  pgdir : Nat
  kstack : Nat
  state : procstate
  pid : Int
  parent : Option Nat
  tf : Nat
  context : Nat
  chan : Nat
  name : List Nat
  stksz : Nat
  base : Nat
  ofile : List Nat
  cwd : Nat
  child : List Nat
  deriving DecidableEq, Repr

/-- Modelled from the spec: `struct cpu` is declared in `proc.h`, which is not
among the sources.  The per-CPU record: the running process (`thisproc()` is
`thiscpu()->proc`) and the idle process of the CPU; the saved scheduler context
is not represented. -/
structure cpu where
  proc : Option Nat
  idle : Option Nat
  deriving DecidableEq, Repr

/-- Constants and layout facts that come from headers that are not among the
sources, taken as parameters: the table size `NPROC`, the page size `PGSIZE`,
the address of `proc[0]`, `sizeof(struct proc)`, and the member of
`struct proc` at offset 0. -/
structure Config where
  NPROC : Nat
  PGSIZE : Nat
  procBase : Nat
  procSize : Nat
  head : member

/-- The kernel state that `proc.c` reads and writes. -/
structure State where
  procs : Nat → proc
  slpque : Nat → List Nat
  sched_que : List Nat
  cpus : Nat → cpu
  initproc : Option Nat
  kfreed : List Nat
  vmfreed : List Nat

/-- Ways in which an operation stops the kernel instead of returning. -/
inductive Halt where
  | nullDeref
  | allocFailed
  | initExiting
  | assertion
  deriving DecidableEq, Repr

/-- What `wait` does in one pass of its loop: return a value, or go to sleep
on the caller's own address (the loop runs again when it is woken). -/
inductive WaitRes where
  | ret (v : Int)
  | slept
  deriving DecidableEq, Repr

/-- `#define SQSIZE 0x100`. -/
def SQSIZE : Nat := 0x100

/-- The conversion `(int)(x)` of a pointer: the low 32 bits, read as a
two's-complement number. -/
def toInt32 (x : Nat) : Int :=
  if x % 2 ^ 32 < 2 ^ 31 then ((x % 2 ^ 32 : Nat) : Int) else ((x % 2 ^ 32 : Nat) : Int) - 2 ^ 32

/-- `HASH(x)` as an `int`: `(((int)(x)) >> 5) & (SQSIZE - 1)`, with the
arithmetic right shift and two's-complement `&` of the compiler. -/
def HASHi (x : Nat) : Int :=
  Int.land (Int.shiftRight (toInt32 x) 5) ((SQSIZE : Int) - 1)

/-- `HASH(x)` used as an index into `ptable.slpque`. -/
def HASH (x : Nat) : Nat := (HASHi x).toNat

/-- Address of slot `i` of the process table. -/
def procAddr (cfg : Config) (i : Nat) : Nat := cfg.procBase + i * cfg.procSize

/-- A `struct proc *` seen as a `void *` wait channel. -/
def chanOf (cfg : Config) : Option Nat → Nat
  | none => 0
  | some i => procAddr cfg i

/-- Modelled from the spec: `list.h` is not among the sources.  `list_push_back`
appends the entry at the tail of the list ("appends self to the ready queue",
"FIFO"). -/
abbrev list_push_back (l : List Nat) (p : Nat) : List Nat := l ++ [p]

/-- Modelled from the spec: `list.h` is not among the sources.  `list_drop`
unlinks the entry from the list it is on; it is applied to entries of the list
being traversed, so the entry is erased from that list. -/
abbrev list_drop (l : List Nat) (p : Nat) : List Nat := l.erase p

/-- Replace slot `i` by `f` applied to it. -/
def setp (s : State) (i : Nat) (f : proc → proc) : State :=
  { s with procs := Function.update s.procs i (f (s.procs i)) }

/-- The scheduler regains the CPU after `swtch`: `thiscpu()->proc = 0`. -/
def scheduler_back (s : State) (k : Nat) : State :=
  { s with cpus := Function.update s.cpus k { (s.cpus k) with proc := none } }

/-- The effect of `memset(p, 0, sizeof(p))`: `sizeof(p)` is the size of a
pointer, so only the first eight bytes of the slot are cleared, that is the
member at offset 0 (the first eight bytes of it for `name`, the first entry
for `ofile`, the `next` pointer of a list head, which the list model does not
see). -/
def memset_head (m : member) (p : proc) : proc :=
  match m with
  | .sz => { p with sz := 0 }
  | .pgdir => { p with pgdir := 0 }
  | .kstack => { p with kstack := 0 }
  | .state => { p with state := procstate.UNUSED }
  | .pid => { p with pid := 0 }
  | .parent => { p with parent := none }
  | .tf => { p with tf := 0 }
  | .context => { p with context := 0 }
  | .link => p
  | .chan => { p with chan := 0 }
  | .name => { p with name := List.replicate (min 8 p.name.length) 0 ++ p.name.drop 8 }
  | .stksz => { p with stksz := 0 }
  | .base => { p with base := 0 }
  | .ofile => { p with ofile := p.ofile.set 0 0 }
  | .cwd => { p with cwd := 0 }
  | .child => p
  | .clink => p

/-- The scan loop of `proc_alloc`: starting at slot `i`, look at `n` slots and
stop at the first one whose state is `UNUSED`. -/
def scan (procs : Nat → proc) : Nat → Nat → Option Nat
  | 0, _ => none
  | n + 1, i => if (procs i).state = procstate.UNUSED then some i else scan procs n (i + 1)

/-- `proc_alloc()`; `ka` is what `kalloc()` returns if it gets called. -/
def proc_alloc (cfg : Config) (s : State) (ka : Nat) : Option Nat × State :=
  match scan s.procs cfg.NPROC 0 with
  | none => (none, s)
  | some i =>
    let s1 := setp s i (fun p => { p with kstack := ka })
    if ka = 0 then (none, s1)
    else
      let s2 := setp s1 i (memset_head cfg.head)
      let s3 := setp s2 i (fun p => { p with state := procstate.EMBRYO, pid := (i : Int) })
      let s4 := setp s3 i (fun p => { p with tf := p.kstack + cfg.PGSIZE - 19 * 16 })
      let s5 := setp s4 i (fun p => { p with context := p.tf - 8 * 16 })
      let s6 := setp s5 i (fun p => { p with child := [] })
      (some i, s6)

/-- `idle_init()` on CPU `k`; `pg` is what `vm_init()` returns. -/
def idle_init (cfg : Config) (s : State) (k : Nat) (ka pg : Nat) : Except Halt State :=
  match proc_alloc cfg s ka with
  | (none, _) => .error .allocFailed
  | (some p, s1) =>
    let s2 := setp s1 p (fun q => { q with pgdir := pg, stksz := 0, sz := cfg.PGSIZE, base := 0 })
    .ok { s2 with cpus := Function.update s2.cpus k { (s2.cpus k) with idle := some p } }

/-- `user_init()`; `pg` is what `vm_init()` returns and `root` what
`namei("/")` returns. -/
def user_init (cfg : Config) (s : State) (ka pg root : Nat) : Except Halt State :=
  match proc_alloc cfg s ka with
  | (none, _) => .error .allocFailed
  | (some p, s1) =>
    let s2 := setp s1 p (fun q => { q with pgdir := pg })
    if pg = 0 then .error .allocFailed
    else if s2.initproc ≠ none then .error .assertion
    else
      let s3 := { s2 with initproc := some p }
      let s4 := setp s3 p (fun q =>
        { q with stksz := 0, sz := cfg.PGSIZE, base := 0,
                 name := [105, 99, 111, 100, 101, 0] ++ q.name.drop 6, cwd := root })
      .ok { s4 with sched_que := list_push_back s4.sched_que p }

/-- `proc_init()`: empty the ready queue and the `SQSIZE` sleep queues, then
set up the first user process. -/
def proc_init (cfg : Config) (s : State) (ka pg root : Nat) : Except Halt State :=
  let s1 := { s with sched_que := [] }
  let s2 := { s1 with slpque := fun i => if i < SQSIZE then [] else s1.slpque i }
  user_init cfg s2 ka pg root

/-- The scheduler records its choice: `thiscpu()->proc = p`. -/
def set_running (s : State) (k p : Nat) : State :=
  { s with cpus := Function.update s.cpus k { (s.cpus k) with proc := some p } }

/-- One pass of the loop of `scheduler()` on CPU `k`, up to `swtch`: the
selected process and the state in which it is running. -/
def scheduler_pick (s : State) (k : Nat) : Except Halt (Nat × State) :=
  match s.sched_que with
  | [] =>
    match (s.cpus k).idle with
    | none => .error .nullDeref
    | some p => .ok (p, set_running s k p)
  | p :: rest => .ok (p, set_running { s with sched_que := rest } k p)

/-- `yield()` by the process running on CPU `k`. -/
def yield (s : State) (k : Nat) : Except Halt State :=
  match (s.cpus k).proc with
  | none => .error .nullDeref
  | some p =>
    let s1 := if some p ≠ (s.cpus k).idle then { s with sched_que := list_push_back s.sched_que p } else s
    .ok (scheduler_back s1 k)

/-- `sleep(chan, lk)` by the process running on CPU `k`, up to `swtch`,
including `assert(i < SQSIZE)`.  The hand-over between `lk` and the table lock
is not represented. -/
def sleep (s : State) (k : Nat) (chan : Nat) : Except Halt State :=
  if ¬ (HASHi chan < (SQSIZE : Int)) then .error .assertion
  else
    match (s.cpus k).proc with
    | none => .error .nullDeref
    | some p =>
      let i := HASH chan
      let s1 := setp s p (fun q => { q with chan := chan })
      let s2 := { s1 with slpque := Function.update s1.slpque i (list_push_back (s1.slpque i) p) }
      .ok (scheduler_back s2 k)

/-- The body of the loop of `wakeup1` for the entry `p` of queue `h`. -/
def wakeup1_body (chan h : Nat) (s : State) (p : Nat) : State :=
  if (s.procs p).chan = chan then
    { s with slpque := Function.update s.slpque h (list_drop (s.slpque h) p),
             sched_que := list_push_back s.sched_que p }
  else s

/-- The loop of `wakeup1` over the entries of queue `h`:
`LIST_FOREACH_ENTRY_SAFE` visits the entries that were on the queue when the
loop started, in order. -/
def wakeup1_loop (chan h : Nat) : List Nat → State → State
  | [], s => s
  | p :: rest, s => wakeup1_loop chan h rest (wakeup1_body chan h s p)

/-- `wakeup1(chan)`. -/
def wakeup1 (s : State) (chan : Nat) : State :=
  wakeup1_loop chan (HASH chan) (s.slpque (HASH chan)) s

/-- `wakeup(chan)`. -/
def wakeup (s : State) (chan : Nat) : State := wakeup1 s chan

/-- `fork()` by the process running on CPU `k`; `ka` is what `kalloc()`
returns inside `proc_alloc`, `pg` what `uvm_copy` returns. -/
def fork (cfg : Config) (s : State) (k : Nat) (ka pg : Nat) : Except Halt (Int × State) :=
  match (s.cpus k).proc with
  | none => .error .nullDeref
  | some cp =>
    match proc_alloc cfg s ka with
    | (none, _) => .error .nullDeref
    | (some np, s1) =>
      let s2 := setp s1 np (fun q => { q with pgdir := pg })
      if pg = 0 then
        let s3 := { s2 with kfreed := (s2.procs np).kstack :: s2.kfreed }
        let s4 := setp s3 np (fun q => { q with kstack := 0 })
        let s5 := setp s4 np (fun q => { q with state := procstate.UNUSED })
        .ok (-1, s5)
      else
        let c := s2.procs cp
        let s3 := setp s2 np (fun q => { q with base := c.base, sz := c.sz, stksz := c.stksz })
        let s4 := setp s3 np (fun q =>
          { q with ofile := List.zipWith (fun a b => if a ≠ 0 then a else b) (s3.procs cp).ofile q.ofile,
                   cwd := (s3.procs cp).cwd })
        let pid := (s4.procs np).pid
        let s5 := setp s4 np (fun q => { q with parent := some cp })
        let s6 := setp s5 cp (fun q => { q with child := list_push_back q.child np })
        .ok (pid, { s6 with sched_que := list_push_back s6.sched_que np })

/-- One pass of the `while` loop of `wait()` by the process running on CPU
`k`: `-1` if the child list is empty; otherwise the first Zombie on the child
list is reaped and its pid returned; otherwise the caller sleeps on its own
address, and the loop runs again when it is next scheduled. -/
def wait (cfg : Config) (s : State) (k : Nat) : Except Halt (WaitRes × State) :=
  match (s.cpus k).proc with
  | none => .error .nullDeref
  | some cp =>
    if (s.procs cp).child = [] then .ok (.ret (-1), s)
    else
      match (s.procs cp).child.find? (fun p => decide ((s.procs p).state = procstate.ZOMBIE)) with
      | some p =>
        if (s.procs p).parent ≠ some cp then .error .assertion
        else
          let s1 := setp s cp (fun q => { q with child := list_drop q.child p })
          let s2 := { s1 with kfreed := (s1.procs p).kstack :: s1.kfreed }
          let s3 := { s2 with vmfreed := (s2.procs p).pgdir :: s2.vmfreed }
          let s4 := setp s3 p (fun q => { q with state := procstate.UNUSED })
          .ok (.ret (s4.procs p).pid, s4)
      | none =>
        match sleep s k (procAddr cfg cp) with
        | .error e => .error e
        | .ok s1 => .ok (.slept, s1)

/-- The body of the reparenting loop of `exit` for the child `p` of `cp`. -/
def exit_body (cfg : Config) (cp : Nat) (s : State) (p : Nat) : Except Halt State :=
  if (s.procs p).parent ≠ some cp then .error .assertion
  else
    match s.initproc with
    | none => .error .nullDeref
    | some ip =>
      let s1 := setp s p (fun q => { q with parent := some ip })
      let s2 := setp s1 cp (fun q => { q with child := list_drop q.child p })
      let s3 := setp s2 ip (fun q => { q with child := list_push_back q.child p })
      if (s3.procs p).state = procstate.ZOMBIE then .ok (wakeup1 s3 (procAddr cfg ip))
      else .ok s3

/-- The reparenting loop of `exit` over the children of `cp`
(`LIST_FOREACH_ENTRY_SAFE` over the child list as it was when the loop
started). -/
def exit_loop (cfg : Config) (cp : Nat) : List Nat → State → Except Halt State
  | [], s => .ok s
  | p :: rest, s =>
    match exit_body cfg cp s p with
    | .error e => .error e
    | .ok s1 => exit_loop cfg cp rest s1

/-- `exit(code)` by the process running on CPU `k`, up to the final `swtch`. -/
def exit (cfg : Config) (s : State) (k : Nat) : Except Halt State :=
  match (s.cpus k).proc with
  | none => .error .nullDeref
  | some cp =>
    if some cp = s.initproc then .error .initExiting
    else
      let s1 := setp s cp (fun q => { q with ofile := q.ofile.map (fun _ => 0), cwd := 0 })
      let s2 := wakeup1 s1 (chanOf cfg (s1.procs cp).parent)
      match exit_loop cfg cp (s2.procs cp).child s2 with
      | .error e => .error e
      | .ok s3 =>
        if (s3.procs cp).child ≠ [] then .error .assertion
        else
          let s4 := setp s3 cp (fun q => { q with state := procstate.ZOMBIE })
          .ok (scheduler_back s4 k)

/-! ## Closed forms, scenarios, invariants and example states used by the theorems -/

/-- The slot that a successful `proc_alloc` hands out, after the call. -/
def alloc_slot (cfg : Config) (i : Nat) (ka : Nat) (p : proc) : proc :=
  let p2 := memset_head cfg.head { p with kstack := ka }
  { p2 with state := procstate.EMBRYO, pid := (i : Int),
            tf := p2.kstack + cfg.PGSIZE - 19 * 16,
            context := p2.kstack + cfg.PGSIZE - 19 * 16 - 8 * 16,
            child := [] }

/-- The closed form of `wakeup1`: the entries of the hashed queue whose channel
matches go to the tail of the ready queue, the others stay. -/
def wakeup1_result (s : State) (c : Nat) (done rest : List Nat) : State :=
  { s with
    slpque := Function.update s.slpque (HASH c)
      (done ++ rest.filter (fun p => !decide ((s.procs p).chan = c))),
    sched_que := s.sched_que ++ rest.filter (fun p => decide ((s.procs p).chan = c)) }

/-- A slot with every member zero. -/
def zproc : proc :=
  { sz := 0, pgdir := 0, kstack := 0, state := procstate.UNUSED, pid := 0, parent := none,
    tf := 0, context := 0, chan := 0, name := List.replicate 16 0, stksz := 0, base := 0,
    ofile := [], cwd := 0, child := [] }

/-- The state of the zero-initialised statics before `proc_init` runs. -/
def boot : State :=
  { procs := fun _ => zproc, slpque := fun _ => [], sched_que := [],
    cpus := fun _ => { proc := none, idle := none }, initproc := none,
    kfreed := [], vmfreed := [] }

/-- A table of four slots whose first member is `m`. -/
def cfgHead (m : member) : Config :=
  { NPROC := 4, PGSIZE := 4096, procBase := 0xFFFF000000090000, procSize := 0x200,
    head := m }

/-- A table of four slots whose first member is `sz`. -/
def cfg4 : Config := cfgHead member.sz

/-- A live slot sleeping on channel `c`. -/
def sleeper (c : Nat) : proc := { zproc with state := procstate.EMBRYO, chan := c }

/-- Three sleepers in bucket 128: slots 1 and 3 on channel `0x1000`, slot 2 on
the colliding channel `0x3000`; slot 0 is on the ready queue. -/
def demoSleep : State :=
  { boot with
    procs := fun i =>
      if i = 1 then sleeper 0x1000 else if i = 2 then sleeper 0x3000
      else if i = 3 then sleeper 0x1000 else { zproc with state := procstate.EMBRYO },
    slpque := fun h => if h = 128 then [1, 2, 3] else [],
    sched_que := [0] }

/-- The state after `wait` has reaped the child `a` of `cp`. -/
def reaped (s : State) (cp a : Nat) : State :=
  let s1 := setp s cp (fun q => { q with child := q.child.erase a })
  let s2 := { s1 with kfreed := (s1.procs a).kstack :: s1.kfreed }
  let s3 := { s2 with vmfreed := (s2.procs a).pgdir :: s2.vmfreed }
  setp s3 a (fun q => { q with state := procstate.UNUSED })

/-- A full table of four slots: slot 0 is init and runs on CPU 0, slot 1 is the
idle process of CPU 0, slot 2 (A) is a Zombie child of slot 0 and slot 3 (B) is
a child of slot 0 waiting on the ready queue. -/
def demoFull : State :=
  { boot with
    procs := fun i =>
      if i = 0 then { zproc with state := procstate.EMBRYO, pid := 0, child := [2, 3] }
      else if i = 1 then { zproc with state := procstate.EMBRYO, pid := 1 }
      else if i = 2 then
        { zproc with state := procstate.ZOMBIE, pid := 2, parent := some 0, kstack := 0x7000,
                     pgdir := 0x8000, chan := 0x1000, sz := 8192,
                     name := [115, 104, 0, 0, 0, 0, 0, 0, 0, 0, 0, 0, 0, 0, 0, 0] }
      else if i = 3 then { zproc with state := procstate.EMBRYO, pid := 3, parent := some 0 }
      else zproc,
    sched_que := [3],
    cpus := fun k => if k = 0 then { proc := some 0, idle := some 1 }
      else { proc := none, idle := none },
    initproc := some 0 }

/-- Live slots carry their own index as pid. -/
def PidInv (s : State) : Prop :=
  ∀ j, (s.procs j).state ≠ procstate.UNUSED → (s.procs j).pid = (j : Int)

/-- The table `demoFull` after slot 0 has reaped A: slot 2 is `UNUSED` and
still holds A's parent, wait channel, name and size. -/
def demoStale : State := reaped demoFull 0 2

/-- Successive passes of the scheduler loop on the CPUs `ks`, with nothing
else happening in between: the processes selected, in order. -/
def scheduler_run (s : State) : List Nat → Except Halt (List Nat × State)
  | [] => .ok ([], s)
  | k :: ks =>
    match scheduler_pick s k with
    | .error e => .error e
    | .ok (p, s1) =>
      match scheduler_run s1 ks with
      | .error e => .error e
      | .ok (ps, s2) => .ok (p :: ps, s2)

/-- The operations of `proc.c` that a trace is made of; `k` is the CPU on
which the operation is executed. -/
inductive Op where
  | pick (k : Nat)
  | yield (k : Nat)
  | sleep (k chan : Nat)
  | wakeup (chan : Nat)
  | fork (k ka pg : Nat)
  | exit (k : Nat)
  | wait (k : Nat)
  deriving DecidableEq, Repr

/-- The state after one operation. -/
def apply_op (cfg : Config) (s : State) : Op → Except Halt State
  | .pick k =>
    match scheduler_pick s k with
    | .error e => .error e
    | .ok (_, s1) => .ok s1
  | .yield k => yield s k
  | .sleep k chan => sleep s k chan
  | .wakeup chan => .ok (wakeup s chan)
  | .fork k ka pg =>
    match fork cfg s k ka pg with
    | .error e => .error e
    | .ok (_, s1) => .ok s1
  | .exit k => exit cfg s k
  | .wait k =>
    match wait cfg s k with
    | .error e => .error e
    | .ok (_, s1) => .ok s1

/-- What an operation takes from the ready queue: a scheduler pass takes the
head, if there is one; no other operation takes anything. -/
def dispatched (s : State) : Op → List Nat
  | .pick _ => s.sched_que.take 1
  | _ => []

/-- A trace of operations: the processes dispatched from the ready queue, in
order of dispatch; the processes put on the ready queue, in order of
enqueueing (what each operation left behind the entries that were already
there); and the final state. -/
def run_ops (cfg : Config) : State → List Op → Except Halt (List Nat × List Nat × State)
  | s, [] => .ok ([], [], s)
  | s, op :: ops =>
    match apply_op cfg s op with
    | .error e => .error e
    | .ok s1 =>
      match run_ops cfg s1 ops with
      | .error e => .error e
      | .ok (d, enq, s2) =>
        .ok (dispatched s op ++ d,
          s1.sched_que.drop (s.sched_que.length - (dispatched s op).length) ++ enq, s2)

/-- Slot 3 runs on CPU 0 (idle process: slot 1) and the ready queue is empty. -/
def demoRun : State :=
  { demoFull with
    sched_que := [],
    cpus := fun k => if k = 0 then { proc := some 3, idle := some 1 }
      else { proc := none, idle := none } }

/-- Init is blocked in `wait`: it is linked exactly once on the sleep queue of
its own address, with that address as channel, and on no other queue. -/
def InitAsleep (cfg : Config) (s : State) (ip : Nat) : Prop :=
  (s.procs ip).chan = procAddr cfg ip ∧
  (s.slpque (HASH (procAddr cfg ip))).count ip = 1 ∧
  (∀ h, h ≠ HASH (procAddr cfg ip) → ip ∉ s.slpque h) ∧
  ip ∉ s.sched_que

/-- Init has been made ready once: it is linked exactly once on the ready queue
and on no sleep queue. -/
def InitWoken (s : State) (ip : Nat) : Prop :=
  s.sched_que.count ip = 1 ∧ ∀ h, ip ∉ s.slpque h

/-- The slot updates of one pass of the reparenting loop of `exit`. -/
def reparented (s : State) (cp ip p : Nat) : State :=
  setp (setp (setp s p (fun q => { q with parent := some ip })) cp
    (fun q => { q with child := q.child.erase p })) ip
    (fun q => { q with child := q.child ++ [p] })

/-- Init (slot 0) is blocked in `wait` on its own address; slot 1 runs on CPU 0
and has the two Zombie children 2 and 3. -/
def demoExit : State :=
  { boot with
    procs := fun i =>
      if i = 0 then
        { zproc with state := procstate.EMBRYO, pid := 0, chan := 0xFFFF000000090000,
                     child := [1] }
      else if i = 1 then
        { zproc with state := procstate.EMBRYO, pid := 1, parent := some 0, child := [2, 3] }
      else if i = 2 then { zproc with state := procstate.ZOMBIE, pid := 2, parent := some 1 }
      else if i = 3 then { zproc with state := procstate.ZOMBIE, pid := 3, parent := some 1 }
      else zproc,
    slpque := fun h => if h = 0 then [0] else [],
    cpus := fun k => if k = 0 then { proc := some 1, idle := none }
      else { proc := none, idle := none },
    initproc := some 0 }

/-- The state after a successful `fork` by `cp` that was given slot `np`. -/
def forked (cfg : Config) (s : State) (cp np ka pg : Nat) : State :=
  let s2 := setp (setp s np (alloc_slot cfg np ka)) np (fun q => { q with pgdir := pg })
  let c := s2.procs cp
  let s3 := setp s2 np (fun q => { q with base := c.base, sz := c.sz, stksz := c.stksz })
  let s4 := setp s3 np (fun q =>
    { q with ofile := List.zipWith (fun a b => if a ≠ 0 then a else b) (s3.procs cp).ofile q.ofile,
             cwd := (s3.procs cp).cwd })
  let s5 := setp s4 np (fun q => { q with parent := some cp })
  let s6 := setp s5 cp (fun q => { q with child := q.child ++ [np] })
  { s6 with sched_que := s6.sched_que ++ [np] }

/-- What `exit` does to the caller's slot before the table lock is taken: the
open files are closed and the working directory is released. -/
def closed_files (q : proc) : proc := { q with ofile := q.ofile.map (fun _ => 0), cwd := 0 }

/-- The state after `exit` by a process `cp` that has no children. -/
def exited (cfg : Config) (s : State) (k cp : Nat) : State :=
  scheduler_back
    (setp (wakeup1 (setp s cp closed_files) (chanOf cfg (s.procs cp).parent)) cp
      (fun q => { q with state := procstate.ZOMBIE })) k

/-- The state after the process `p` on CPU `k` has gone to sleep on `chan`. -/
def asleep_on (s : State) (k p chan : Nat) : State :=
  scheduler_back
    { (setp s p (fun q => { q with chan := chan })) with
      slpque := Function.update s.slpque (HASH chan) (s.slpque (HASH chan) ++ [p]) } k

/-- Fork, exit and wait on two CPUs: `fork` on CPU `k`, the scheduler of CPU `j`
runs the next ready process, which exits, then the parent calls `wait`.  The
result is the pid returned by `fork`, the process that ran on CPU `j`, and what
`wait` did. -/
def fork_exit_wait (cfg : Config) (s : State) (k j ka pg : Nat) :
    Except Halt (Int × Nat × WaitRes × State) :=
  match fork cfg s k ka pg with
  | .error e => .error e
  | .ok (c, s1) =>
    match scheduler_pick s1 j with
    | .error e => .error e
    | .ok (ran, s2) =>
      match exit cfg s2 j with
      | .error e => .error e
      | .ok s3 =>
        match wait cfg s3 k with
        | .error e => .error e
        | .ok (r, s4) => .ok (c, ran, r, s4)

/-- A slot as `proc_alloc` and `fork` leave it for a process with kernel stack
page `ks` and page table `pg` under `cfg4`: the trap frame and the saved
context lie at the top of the stack page. -/
def live_proc (ks pg : Nat) : proc :=
  { zproc with kstack := ks, tf := ks + 4096 - 19 * 16, context := ks + 4096 - 19 * 16 - 8 * 16,
               pgdir := pg, sz := 4096 }

/-- Init (slot 0) runs on CPU 0 and has the child 1; slots 2 and 3 are free and
the ready queue is empty.  `st1` is the state of slot 1, which is linked on
sleep queue 0 with channel `0x2000` when it is live. -/
def demoParent (st1 : procstate) : State :=
  { boot with
    procs := fun i =>
      if i = 0 then
        { live_proc 0x10000 0x11000 with state := procstate.EMBRYO, pid := 0, child := [1] }
      else if i = 1 then
        { live_proc 0x20000 0x21000 with state := st1, pid := 1, parent := some 0,
                                         chan := 0x2000 }
      else zproc,
    slpque := fun h => if h = 0 ∧ st1 = procstate.EMBRYO then [1] else [],
    cpus := fun k => if k = 0 then { proc := some 0, idle := none }
      else { proc := none, idle := none },
    initproc := some 0 }

/-- The state reached from `demoParent EMBRYO` when init has forked the child 2
(`kalloc` returning `0x5000`, `uvm_copy` returning `0x6000`), CPU 1 has selected
the child, and the child has exited there. -/
def demoChildExited : State :=
  exited cfg4 (set_running
    { forked cfg4 (demoParent procstate.EMBRYO) 0 2 0x5000 0x6000 with sched_que := [] } 1 2) 1 2

/-- How often `p` is linked on the sleep queues with index below `n`. -/
def occ_slp (q : Nat → List Nat) (p : Nat) : Nat → Nat
  | 0 => 0
  | n + 1 => occ_slp q p n + (q n).count p

/-- How often `p` is linked in total on the ready queue and the `SQSIZE` sleep
queues. -/
def occ (s : State) (p : Nat) : Nat := s.sched_que.count p + occ_slp s.slpque p SQSIZE

/-- What the queue invariant looks at: the number of queue links of each slot,
the state of each slot, and the per-CPU records. -/
structure View where
  occ : Nat → Nat
  st : Nat → procstate
  cpus : Nat → cpu

/-- The view of a kernel state. -/
def view (s : State) : View :=
  { occ := occ s, st := fun j => (s.procs j).state, cpus := s.cpus }

/-- The invariant: every slot is linked at most once; a linked slot, a running
slot and an idle slot have state `EMBRYO` (the code never assigns another state
to a live process); a running slot and an idle slot are not linked; idle
processes belong to one CPU and run only there; no slot runs on two CPUs. -/
structure VInv (v : View) : Prop where
  once : ∀ p, v.occ p ≤ 1
  queued : ∀ p, 0 < v.occ p → v.st p = procstate.EMBRYO
  running : ∀ k p, (v.cpus k).proc = some p → v.occ p = 0 ∧ v.st p = procstate.EMBRYO
  idle : ∀ k i, (v.cpus k).idle = some i → v.occ i = 0 ∧ v.st i = procstate.EMBRYO
  idle_inj : ∀ k k2 i, (v.cpus k).idle = some i → (v.cpus k2).idle = some i → k = k2
  idle_run : ∀ k k2 i, (v.cpus k).idle = some i → (v.cpus k2).proc = some i → k2 = k
  run_inj : ∀ k k2 p, (v.cpus k).proc = some p → (v.cpus k2).proc = some p → k = k2

/-- Slot `i` is on no queue, runs nowhere and is no CPU's idle process. -/
def VFree (v : View) (i : Nat) : Prop :=
  v.occ i = 0 ∧ (∀ k, (v.cpus k).proc ≠ some i) ∧ (∀ k, (v.cpus k).idle ≠ some i)

/-- The CPU `k` stops running its process. -/
def View.deschedule (v : View) (k : Nat) : View :=
  { v with cpus := Function.update v.cpus k { (v.cpus k) with proc := none } }

/-- Slot `p` gets one more queue link. -/
def View.enqueue (v : View) (p : Nat) : View :=
  { v with occ := fun q => v.occ q + if q = p then 1 else 0 }

/-- Slot `p` loses one queue link and runs on CPU `k`. -/
def View.run_head (v : View) (k p : Nat) : View :=
  { v with occ := fun q => v.occ q - if q = p then 1 else 0,
           cpus := Function.update v.cpus k { (v.cpus k) with proc := some p } }

/-- Slot `i` runs on CPU `k`; the queues are unchanged. -/
def View.run (v : View) (k i : Nat) : View :=
  { v with cpus := Function.update v.cpus k { (v.cpus k) with proc := some i } }

/-- Slot `i` gets state `x`. -/
def View.setState (v : View) (i : Nat) (x : procstate) : View :=
  { v with st := Function.update v.st i x }

/-- Slot `i` becomes the idle process of CPU `k`. -/
def View.setIdle (v : View) (k i : Nat) : View :=
  { v with cpus := Function.update v.cpus k { (v.cpus k) with idle := some i } }

/-- The queue invariant on kernel states. -/
def Inv (s : State) : Prop := VInv (view s)

/-- The state after a `fork` whose address-space copy failed, `np` being the
slot that `proc_alloc` had handed out. -/
def fork_failed (cfg : Config) (s : State) (np ka : Nat) : State :=
  let s2 := setp (setp s np (alloc_slot cfg np ka)) np (fun q => { q with pgdir := 0 })
  let s3 := { s2 with kfreed := (s2.procs np).kstack :: s2.kfreed }
  let s4 := setp s3 np (fun q => { q with kstack := 0 })
  setp s4 np (fun q => { q with state := procstate.UNUSED })

/-- The queues as `proc_init` leaves them before it calls `user_init`. -/
def queues_reset (s : State) : State :=
  { s with sched_que := [], slpque := fun i => if i < SQSIZE then [] else s.slpque i }

/-- One operation of `proc.c`, taken as one critical section.  The scheduler
of CPU `k` first sets up its idle process and then selects a process whenever
the CPU runs none; `yield` is issued by whatever runs on a CPU; `sleep`, `exit`
and `wait` are issued by a running process other than the idle process of its
CPU (the idle process executes a spin loop and makes no system call); `wakeup`
may come from any context. -/
inductive Step (cfg : Config) : State → State → Prop where
  | idle_init (s s1 : State) (k ka pg : Nat) :
      (s.cpus k).proc = none → (s.cpus k).idle = none →
      idle_init cfg s k ka pg = .ok s1 → Step cfg s s1
  | pick (s s1 : State) (k p : Nat) :
      (s.cpus k).proc = none → scheduler_pick s k = .ok (p, s1) → Step cfg s s1
  | yield (s s1 : State) (k : Nat) : yield s k = .ok s1 → Step cfg s s1
  | sleep (s s1 : State) (k p chan : Nat) :
      (s.cpus k).proc = some p → some p ≠ (s.cpus k).idle →
      sleep s k chan = .ok s1 → Step cfg s s1
  | wakeup (s : State) (chan : Nat) : Step cfg s (wakeup s chan)
  | fork (s s1 : State) (k ka pg : Nat) (v : Int) :
      fork cfg s k ka pg = .ok (v, s1) → Step cfg s s1
  | exit (s s1 : State) (k p : Nat) :
      (s.cpus k).proc = some p → some p ≠ (s.cpus k).idle →
      exit cfg s k = .ok s1 → Step cfg s s1
  | wait (s s1 : State) (k p : Nat) (r : WaitRes) :
      (s.cpus k).proc = some p → some p ≠ (s.cpus k).idle →
      wait cfg s k = .ok (r, s1) → Step cfg s s1

/-- The states reachable from `proc_init()`, which runs while no CPU has a
running or an idle process yet and no child list has an entry (the table is a
zero-initialised static; the slots may otherwise hold anything). -/
inductive Reachable (cfg : Config) : State → Prop where
  | init (b s0 : State) (ka pg root : Nat) :
      (∀ k, b.cpus k = { proc := none, idle := none }) →
      (∀ j, (b.procs j).child = []) →
      proc_init cfg b ka pg root = .ok s0 → Reachable cfg s0
  | step (s s1 : State) : Reachable cfg s → Step cfg s s1 → Reachable cfg s1

/-- The child lists are well formed: every entry of the child list of `q` is a
slot in use whose parent pointer is `q`, and no child list has a repeated
entry. -/
structure Fam (s : State) : Prop where
  kid : ∀ q x, x ∈ (s.procs q).child →
    (s.procs x).state ≠ procstate.UNUSED ∧ (s.procs x).parent = some q
  nodup : ∀ q, (s.procs q).child.Nodup

/-- The process in slot `c` is a child of the live process in slot `P`: `P` is
neither free nor a Zombie, slot `c` is in use, its parent pointer is `P`, its
pid is its slot index, and it is linked exactly once on the child list of
`P`. -/
structure Tie (P c : Nat) (t : State) : Prop where
  ne : P ≠ c
  plive : (t.procs P).state ≠ procstate.UNUSED ∧ (t.procs P).state ≠ procstate.ZOMBIE
  clive : (t.procs c).state ≠ procstate.UNUSED
  parent : (t.procs c).parent = some P
  pid : (t.procs c).pid = (c : Int)
  once : (t.procs P).child.count c = 1

/-- What may happen between a `fork` by `P` that returned `c` and a later call
of `wait` by `P`: any sequence of operations of `proc.c`, by any processes on
any CPUs and with any outcome of the external calls, in which `P` does not call
`exit` and no pass of `wait` by `P` returns `c`. -/
inductive Between (cfg : Config) (P c : Nat) : State → State → Prop where
  | refl (s : State) : Between cfg P c s s
  | idle_init (s t u : State) (k ka pg : Nat) :
      Between cfg P c s t → idle_init cfg t k ka pg = .ok u → Between cfg P c s u
  | pick (s t u : State) (k p : Nat) :
      Between cfg P c s t → scheduler_pick t k = .ok (p, u) → Between cfg P c s u
  | yield (s t u : State) (k : Nat) :
      Between cfg P c s t → yield t k = .ok u → Between cfg P c s u
  | sleep (s t u : State) (k chan : Nat) :
      Between cfg P c s t → sleep t k chan = .ok u → Between cfg P c s u
  | wakeup (s t : State) (chan : Nat) :
      Between cfg P c s t → Between cfg P c s (wakeup t chan)
  | fork (s t u : State) (k ka pg : Nat) (v : Int) :
      Between cfg P c s t → fork cfg t k ka pg = .ok (v, u) → Between cfg P c s u
  | exit (s t u : State) (k : Nat) :
      Between cfg P c s t → (t.cpus k).proc ≠ some P → exit cfg t k = .ok u →
      Between cfg P c s u
  | wait (s t u : State) (k : Nat) (r : WaitRes) :
      Between cfg P c s t → ¬ ((t.cpus k).proc = some P ∧ r = WaitRes.ret (c : Int)) →
      wait cfg t k = .ok (r, u) → Between cfg P c s u

@[simp] theorem setp_procs_same (s : State) (i : Nat) (f : proc → proc) :
    (setp s i f).procs i = f (s.procs i) := by
  simp [setp]

@[simp] theorem setp_procs_ne (s : State) (i j : Nat) (f : proc → proc) (h : j ≠ i) :
    (setp s i f).procs j = s.procs j := by
  simp [setp, Function.update_noteq h]

@[simp] theorem setp_slpque (s : State) (i : Nat) (f : proc → proc) :
    (setp s i f).slpque = s.slpque := rfl

@[simp] theorem setp_sched_que (s : State) (i : Nat) (f : proc → proc) :
    (setp s i f).sched_que = s.sched_que := rfl

@[simp] theorem setp_cpus (s : State) (i : Nat) (f : proc → proc) :
    (setp s i f).cpus = s.cpus := rfl

@[simp] theorem setp_initproc (s : State) (i : Nat) (f : proc → proc) :
    (setp s i f).initproc = s.initproc := rfl

@[simp] theorem setp_kfreed (s : State) (i : Nat) (f : proc → proc) :
    (setp s i f).kfreed = s.kfreed := rfl

@[simp] theorem setp_vmfreed (s : State) (i : Nat) (f : proc → proc) :
    (setp s i f).vmfreed = s.vmfreed := rfl

@[simp] theorem set_running_proc (s : State) (k p : Nat) :
    ((set_running s k p).cpus k).proc = some p := by
  simp [set_running]

@[simp] theorem set_running_sched_que (s : State) (k p : Nat) :
    (set_running s k p).sched_que = s.sched_que := rfl

@[simp] theorem set_running_slpque (s : State) (k p : Nat) :
    (set_running s k p).slpque = s.slpque := rfl

@[simp] theorem set_running_procs (s : State) (k p : Nat) :
    (set_running s k p).procs = s.procs := rfl

@[simp] theorem scheduler_back_proc (s : State) (k : Nat) :
    ((scheduler_back s k).cpus k).proc = none := by
  simp [scheduler_back]

@[simp] theorem scheduler_back_sched_que (s : State) (k : Nat) :
    (scheduler_back s k).sched_que = s.sched_que := rfl

@[simp] theorem scheduler_back_slpque (s : State) (k : Nat) :
    (scheduler_back s k).slpque = s.slpque := rfl

@[simp] theorem scheduler_back_procs (s : State) (k : Nat) :
    (scheduler_back s k).procs = s.procs := rfl

@[simp] theorem scheduler_back_initproc (s : State) (k : Nat) :
    (scheduler_back s k).initproc = s.initproc := rfl

theorem setp_procs (s : State) (i j : Nat) (f : proc → proc) :
    (setp s i f).procs j = if j = i then f (s.procs i) else s.procs j := by
  by_cases h : j = i
  · subst h; simp
  · simp [h]

@[simp] theorem memset_head_child (m : member) (p : proc) :
    (memset_head m p).child = p.child := by
  cases m <;> rfl

/-! ## The scan of `proc_alloc` -/

theorem scan_none_iff (procs : Nat → proc) (n i : Nat) :
    scan procs n i = none ↔ ∀ j, i ≤ j → j < i + n → (procs j).state ≠ procstate.UNUSED := by
  induction n generalizing i with
  | zero =>
    simp only [scan, true_iff]
    intro j h1 h2
    omega
  | succ n ih =>
    simp only [scan]
    by_cases h : (procs i).state = procstate.UNUSED
    · simp only [h, if_true]
      constructor
      · intro h0; cases h0
      · intro h0; exact absurd h (h0 i (le_refl i) (by omega))
    · simp only [h, if_false, ih]
      constructor
      · intro h0 j h1 h2
        by_cases hj : j = i
        · subst hj; exact h
        · exact h0 j (by omega) (by omega)
      · intro h0 j h1 h2
        exact h0 j (by omega) (by omega)

theorem scan_some (procs : Nat → proc) (n i j : Nat) (h : scan procs n i = some j) :
    i ≤ j ∧ j < i + n ∧ (procs j).state = procstate.UNUSED ∧
      ∀ l, i ≤ l → l < j → (procs l).state ≠ procstate.UNUSED := by
  induction n generalizing i with
  | zero => simp [scan] at h
  | succ n ih =>
    simp only [scan] at h
    by_cases hu : (procs i).state = procstate.UNUSED
    · simp only [hu, if_true, Option.some.injEq] at h
      subst h
      refine ⟨le_refl _, by omega, hu, ?_⟩
      intro l h1 h2
      omega
    · simp only [hu, if_false] at h
      obtain ⟨h1, h2, h3, h4⟩ := ih (i + 1) h
      refine ⟨by omega, by omega, h3, ?_⟩
      intro l hl1 hl2
      by_cases hl : l = i
      · subst hl; exact hu
      · exact h4 l (by omega) hl2

theorem scan_eq_some_of (procs : Nat → proc) (n i j : Nat) (h1 : i ≤ j) (h2 : j < i + n)
    (h3 : (procs j).state = procstate.UNUSED)
    (h4 : ∀ l, i ≤ l → l < j → (procs l).state ≠ procstate.UNUSED) :
    scan procs n i = some j := by
  cases hs : scan procs n i with
  | none =>
    exact absurd h3 ((scan_none_iff procs n i).1 hs j h1 h2)
  | some j2 =>
    obtain ⟨g1, g2, g3, g4⟩ := scan_some procs n i j2 hs
    rcases Nat.lt_trichotomy j j2 with hlt | heq | hgt
    · exact absurd h3 (g4 j h1 hlt)
    · rw [heq]
    · exact absurd g3 (h4 j2 g1 hgt)

/-! ## `proc_alloc` -/

theorem proc_alloc_of_scan_none (cfg : Config) (s : State) (ka : Nat)
    (h : scan s.procs cfg.NPROC 0 = none) : proc_alloc cfg s ka = (none, s) := by
  simp [proc_alloc, h]

theorem proc_alloc_of_kalloc_zero (cfg : Config) (s : State) (i : Nat)
    (h : scan s.procs cfg.NPROC 0 = some i) :
    proc_alloc cfg s 0 = (none, setp s i (fun p => { p with kstack := 0 })) := by
  simp [proc_alloc, h]

theorem proc_alloc_fst_none_iff (cfg : Config) (s : State) (ka : Nat) :
    (proc_alloc cfg s ka).1 = none ↔ scan s.procs cfg.NPROC 0 = none ∨ ka = 0 := by
  unfold proc_alloc
  cases hs : scan s.procs cfg.NPROC 0 with
  | none => simp
  | some i =>
    by_cases hk : ka = 0
    · simp [hk]
    · simp [hk]

theorem proc_alloc_fst_some (cfg : Config) (s : State) (ka i : Nat)
    (h : scan s.procs cfg.NPROC 0 = some i) (hk : ka ≠ 0) :
    (proc_alloc cfg s ka).1 = some i := by
  simp [proc_alloc, h, hk]

theorem proc_alloc_fst_some_inv (cfg : Config) (s : State) (ka i : Nat)
    (h : (proc_alloc cfg s ka).1 = some i) :
    scan s.procs cfg.NPROC 0 = some i ∧ ka ≠ 0 := by
  unfold proc_alloc at h
  cases hs : scan s.procs cfg.NPROC 0 with
  | none => simp [hs] at h
  | some j =>
    by_cases hk : ka = 0
    · simp [hs, hk] at h
    · simp [hs, hk] at h
      exact ⟨by rw [h], hk⟩

theorem proc_alloc_snd_some (cfg : Config) (s : State) (ka i : Nat)
    (h : scan s.procs cfg.NPROC 0 = some i) (hk : ka ≠ 0) :
    (proc_alloc cfg s ka).2 = setp s i (alloc_slot cfg i ka) := by
  simp only [proc_alloc, h, hk, if_false]
  simp only [setp, Function.update_same, Function.update_idem, alloc_slot]

theorem proc_alloc_frame (cfg : Config) (s : State) (ka : Nat) :
    (proc_alloc cfg s ka).2.slpque = s.slpque ∧ (proc_alloc cfg s ka).2.sched_que = s.sched_que ∧
    (proc_alloc cfg s ka).2.cpus = s.cpus ∧ (proc_alloc cfg s ka).2.initproc = s.initproc ∧
    (proc_alloc cfg s ka).2.kfreed = s.kfreed ∧ (proc_alloc cfg s ka).2.vmfreed = s.vmfreed := by
  unfold proc_alloc
  cases hs : scan s.procs cfg.NPROC 0 with
  | none => simp
  | some i =>
    by_cases hk : ka = 0
    · simp [hk]
    · simp [hk]

/-! ## The hash of a wait channel -/

theorem ldiff_mask (m n : Nat) : Nat.ldiff (2 ^ n - 1) m = 2 ^ n - 1 - m % 2 ^ n := by
  apply Nat.eq_of_testBit_eq
  intro i
  have hlt : m % 2 ^ n < 2 ^ n := Nat.mod_lt _ (Nat.two_pow_pos n)
  have e : 2 ^ n - 1 - m % 2 ^ n = 2 ^ n - (m % 2 ^ n + 1) := by omega
  rw [e, Nat.testBit_two_pow_sub_succ hlt, Nat.testBit_ldiff, Nat.testBit_two_pow_sub_one,
    Nat.testBit_mod_two_pow]
  cases decide (i < n) <;> simp

/-- Two's-complement `&` with the mask `2 ^ n - 1` keeps the low `n` bits. -/
theorem land_mask_eq (a : Int) (n : Nat) :
    Int.land a ((2 ^ n - 1 : Nat) : Int) = a % ((2 ^ n : Nat) : Int) := by
  cases a with
  | ofNat m =>
    show ((Nat.land m (2 ^ n - 1) : Nat) : Int) = _
    have h : Nat.land m (2 ^ n - 1) = m % 2 ^ n := Nat.and_pow_two_sub_one_eq_mod m n
    rw [h]
    simp
  | negSucc m =>
    show ((Nat.ldiff (2 ^ n - 1) m : Nat) : Int) = _
    have hp : (0 : Int) < ((2 ^ n : Nat) : Int) := by exact_mod_cast Nat.two_pow_pos n
    rw [ldiff_mask, Int.negSucc_emod m hp]
    have hlt : m % 2 ^ n < 2 ^ n := Nat.mod_lt _ (Nat.two_pow_pos n)
    generalize 2 ^ n = P at *
    have e : ((m : Int) % (P : Int)) = ((m % P : Nat) : Int) := by simp
    rw [e]
    omega

theorem HASHi_eq (x : Nat) : HASHi x = ((x % 2 ^ 32 / 32 % 256 : Nat) : Int) := by
  have e : ((SQSIZE : Int) - 1) = ((2 ^ 8 - 1 : Nat) : Int) := by
    simp [SQSIZE]
  have e2 : ∀ v : Int, Int.shiftRight v 5 = v / 32 := by
    intro v
    have h := Int.shiftRight_eq_div_pow v 5
    simpa using h
  unfold HASHi
  rw [e, land_mask_eq, e2]
  unfold toInt32
  have hlt : x % 2 ^ 32 < 2 ^ 32 := Nat.mod_lt _ (by norm_num)
  generalize x % 2 ^ 32 = r at *
  split
  · push_cast
    omega
  · push_cast
    omega

/-- The index computed by `HASH` is bits 5 to 12 of the address. -/
theorem HASH_eq (x : Nat) : HASH x = x % 2 ^ 32 / 32 % 256 := by
  unfold HASH
  rw [HASHi_eq]
  exact Int.toNat_ofNat _

theorem HASHi_bounds (x : Nat) : 0 ≤ HASHi x ∧ HASHi x < (SQSIZE : Int) := by
  rw [HASHi_eq]
  unfold SQSIZE
  omega

theorem HASH_lt (x : Nat) : HASH x < SQSIZE := by
  rw [HASH_eq]
  unfold SQSIZE
  omega

/-! ## `wakeup1` as a filter -/

theorem wakeup1_loop_eq (c : Nat) (rest : List Nat) :
    ∀ (done : List Nat) (s : State), s.slpque (HASH c) = done ++ rest →
      (∀ x ∈ done, (s.procs x).chan ≠ c) →
      wakeup1_loop c (HASH c) rest s = wakeup1_result s c done rest := by
  induction rest with
  | nil =>
    intro done s h _
    cases s
    simp only [wakeup1_loop, wakeup1_result, List.filter_nil, List.append_nil] at h ⊢
    subst h
    simp
  | cons p rest ih =>
    intro done s h hd
    simp only [wakeup1_loop, wakeup1_body]
    by_cases hc : (s.procs p).chan = c
    · have hp : p ∉ done := fun hm => hd p hm hc
      have he : (done ++ p :: rest).erase p = done ++ rest := by
        rw [List.erase_append_right _ hp, List.erase_cons_head]
      simp only [hc, if_true]
      rw [ih done _ (by simp [h, he]) (by simpa using hd)]
      cases s
      simp only [wakeup1_result] at hc ⊢
      simp [hc, Function.update_idem]
    · simp only [hc, if_false]
      rw [ih (done ++ [p]) s (by simp [h]) (by
        intro x hx
        rcases List.mem_append.1 hx with h1 | h1
        · exact hd x h1
        · simp at h1; subst h1; exact hc)]
      cases s
      simp only [wakeup1_result] at hc ⊢
      simp [hc]

theorem wakeup1_eq (s : State) (c : Nat) :
    wakeup1 s c = wakeup1_result s c [] (s.slpque (HASH c)) := by
  unfold wakeup1
  exact wakeup1_loop_eq c _ [] s (by simp) (by simp)

@[simp] theorem wakeup1_procs (s : State) (c : Nat) : (wakeup1 s c).procs = s.procs := by
  rw [wakeup1_eq]; rfl

@[simp] theorem wakeup1_cpus (s : State) (c : Nat) : (wakeup1 s c).cpus = s.cpus := by
  rw [wakeup1_eq]; rfl

@[simp] theorem wakeup1_initproc (s : State) (c : Nat) :
    (wakeup1 s c).initproc = s.initproc := by
  rw [wakeup1_eq]; rfl

@[simp] theorem wakeup1_kfreed (s : State) (c : Nat) : (wakeup1 s c).kfreed = s.kfreed := by
  rw [wakeup1_eq]; rfl

@[simp] theorem wakeup1_vmfreed (s : State) (c : Nat) : (wakeup1 s c).vmfreed = s.vmfreed := by
  rw [wakeup1_eq]; rfl

theorem wakeup1_sched_que (s : State) (c : Nat) :
    (wakeup1 s c).sched_que =
      s.sched_que ++ (s.slpque (HASH c)).filter (fun p => decide ((s.procs p).chan = c)) := by
  rw [wakeup1_eq]; rfl

theorem wakeup1_slpque (s : State) (c : Nat) :
    (wakeup1 s c).slpque = Function.update s.slpque (HASH c)
      ((s.slpque (HASH c)).filter (fun p => !decide ((s.procs p).chan = c))) := by
  rw [wakeup1_eq]; simp [wakeup1_result]

/-! ## C2: `wakeup` -/

/-- C2: for every state whose sleepers sit in the queue that `sleep` chose for
their channel, and every channel `c` (whatever the sign of its truncation to
`int`): `HASH c` is an index in `[0, SQSIZE)`; `wakeup c` appends to the ready
queue exactly the entries of the hashed sleep queue whose channel is `c`, in
queue order, after the old ready-queue contents; every sleep queue keeps, in
order, exactly its entries whose channel differs from `c`; no process with
channel `c` is left on any sleep queue, and every process sleeping on `c` is on
the ready queue afterwards. -/
theorem wakeup_moves_matching (s : State) (c : Nat)
    (hsl : ∀ h p, p ∈ s.slpque h → HASH (s.procs p).chan = h) :
    (0 ≤ HASHi c ∧ HASHi c < (SQSIZE : Int) ∧ HASH c < SQSIZE) ∧
    (wakeup s c).sched_que =
      s.sched_que ++ (s.slpque (HASH c)).filter (fun p => decide ((s.procs p).chan = c)) ∧
    (∀ h, (wakeup s c).slpque h =
      (s.slpque h).filter (fun p => !decide ((s.procs p).chan = c))) ∧
    (∀ h p, p ∈ s.slpque h → (s.procs p).chan ≠ c → p ∈ (wakeup s c).slpque h) ∧
    (∀ h p, p ∈ s.slpque h → (s.procs p).chan = c →
      p ∈ (wakeup s c).sched_que ∧ ∀ h2, p ∉ (wakeup s c).slpque h2) ∧
    (wakeup s c).procs = s.procs := by
  have hq : ∀ h, (wakeup s c).slpque h =
      (s.slpque h).filter (fun p => !decide ((s.procs p).chan = c)) := by
    intro h
    unfold wakeup
    rw [wakeup1_slpque]
    by_cases hh : h = HASH c
    · subst hh; simp
    · rw [Function.update_noteq hh]
      symm
      rw [List.filter_eq_self]
      intro p hp
      have h1 := hsl h p hp
      have h2 : (s.procs p).chan ≠ c := by
        intro e
        rw [e] at h1
        exact hh h1.symm
      simp [h2]
  refine ⟨⟨(HASHi_bounds c).1, (HASHi_bounds c).2, HASH_lt c⟩, ?_, hq, ?_, ?_, ?_⟩
  · unfold wakeup
    exact wakeup1_sched_que s c
  · intro h p hp hc
    rw [hq h]
    exact List.mem_filter.2 ⟨hp, by simp [hc]⟩
  · intro h p hp hc
    constructor
    · unfold wakeup
      rw [wakeup1_sched_que]
      have hh : HASH c = h := by
        have h1 := hsl h p hp
        rw [hc] at h1
        exact h1
      rw [hh]
      exact List.mem_append_right _ (List.mem_filter.2 ⟨hp, by simp [hc]⟩)
    · intro h2 hm
      rw [hq h2] at hm
      have h3 := (List.mem_filter.1 hm).2
      simp [hc] at h3
  · unfold wakeup
    simp

/-- Witness for C2 on `demoSleep` and channel `0x1000`. -/
theorem wakeup_moves_matching_witness :
    (0 ≤ HASHi 0x1000 ∧ HASHi 0x1000 < (SQSIZE : Int) ∧
      HASH 0x1000 < SQSIZE) ∧
    (wakeup demoSleep 0x1000).sched_que =
      demoSleep.sched_que ++ (demoSleep.slpque (HASH 0x1000)).filter
        (fun p => decide ((demoSleep.procs p).chan = 0x1000)) ∧
    (∀ h, (wakeup demoSleep 0x1000).slpque h =
      (demoSleep.slpque h).filter
        (fun p => !decide ((demoSleep.procs p).chan = 0x1000))) ∧
    (∀ h p, p ∈ demoSleep.slpque h → (demoSleep.procs p).chan ≠ 0x1000 →
      p ∈ (wakeup demoSleep 0x1000).slpque h) ∧
    (∀ h p, p ∈ demoSleep.slpque h → (demoSleep.procs p).chan = 0x1000 →
      p ∈ (wakeup demoSleep 0x1000).sched_que ∧
        ∀ h2, p ∉ (wakeup demoSleep 0x1000).slpque h2) ∧
    (wakeup demoSleep 0x1000).procs = demoSleep.procs :=
  wakeup_moves_matching demoSleep 0x1000 (by
    intro h p hp
    by_cases hh : h = 128
    · subst hh
      simp only [demoSleep, if_true, List.mem_cons, List.mem_singleton, List.not_mem_nil,
        or_false] at hp
      rcases hp with rfl | rfl | rfl <;> simp [demoSleep, sleeper, HASH_eq]
    · simp [demoSleep, hh] at hp)

/-- On `demoSleep`, `wakeup(0x1000)` moves slots 1 and 3 behind slot 0 and
leaves the colliding sleeper 2 in bucket 128. -/
theorem wakeup_demo_values :
    (wakeup demoSleep 0x1000).sched_que = [0, 1, 3] ∧
    (wakeup demoSleep 0x1000).slpque 128 = [2] := by
  have h : HASH 0x1000 = 128 := by rw [HASH_eq]; norm_num
  unfold wakeup
  rw [wakeup1_sched_que, wakeup1_slpque, h]
  simp [demoSleep, sleeper, List.filter]

/-- A kernel address whose low 32 bits have the sign bit set: the truncation to
`int` is negative and the hash is still a valid index. -/
theorem HASH_negative_value :
    toInt32 0xFFFF000080001000 < 0 ∧ HASH 0xFFFF000080001000 = 128 := by
  constructor
  · simp [toInt32]
  · rw [HASH_eq]; norm_num

/-! ## `wait`: reaping a Zombie child -/

theorem wait_reap (cfg : Config) (s : State) (k cp a : Nat)
    (hrun : (s.cpus k).proc = some cp)
    (hfind : (s.procs cp).child.find? (fun p => decide ((s.procs p).state = procstate.ZOMBIE))
      = some a)
    (hpar : (s.procs a).parent = some cp) :
    wait cfg s k = .ok (.ret (s.procs a).pid, reaped s cp a) := by
  have hne : (s.procs cp).child ≠ [] := by
    intro h
    rw [h] at hfind
    simp at hfind
  unfold wait
  simp only [hrun, hne, if_false, hfind, hpar, ne_eq, not_true_eq_false]
  have hp : ((reaped s cp a).procs a).pid = (s.procs a).pid := by
    simp only [reaped, setp_procs_same]
    by_cases h : a = cp
    · subst h; simp [setp]
    · simp [setp, Function.update_noteq h]
  rw [← hp]
  rfl

theorem reaped_state (s : State) (cp a j : Nat) :
    ((reaped s cp a).procs j).state =
      if j = a then procstate.UNUSED else (s.procs j).state := by
  simp only [reaped, setp, Function.update_apply]
  split_ifs <;> simp_all

theorem reaped_pid (s : State) (cp a j : Nat) :
    ((reaped s cp a).procs j).pid = (s.procs j).pid := by
  simp only [reaped, setp, Function.update_apply]
  split_ifs <;> simp_all

theorem reaped_child (s : State) (cp a : Nat) :
    ((reaped s cp a).procs cp).child = (s.procs cp).child.erase a := by
  simp only [reaped, setp, Function.update_apply]
  split_ifs <;> simp_all

theorem demoFull_full : ∀ j, j < cfg4.NPROC → (demoFull.procs j).state ≠ procstate.UNUSED := by
  intro j hj
  have h4 : j < 4 := hj
  interval_cases j <;> simp [demoFull]

/-! ## C6: allocation -/

/-- C6: `proc_alloc` returns empty exactly when no slot below `NPROC` is
`UNUSED` or `kalloc` fails, and then no slot changes state (nor pid);
otherwise it returns the lowest `UNUSED` index, that slot is `EMBRYO` with pid
equal to its index afterwards, and every other slot is untouched.  Hence, if
live slots carried their index as pid before, they still do, and no two live
slots share a pid.  In a full table, once `wait` has reaped the Zombie child
`a`, the next allocation (with a stack available) returns slot `a` again with
pid `a`. -/
theorem proc_alloc_spec (cfg : Config) (s : State) (ka : Nat) :
    ((proc_alloc cfg s ka).1 = none ↔
      ((∀ j, j < cfg.NPROC → (s.procs j).state ≠ procstate.UNUSED) ∨ ka = 0)) ∧
    ((proc_alloc cfg s ka).1 = none →
      ∀ j, ((proc_alloc cfg s ka).2.procs j).state = (s.procs j).state ∧
        ((proc_alloc cfg s ka).2.procs j).pid = (s.procs j).pid) ∧
    (∀ i, (proc_alloc cfg s ka).1 = some i →
      i < cfg.NPROC ∧ (s.procs i).state = procstate.UNUSED ∧
      (∀ l, l < i → (s.procs l).state ≠ procstate.UNUSED) ∧
      ((proc_alloc cfg s ka).2.procs i).state = procstate.EMBRYO ∧
      ((proc_alloc cfg s ka).2.procs i).pid = (i : Int) ∧
      ∀ j, j ≠ i → (proc_alloc cfg s ka).2.procs j = s.procs j) ∧
    (PidInv s → PidInv (proc_alloc cfg s ka).2 ∧
      ∀ a b, ((proc_alloc cfg s ka).2.procs a).state ≠ procstate.UNUSED →
        ((proc_alloc cfg s ka).2.procs b).state ≠ procstate.UNUSED →
        ((proc_alloc cfg s ka).2.procs a).pid = ((proc_alloc cfg s ka).2.procs b).pid → a = b) ∧
    (∀ k cp a, (∀ j, j < cfg.NPROC → (s.procs j).state ≠ procstate.UNUSED) →
      PidInv s → ka ≠ 0 → a < cfg.NPROC → (s.cpus k).proc = some cp →
      (s.procs cp).child.find? (fun p => decide ((s.procs p).state = procstate.ZOMBIE)) = some a →
      (s.procs a).parent = some cp →
      wait cfg s k = .ok (.ret (a : Int), reaped s cp a) ∧
      (proc_alloc cfg (reaped s cp a) ka).1 = some a ∧
      ((proc_alloc cfg (reaped s cp a) ka).2.procs a).pid = (a : Int) ∧
      ((proc_alloc cfg (reaped s cp a) ka).2.procs a).state = procstate.EMBRYO) := by
  have hnone : (proc_alloc cfg s ka).1 = none →
      ∀ j, ((proc_alloc cfg s ka).2.procs j).state = (s.procs j).state ∧
        ((proc_alloc cfg s ka).2.procs j).pid = (s.procs j).pid := by
    intro h j
    rcases (proc_alloc_fst_none_iff cfg s ka).1 h with h1 | h1
    · rw [proc_alloc_of_scan_none cfg s ka h1]
      exact ⟨rfl, rfl⟩
    · subst h1
      cases hs : scan s.procs cfg.NPROC 0 with
      | none => rw [proc_alloc_of_scan_none cfg s 0 hs]; exact ⟨rfl, rfl⟩
      | some i =>
        rw [proc_alloc_of_kalloc_zero cfg s i hs]
        simp only [setp_procs]
        split
        · rename_i e; subst e; exact ⟨rfl, rfl⟩
        · exact ⟨rfl, rfl⟩
  have hsome : ∀ i, (proc_alloc cfg s ka).1 = some i →
      i < cfg.NPROC ∧ (s.procs i).state = procstate.UNUSED ∧
      (∀ l, l < i → (s.procs l).state ≠ procstate.UNUSED) ∧
      ((proc_alloc cfg s ka).2.procs i).state = procstate.EMBRYO ∧
      ((proc_alloc cfg s ka).2.procs i).pid = (i : Int) ∧
      ∀ j, j ≠ i → (proc_alloc cfg s ka).2.procs j = s.procs j := by
    intro i h
    obtain ⟨hs, hk⟩ := proc_alloc_fst_some_inv cfg s ka i h
    obtain ⟨_, h2, h3, h4⟩ := scan_some s.procs cfg.NPROC 0 i hs
    rw [proc_alloc_snd_some cfg s ka i hs hk]
    refine ⟨by omega, h3, fun l hl => h4 l (Nat.zero_le l) hl, ?_, ?_, ?_⟩
    · simp [alloc_slot]
    · simp [alloc_slot]
    · intro j hj
      simp [hj]
  have hpid : PidInv s → PidInv (proc_alloc cfg s ka).2 := by
    intro hinv j hj
    cases hr : (proc_alloc cfg s ka).1 with
    | none =>
      have h1 := hnone hr j
      rw [h1.1] at hj
      rw [h1.2]
      exact hinv j hj
    | some i =>
      obtain ⟨_, _, _, _, h5, h6⟩ := hsome i hr
      by_cases e : j = i
      · subst e; exact h5
      · rw [h6 j e] at hj ⊢
        exact hinv j hj
  refine ⟨?_, hnone, hsome, ?_, ?_⟩
  · rw [proc_alloc_fst_none_iff, scan_none_iff]
    constructor
    · rintro (h | h)
      · exact Or.inl (fun j hj => h j (Nat.zero_le j) (by omega))
      · exact Or.inr h
    · rintro (h | h)
      · exact Or.inl (fun j _ hj => h j (by omega))
      · exact Or.inr h
  · intro hinv
    refine ⟨hpid hinv, ?_⟩
    intro a b ha hb hab
    have h1 := hpid hinv a ha
    have h2 := hpid hinv b hb
    rw [h1, h2] at hab
    exact_mod_cast hab
  · intro k cp a hfull hinv hk ha hrun hfind hpar
    have hz : (s.procs a).state = procstate.ZOMBIE := by
      have := List.find?_some hfind
      simpa using this
    have hpa : (s.procs a).pid = (a : Int) := hinv a (by rw [hz]; decide)
    have hscan : scan (reaped s cp a).procs cfg.NPROC 0 = some a := by
      apply scan_eq_some_of _ _ _ _ (Nat.zero_le a) (by omega)
      · rw [reaped_state]; simp
      · intro l _ hl
        rw [reaped_state]
        have : l ≠ a := by omega
        simp only [this, if_false]
        exact hfull l (by omega)
    refine ⟨?_, proc_alloc_fst_some cfg _ ka a hscan hk, ?_, ?_⟩
    · rw [wait_reap cfg s k cp a hrun hfind hpar, hpa]
    · rw [proc_alloc_snd_some cfg _ ka a hscan hk]
      simp [alloc_slot]
    · rw [proc_alloc_snd_some cfg _ ka a hscan hk]
      simp [alloc_slot]

theorem demoFull_pidInv : PidInv demoFull := by
  intro j hj
  by_cases h0 : j = 0
  · subst h0; simp [demoFull]
  by_cases h1 : j = 1
  · subst h1; simp [demoFull]
  by_cases h2 : j = 2
  · subst h2; simp [demoFull]
  by_cases h3 : j = 3
  · subst h3; simp [demoFull]
  · simp [demoFull, h0, h1, h2, h3, zproc] at hj

/-- Witness for C6 on the full table `demoFull`: the third allocation attempt
fails, `wait` by slot 0 reaps A (slot 2), and the next allocation hands out
slot 2 with pid 2 again. -/
theorem proc_alloc_spec_witness :
    (proc_alloc cfg4 demoFull 0x5000).1 = none ∧
    wait cfg4 demoFull 0 = .ok (.ret 2, reaped demoFull 0 2) ∧
    (proc_alloc cfg4 (reaped demoFull 0 2) 0x5000).1 = some 2 ∧
    ((proc_alloc cfg4 (reaped demoFull 0 2) 0x5000).2.procs 2).pid = 2 ∧
    ((proc_alloc cfg4 (reaped demoFull 0 2) 0x5000).2.procs 2).state = procstate.EMBRYO :=
  ⟨(proc_alloc_spec cfg4 demoFull 0x5000).1.2 (Or.inl demoFull_full),
   (proc_alloc_spec cfg4 demoFull 0x5000).2.2.2.2 0 0 2 demoFull_full demoFull_pidInv
     (by decide) (by decide) (by simp [demoFull]) (by simp [demoFull]) (by simp [demoFull])⟩

/-! ## C1: `fork` under exhaustion -/

theorem fork_of_alloc_none (cfg : Config) (s : State) (k ka pg : Nat)
    (h : (proc_alloc cfg s ka).1 = none) : fork cfg s k ka pg = .error Halt.nullDeref := by
  unfold fork
  cases hr : (s.cpus k).proc with
  | none => rfl
  | some cp =>
    cases ha : proc_alloc cfg s ka with
    | mk r s1 =>
      rw [ha] at h
      simp only at h
      subst h
      rfl

theorem fork_exhausted (cfg : Config) (s : State) (k ka pg : Nat)
    (h : (∀ j, j < cfg.NPROC → (s.procs j).state ≠ procstate.UNUSED) ∨ ka = 0) :
    fork cfg s k ka pg = .error Halt.nullDeref := by
  apply fork_of_alloc_none
  rw [proc_alloc_fst_none_iff, scan_none_iff]
  rcases h with h | h
  · exact Or.inl (fun j _ hj => h j (by omega))
  · exact Or.inr h

/-- C1 (the code departs from the claim): in the full table `demoFull`, where
`proc_alloc` returns 0, `fork` by the process on CPU 0 does not return -1: it
goes on to store through the null pointer (`np->pgdir = ...`). -/
theorem fork_full_table_nullDeref :
    (proc_alloc cfg4 demoFull 0x5000).1 = none ∧
    fork cfg4 demoFull 0 0x5000 0x6000 = .error Halt.nullDeref ∧
    fork cfg4 demoFull 0 0x5000 0x6000 ≠ .ok (-1, demoFull) := by
  have h := fork_exhausted cfg4 demoFull 0 0x5000 0x6000 (Or.inl demoFull_full)
  refine ⟨?_, h, ?_⟩
  · rw [proc_alloc_fst_none_iff, scan_none_iff]
    exact Or.inl (fun j _ hj => demoFull_full j (by omega))
  · rw [h]
    intro e
    cases e

/-! ## C7: `wait` without children -/

theorem wait_of_child_nil (cfg : Config) (s : State) (k cp : Nat)
    (hrun : (s.cpus k).proc = some cp) (hc : (s.procs cp).child = []) :
    wait cfg s k = .ok (WaitRes.ret (-1), s) := by
  simp [wait, hrun, hc]

/-- C7: when the caller has no children, `wait` returns -1 in its first pass
(it does not sleep) and the whole state, running-process markers included, is
the one it started from. -/
theorem wait_no_children (cfg : Config) (s : State) (k cp : Nat)
    (hrun : (s.cpus k).proc = some cp) (hc : (s.procs cp).child = []) :
    wait cfg s k = .ok (WaitRes.ret (-1), s) :=
  wait_of_child_nil cfg s k cp hrun hc

/-- Witness for C7: slot 3 of `demoFull`, put on CPU 1, has no children. -/
theorem wait_no_children_witness :
    wait cfg4 { demoFull with cpus := fun _ => { proc := some 3, idle := none } } 1 =
      .ok (WaitRes.ret (-1), { demoFull with cpus := fun _ => { proc := some 3, idle := none } }) :=
  wait_no_children cfg4 _ 1 3 rfl (by simp [demoFull, zproc])

/-! ## C5: `fork` when the address-space copy fails -/

/-- C5: if a slot is free (`np` being the lowest free one), the stack page
`ka` was obtained, the first member of the slot is not the stack pointer
itself, and `uvm_copy` fails, then `fork` by the live process `cp` returns -1;
the slot `np` it had taken is `UNUSED` again with `kstack` cleared and the page
`ka` handed to `kfree`; the ready queue, all sleep queues, the CPUs, and every
other slot (so also the caller's child list) are as before. -/
theorem fork_copy_failure (cfg : Config) (s : State) (k cp ka np : Nat)
    (hrun : (s.cpus k).proc = some cp)
    (hlive : (s.procs cp).state ≠ procstate.UNUSED)
    (hnp : np < cfg.NPROC) (hunused : (s.procs np).state = procstate.UNUSED)
    (hlow : ∀ l, l < np → (s.procs l).state ≠ procstate.UNUSED)
    (hka : ka ≠ 0)
    (hhead : cfg.head ≠ member.kstack) :
    ∃ s1, fork cfg s k ka 0 = .ok (-1, s1) ∧
      (s1.procs np).state = procstate.UNUSED ∧ (s1.procs np).kstack = 0 ∧
      s1.kfreed = ka :: s.kfreed ∧
      s1.sched_que = s.sched_que ∧ s1.slpque = s.slpque ∧ s1.cpus = s.cpus ∧
      (s1.procs cp).child = (s.procs cp).child ∧
      (∀ j, j ≠ np → s1.procs j = s.procs j) := by
  have hfree : scan s.procs cfg.NPROC 0 = some np :=
    scan_eq_some_of _ _ _ _ (Nat.zero_le np) (by omega) hunused (fun l _ hl => hlow l hl)
  have h1 := proc_alloc_fst_some cfg s ka np hfree hka
  have h2 := proc_alloc_snd_some cfg s ka np hfree hka
  have hne : cp ≠ np := by
    intro e
    subst e
    exact hlive (scan_some _ _ _ _ hfree).2.2.1
  have hks : (alloc_slot cfg np ka (s.procs np)).kstack = ka := by
    unfold alloc_slot
    cases hm : cfg.head <;> simp_all [memset_head]
  unfold fork
  rw [hrun]
  cases ha : proc_alloc cfg s ka with
  | mk r s0 =>
    rw [ha] at h1 h2
    simp only at h1 h2
    subst h1
    subst h2
    simp only [if_true]
    refine ⟨_, rfl, ?_, ?_, ?_, rfl, rfl, rfl, ?_, ?_⟩
    · simp
    · simp
    · simp [hks]
    · simp [hne]
    · intro j hj
      simp [hj]

theorem demoStale_scan (m : member) :
    scan demoStale.procs (cfgHead m).NPROC 0 = some 2 := by
  apply scan_eq_some_of _ _ _ _ (Nat.zero_le 2) (by show 2 < 0 + 4; omega)
  · simp [demoStale, reaped_state]
  · intro l _ hl
    simp only [demoStale, reaped_state]
    have h2 : l ≠ 2 := by omega
    simp only [h2, if_false]
    exact demoFull_full l (by show l < 4; omega)

/-- Witness for C5: `fork` by slot 0 on `demoStale` with a failing `uvm_copy`. -/
theorem fork_copy_failure_witness :
    ∃ s1, fork cfg4 demoStale 0 0x5000 0 = .ok (-1, s1) ∧
      (s1.procs 2).state = procstate.UNUSED ∧ (s1.procs 2).kstack = 0 ∧
      s1.kfreed = 0x5000 :: demoStale.kfreed ∧
      s1.sched_que = demoStale.sched_que ∧ s1.slpque = demoStale.slpque ∧
      s1.cpus = demoStale.cpus ∧
      (s1.procs 0).child = (demoStale.procs 0).child ∧
      (∀ j, j ≠ 2 → s1.procs j = demoStale.procs j) :=
  fork_copy_failure cfg4 demoStale 0 0 0x5000 2 rfl
    (by simp [demoStale, reaped_state, demoFull])
    (by decide) (by simp [demoStale, reaped_state])
    (by
      intro l hl
      simp only [demoStale, reaped_state]
      have h2 : l ≠ 2 := by omega
      simp only [h2, if_false]
      exact demoFull_full l (by show l < 4; omega))
    (by decide) (by decide)

/-! ## C9: what `proc_alloc` leaves in a recycled slot -/

/-- C9 (the code departs from the claim): `memset(p, 0, sizeof(p))` clears
eight bytes only.  Whatever member lies at offset 0, allocating the recycled
slot 2 of `demoStale` succeeds and leaves the previous owner's parent pointer
or wait channel in it; with `sz` first, parent, channel and name all survive. -/
theorem proc_alloc_keeps_stale_members :
    (∀ m : member,
      (proc_alloc (cfgHead m) demoStale 0x5000).1 = some 2 ∧
      (((proc_alloc (cfgHead m) demoStale 0x5000).2.procs 2).parent ≠ none ∨
        ((proc_alloc (cfgHead m) demoStale 0x5000).2.procs 2).chan ≠ 0)) ∧
    ((proc_alloc cfg4 demoStale 0x5000).2.procs 2).parent = some 0 ∧
    ((proc_alloc cfg4 demoStale 0x5000).2.procs 2).chan = 0x1000 ∧
    ((proc_alloc cfg4 demoStale 0x5000).2.procs 2).name =
      [115, 104, 0, 0, 0, 0, 0, 0, 0, 0, 0, 0, 0, 0, 0, 0] := by
  have hp : demoStale.procs 2 = { demoFull.procs 2 with state := procstate.UNUSED } := by
    simp [demoStale, reaped, setp, Function.update_apply]
  refine ⟨?_, ?_, ?_, ?_⟩
  · intro m
    refine ⟨proc_alloc_fst_some _ _ 0x5000 _ (demoStale_scan m) (by decide), ?_⟩
    rw [proc_alloc_snd_some _ _ 0x5000 _ (demoStale_scan m) (by decide)]
    simp only [setp_procs_same, hp]
    cases m <;> simp [alloc_slot, memset_head, demoFull, cfgHead]
  · rw [proc_alloc_snd_some cfg4 _ 0x5000 _ (demoStale_scan member.sz) (by decide)]
    simp [hp, alloc_slot, memset_head, demoFull, cfg4, cfgHead]
  · rw [proc_alloc_snd_some cfg4 _ 0x5000 _ (demoStale_scan member.sz) (by decide)]
    simp [hp, alloc_slot, memset_head, demoFull, cfg4, cfgHead]
  · rw [proc_alloc_snd_some cfg4 _ 0x5000 _ (demoStale_scan member.sz) (by decide)]
    simp [hp, alloc_slot, memset_head, demoFull, cfg4, cfgHead]

/-! ## C8: the scheduler and the ready queue -/

theorem scheduler_pick_cons (s : State) (k p : Nat) (rest : List Nat)
    (h : s.sched_que = p :: rest) :
    scheduler_pick s k = .ok (p, set_running { s with sched_que := rest } k p) := by
  simp [scheduler_pick, h]

theorem scheduler_pick_nil (s : State) (k i : Nat) (h : s.sched_que = [])
    (hi : (s.cpus k).idle = some i) :
    scheduler_pick s k = .ok (i, set_running s k i) := by
  simp [scheduler_pick, h, hi]

theorem scheduler_run_take (ks : List Nat) :
    ∀ s : State, ks.length ≤ s.sched_que.length →
      ∃ s2, scheduler_run s ks = .ok (s.sched_que.take ks.length, s2) ∧
        s2.sched_que = s.sched_que.drop ks.length := by
  induction ks with
  | nil =>
    intro s _
    exact ⟨s, by simp [scheduler_run], by simp⟩
  | cons k ks ih =>
    intro s hl
    cases hq : s.sched_que with
    | nil => simp [hq] at hl
    | cons p rest =>
      have hl2 : ks.length ≤ rest.length := by
        simp [hq] at hl
        exact hl
      obtain ⟨s2, h1, h2⟩ := ih (set_running { s with sched_que := rest } k p) hl2
      refine ⟨s2, ?_, ?_⟩
      · simp only [scheduler_run, scheduler_pick_cons s k p rest hq, h1]
        simp
      · simpa using h2

theorem yield_sched_que (s : State) (k p : Nat) (hrun : (s.cpus k).proc = some p) :
    ∃ s1, yield s k = .ok s1 ∧ s1.slpque = s.slpque ∧ s1.procs = s.procs ∧
      s1.sched_que = s.sched_que ++ (if some p = (s.cpus k).idle then [] else [p]) := by
  unfold yield
  rw [hrun]
  by_cases h : some p = (s.cpus k).idle
  · simp [h, scheduler_back]
  · simp [h, scheduler_back]

theorem fork_sched_que (cfg : Config) (s : State) (k ka pg : Nat) (v : Int) (s1 : State)
    (h : fork cfg s k ka pg = .ok (v, s1)) :
    (v = -1 ∧ s1.sched_que = s.sched_que) ∨
    (∃ np, (proc_alloc cfg s ka).1 = some np ∧ s1.sched_que = s.sched_que ++ [np]) := by
  unfold fork at h
  cases hr : (s.cpus k).proc with
  | none => simp [hr] at h
  | some cp =>
    have hf := proc_alloc_frame cfg s ka
    cases ha : proc_alloc cfg s ka with
    | mk r s0 =>
      rw [ha] at hf
      cases r with
      | none => simp [hr, ha] at h
      | some np =>
        by_cases hp : pg = 0
        · simp only [hr, ha, hp, if_true, Except.ok.injEq, Prod.mk.injEq] at h
          left
          refine ⟨h.1.symm, ?_⟩
          rw [← h.2]
          simpa using hf.2.1
        · simp only [hr, ha, hp, if_false, Except.ok.injEq, Prod.mk.injEq] at h
          right
          refine ⟨np, rfl, ?_⟩
          rw [← h.2]
          simpa using hf.2.1

theorem user_init_sched_que (cfg : Config) (s : State) (ka pg root : Nat) (s1 : State)
    (h : user_init cfg s ka pg root = .ok s1) :
    ∃ p, (proc_alloc cfg s ka).1 = some p ∧ s1.initproc = some p ∧
      s1.sched_que = s.sched_que ++ [p] ∧ s1.slpque = s.slpque ∧ s1.cpus = s.cpus := by
  unfold user_init at h
  have hf := proc_alloc_frame cfg s ka
  cases ha : proc_alloc cfg s ka with
  | mk r s0 =>
    rw [ha] at hf
    cases r with
    | none => simp [ha] at h
    | some p =>
      by_cases hp : pg = 0
      · simp [ha, hp] at h
      · by_cases hi : s0.initproc = none
        · simp only [ha, hp, if_false, setp_initproc, hi, ne_eq, not_true_eq_false,
            Except.ok.injEq] at h
          refine ⟨p, rfl, ?_⟩
          rw [← h]
          simp only [setp_sched_que, setp_slpque, setp_cpus, setp_initproc]
          exact ⟨trivial, by rw [hf.2.1], hf.1, hf.2.2.1⟩
        · simp [ha, hp, hi] at h

theorem sleep_sched_que (s s1 : State) (k chan : Nat) (h : sleep s k chan = .ok s1) :
    s1.sched_que = s.sched_que := by
  unfold sleep at h
  simp only [(HASHi_bounds chan).2, not_true_eq_false, if_false] at h
  cases hr : (s.cpus k).proc with
  | none => simp [hr] at h
  | some p =>
    simp only [hr, Except.ok.injEq] at h
    rw [← h]
    rfl

theorem exit_body_sched_que (cfg : Config) (cp p : Nat) (s s1 : State)
    (h : exit_body cfg cp s p = .ok s1) : ∃ X, s1.sched_que = s.sched_que ++ X := by
  unfold exit_body at h
  split at h
  · cases h
  · cases hi : s.initproc with
    | none => simp [hi] at h
    | some ip =>
      simp only [hi] at h
      split at h
      · simp only [Except.ok.injEq] at h
        rw [← h, wakeup1_sched_que]
        exact ⟨_, rfl⟩
      · simp only [Except.ok.injEq] at h
        rw [← h]
        exact ⟨[], by simp⟩

theorem exit_loop_sched_que (cfg : Config) (cp : Nat) (rest : List Nat) :
    ∀ s s1 : State, exit_loop cfg cp rest s = .ok s1 →
      ∃ X, s1.sched_que = s.sched_que ++ X := by
  induction rest with
  | nil =>
    intro s s1 h
    simp only [exit_loop, Except.ok.injEq] at h
    exact ⟨[], by simp [h]⟩
  | cons p rest ih =>
    intro s s1 h
    simp only [exit_loop] at h
    cases hb : exit_body cfg cp s p with
    | error e => simp [hb] at h
    | ok sb =>
      simp only [hb] at h
      obtain ⟨X1, h1⟩ := exit_body_sched_que cfg cp p s sb hb
      obtain ⟨X2, h2⟩ := ih sb s1 h
      exact ⟨X1 ++ X2, by rw [h2, h1, List.append_assoc]⟩

theorem exit_sched_que (cfg : Config) (s s1 : State) (k : Nat) (h : exit cfg s k = .ok s1) :
    ∃ X, s1.sched_que = s.sched_que ++ X := by
  unfold exit at h
  cases hr : (s.cpus k).proc with
  | none => simp [hr] at h
  | some cp =>
    simp only [hr] at h
    split at h
    · cases h
    · generalize hc0 : chanOf cfg ((setp s cp
        (fun q => { q with ofile := q.ofile.map (fun _ => 0), cwd := 0 })).procs cp).parent = c0
        at h
      cases hl : exit_loop cfg cp
        ((wakeup1 (setp s cp (fun q => { q with ofile := q.ofile.map (fun _ => 0), cwd := 0 }))
          c0).procs cp).child
        (wakeup1 (setp s cp (fun q => { q with ofile := q.ofile.map (fun _ => 0), cwd := 0 }))
          c0) with
      | error e =>
        rw [hl] at h
        cases h
      | ok s3 =>
        rw [hl] at h
        simp only at h
        split at h
        · cases h
        · simp only [Except.ok.injEq] at h
          obtain ⟨X, hX⟩ := exit_loop_sched_que cfg cp _ _ s3 hl
          rw [wakeup1_sched_que] at hX
          rw [← h]
          exact ⟨_, by
            show s3.sched_que = _
            rw [hX, setp_sched_que, List.append_assoc]⟩

theorem wait_sched_que (cfg : Config) (s s1 : State) (k : Nat) (r : WaitRes)
    (h : wait cfg s k = .ok (r, s1)) : s1.sched_que = s.sched_que := by
  unfold wait at h
  cases hr : (s.cpus k).proc with
  | none => simp [hr] at h
  | some cp =>
    simp only [hr] at h
    split at h
    · simp only [Except.ok.injEq, Prod.mk.injEq] at h
      rw [← h.2]
    · split at h
      · split at h
        · cases h
        · simp only [Except.ok.injEq, Prod.mk.injEq] at h
          rw [← h.2]
          rfl
      · cases hs : sleep s k (procAddr cfg cp) with
        | error e =>
          rw [hs] at h
          cases h
        | ok s2 =>
          rw [hs] at h
          simp only [Except.ok.injEq, Prod.mk.injEq] at h
          rw [← h.2]
          exact sleep_sched_que s s2 k _ hs

theorem apply_op_sched_que (cfg : Config) (s s1 : State) (op : Op)
    (h : apply_op cfg s op = .ok s1) :
    ∃ X, s1.sched_que = s.sched_que.drop (dispatched s op).length ++ X := by
  cases op with
  | pick k =>
    simp only [apply_op] at h
    cases hq : s.sched_que with
    | nil =>
      cases hi : (s.cpus k).idle with
      | none => simp [scheduler_pick, hq, hi] at h
      | some i =>
        rw [scheduler_pick_nil s k i hq hi] at h
        simp only [Except.ok.injEq] at h
        rw [← h]
        exact ⟨[], by simp [dispatched, hq]⟩
    | cons p rest =>
      rw [scheduler_pick_cons s k p rest hq] at h
      simp only [Except.ok.injEq] at h
      rw [← h]
      exact ⟨[], by simp [dispatched, hq]⟩
  | yield k =>
    simp only [apply_op] at h
    cases hr : (s.cpus k).proc with
    | none => simp [yield, hr] at h
    | some p =>
      obtain ⟨s2, h1, _, _, h4⟩ := yield_sched_que s k p hr
      rw [h1] at h
      simp only [Except.ok.injEq] at h
      subst h
      exact ⟨(if some p = (s.cpus k).idle then [] else [p]), by rw [h4]; simp [dispatched]⟩
  | sleep k chan =>
    simp only [apply_op] at h
    exact ⟨[], by rw [sleep_sched_que s s1 k chan h]; simp [dispatched]⟩
  | wakeup chan =>
    simp only [apply_op, Except.ok.injEq] at h
    rw [← h]
    exact ⟨(s.slpque (HASH chan)).filter (fun p => decide ((s.procs p).chan = chan)), by
      show (wakeup1 s chan).sched_que = _
      rw [wakeup1_sched_que]
      simp [dispatched]⟩
  | fork k ka pg =>
    simp only [apply_op] at h
    cases hf : fork cfg s k ka pg with
    | error e => simp [hf] at h
    | ok r =>
      obtain ⟨v, s2⟩ := r
      simp only [hf, Except.ok.injEq] at h
      subst h
      rcases fork_sched_que cfg s k ka pg v s2 hf with ⟨_, h2⟩ | ⟨np, _, h2⟩
      · exact ⟨[], by rw [h2]; simp [dispatched]⟩
      · exact ⟨[np], by rw [h2]; simp [dispatched]⟩
  | exit k =>
    simp only [apply_op] at h
    obtain ⟨X, hX⟩ := exit_sched_que cfg s s1 k h
    exact ⟨X, by rw [hX]; simp [dispatched]⟩
  | wait k =>
    simp only [apply_op] at h
    cases hw : wait cfg s k with
    | error e => simp [hw] at h
    | ok r =>
      obtain ⟨v, s2⟩ := r
      simp only [hw, Except.ok.injEq] at h
      subst h
      exact ⟨[], by rw [wait_sched_que cfg s s2 k v hw]; simp [dispatched]⟩

theorem dispatched_take (s : State) (op : Op) :
    dispatched s op = s.sched_que.take (dispatched s op).length := by
  cases op <;> simp [dispatched]

theorem run_ops_fifo (cfg : Config) (ops : List Op) :
    ∀ (s s2 : State) (d enq : List Nat), run_ops cfg s ops = .ok (d, enq, s2) →
      s.sched_que ++ enq = d ++ s2.sched_que := by
  induction ops with
  | nil =>
    intro s s2 d enq h
    simp only [run_ops, Except.ok.injEq, Prod.mk.injEq] at h
    obtain ⟨h1, h2, h3⟩ := h
    subst h1 h2 h3
    simp
  | cons op ops ih =>
    intro s s2 d enq h
    simp only [run_ops] at h
    cases ha : apply_op cfg s op with
    | error e => simp [ha] at h
    | ok s1 =>
      simp only [ha] at h
      cases hr : run_ops cfg s1 ops with
      | error e => simp [hr] at h
      | ok r =>
        obtain ⟨d1, enq1, s3⟩ := r
        simp only [hr, Except.ok.injEq, Prod.mk.injEq] at h
        obtain ⟨h1, h2, h3⟩ := h
        subst h3
        have hi := ih s1 s3 d1 enq1 hr
        obtain ⟨X, hX⟩ := apply_op_sched_que cfg s s1 op ha
        have hlen : (dispatched s op).length ≤ s.sched_que.length := by
          have e := dispatched_take s op
          have := List.length_take_le (dispatched s op).length s.sched_que
          rw [← e] at this
          have h5 : (List.take (dispatched s op).length s.sched_que).length
              ≤ s.sched_que.length := List.length_take_le' _ _
          rw [← e] at h5
          exact h5
        have hdrop : s1.sched_que.drop (s.sched_que.length - (dispatched s op).length) = X := by
          rw [hX]
          have hl : (s.sched_que.drop (dispatched s op).length).length =
              s.sched_que.length - (dispatched s op).length := List.length_drop _ _
          rw [← hl, List.drop_left]
        rw [hdrop] at h2
        rw [← h1, ← h2]
        have hsplit : s.sched_que =
            dispatched s op ++ s.sched_que.drop (dispatched s op).length := by
          conv_lhs => rw [← List.take_append_drop (dispatched s op).length s.sched_que]
          rw [← dispatched_take]
        calc s.sched_que ++ (X ++ enq1)
            = dispatched s op ++ (s.sched_que.drop (dispatched s op).length ++ X ++ enq1) := by
              conv_lhs => rw [hsplit]
              simp [List.append_assoc]
          _ = dispatched s op ++ (s1.sched_que ++ enq1) := by rw [hX]
          _ = dispatched s op ++ (d1 ++ s3.sched_que) := by rw [hi]
          _ = dispatched s op ++ d1 ++ s3.sched_que := by rw [List.append_assoc]

/-- C8: (1) with an empty ready queue one scheduler pass selects the idle
process of the CPU and leaves the queue empty; (2) with a non-empty queue it
selects the head, marks it running and leaves the tail in order; (3) provided
the idle process is not itself queued, the selected process is the idle process
if and only if the queue was empty; (4) `yield` (except by the idle process,
which is not queued), `wakeup`, `fork` and `user_init` change the ready queue
only by appending at its tail; (5) successive scheduler passes select the
queued processes in queue order; (6) a non-idle process that yields on an empty
ready queue is the one selected by the next pass on any CPU; (7) along every
trace of operations, the initial ready queue followed by the processes enqueued
equals the processes dispatched followed by the final ready queue, that is,
processes leave the ready queue in exactly the order in which they entered. -/
theorem scheduler_fifo :
    (∀ (s : State) (k i : Nat), s.sched_que = [] → (s.cpus k).idle = some i →
      ∃ s1, scheduler_pick s k = .ok (i, s1) ∧ s1.sched_que = [] ∧
        (s1.cpus k).proc = some i) ∧
    (∀ (s : State) (k p : Nat) (rest : List Nat), s.sched_que = p :: rest →
      ∃ s1, scheduler_pick s k = .ok (p, s1) ∧ s1.sched_que = rest ∧
        (s1.cpus k).proc = some p ∧ s1.slpque = s.slpque ∧ s1.procs = s.procs) ∧
    (∀ (s s1 : State) (k i p : Nat), (s.cpus k).idle = some i → i ∉ s.sched_que →
      scheduler_pick s k = .ok (p, s1) → (p = i ↔ s.sched_que = [])) ∧
    ((∀ (s : State) (k p : Nat), (s.cpus k).proc = some p →
        ∃ s1, yield s k = .ok s1 ∧
          s1.sched_que = s.sched_que ++ (if some p = (s.cpus k).idle then [] else [p])) ∧
      (∀ (s : State) (c : Nat), (wakeup s c).sched_que = s.sched_que ++
        (s.slpque (HASH c)).filter (fun p => decide ((s.procs p).chan = c))) ∧
      (∀ (cfg : Config) (s s1 : State) (k ka pg : Nat) (v : Int),
        fork cfg s k ka pg = .ok (v, s1) →
        (v = -1 ∧ s1.sched_que = s.sched_que) ∨
        (∃ np, (proc_alloc cfg s ka).1 = some np ∧ s1.sched_que = s.sched_que ++ [np])) ∧
      (∀ (cfg : Config) (s s1 : State) (ka pg root : Nat),
        user_init cfg s ka pg root = .ok s1 →
        ∃ p, s1.initproc = some p ∧ s1.sched_que = s.sched_que ++ [p])) ∧
    (∀ (s : State) (ks : List Nat), ks.length ≤ s.sched_que.length →
      ∃ s2, scheduler_run s ks = .ok (s.sched_que.take ks.length, s2) ∧
        s2.sched_que = s.sched_que.drop ks.length) ∧
    (∀ (s : State) (k j p : Nat), (s.cpus k).proc = some p → some p ≠ (s.cpus k).idle →
      s.sched_que = [] →
      ∃ s1 s2, yield s k = .ok s1 ∧ scheduler_pick s1 j = .ok (p, s2) ∧
        (s2.cpus j).proc = some p ∧ s2.sched_que = []) ∧
    (∀ (cfg : Config) (s s2 : State) (ops : List Op) (d enq : List Nat),
      run_ops cfg s ops = .ok (d, enq, s2) → s.sched_que ++ enq = d ++ s2.sched_que) := by
  refine ⟨?_, ?_, ?_, ⟨?_, ?_, ?_, ?_⟩, ?_, ?_, ?_⟩
  · intro s k i hq hi
    exact ⟨_, scheduler_pick_nil s k i hq hi, hq, by simp⟩
  · intro s k p rest hq
    exact ⟨_, scheduler_pick_cons s k p rest hq, rfl, by simp, rfl, rfl⟩
  · intro s s1 k i p hi hn hp
    cases hq : s.sched_que with
    | nil =>
      rw [scheduler_pick_nil s k i hq hi] at hp
      simp only [Except.ok.injEq, Prod.mk.injEq] at hp
      simp [hp.1]
    | cons q rest =>
      rw [scheduler_pick_cons s k q rest hq] at hp
      simp only [Except.ok.injEq, Prod.mk.injEq] at hp
      simp only [reduceCtorEq, iff_false]
      intro e
      apply hn
      rw [hq, ← e, ← hp.1]
      exact List.mem_cons_self _ _
  · intro s k p hrun
    obtain ⟨s1, h1, _, _, h4⟩ := yield_sched_que s k p hrun
    exact ⟨s1, h1, h4⟩
  · intro s c
    exact wakeup1_sched_que s c
  · intro cfg s s1 k ka pg v h
    exact fork_sched_que cfg s k ka pg v s1 h
  · intro cfg s s1 ka pg root h
    obtain ⟨p, _, h2, h3, _⟩ := user_init_sched_que cfg s ka pg root s1 h
    exact ⟨p, h2, h3⟩
  · intro s ks h
    exact scheduler_run_take ks s h
  · intro s k j p hrun hidle hq
    obtain ⟨s1, h1, _, _, h4⟩ := yield_sched_que s k p hrun
    rw [hq] at h4
    simp only [hidle, if_false, List.nil_append] at h4
    exact ⟨s1, _, h1, scheduler_pick_cons s1 j p [] h4, by simp, rfl⟩
  · intro cfg s s2 ops d enq h
    exact run_ops_fifo cfg ops s s2 d enq h

/-- Witness for C8: on `demoFull` the scheduler of CPU 1 takes slot 3 from the
head of the queue; on `demoRun`, slot 3 yields on the empty queue and is
selected again by the next pass. -/
theorem scheduler_fifo_witness :
    (∃ s1, scheduler_pick demoFull 1 = .ok (3, s1) ∧ s1.sched_que = [] ∧
      (s1.cpus 1).proc = some 3 ∧ s1.slpque = demoFull.slpque ∧ s1.procs = demoFull.procs) ∧
    (∃ s1 s2, yield demoRun 0 = .ok s1 ∧ scheduler_pick s1 0 = .ok (3, s2) ∧
      (s2.cpus 0).proc = some 3 ∧ s2.sched_que = []) :=
  ⟨scheduler_fifo.2.1 demoFull 1 3 [] rfl,
   scheduler_fifo.2.2.2.2.2.1 demoRun 0 0 3 rfl (by decide) rfl⟩

/-! ## C3: `exit` hands the children to init -/

theorem wakeup1_woken (s : State) (c ip : Nat) (h : InitWoken s ip) :
    InitWoken (wakeup1 s c) ip := by
  obtain ⟨h1, h2⟩ := h
  constructor
  · rw [wakeup1_sched_que, List.count_append, h1]
    have : ip ∉ (s.slpque (HASH c)).filter (fun p => decide ((s.procs p).chan = c)) :=
      fun hm => h2 _ (List.mem_filter.1 hm).1
    rw [List.count_eq_zero_of_not_mem this]
  · intro h
    rw [wakeup1_slpque]
    by_cases e : h = HASH c
    · subst e
      rw [Function.update_same]
      exact fun hm => h2 _ (List.mem_filter.1 hm).1
    · rw [Function.update_noteq e]
      exact h2 h

theorem wakeup1_asleep_hit (cfg : Config) (s : State) (ip : Nat) (h : InitAsleep cfg s ip) :
    InitWoken (wakeup1 s (procAddr cfg ip)) ip := by
  obtain ⟨h1, h2, h3, h4⟩ := h
  constructor
  · rw [wakeup1_sched_que, List.count_append, List.count_eq_zero_of_not_mem h4,
      List.count_filter (by simp [h1]), h2]
  · intro h
    rw [wakeup1_slpque]
    by_cases e : h = HASH (procAddr cfg ip)
    · subst e
      rw [Function.update_same]
      intro hm
      have := (List.mem_filter.1 hm).2
      simp [h1] at this
    · rw [Function.update_noteq e]
      exact h3 h e

theorem wakeup1_asleep_miss (cfg : Config) (s : State) (c ip : Nat) (h : InitAsleep cfg s ip)
    (hc : c ≠ procAddr cfg ip) : InitAsleep cfg (wakeup1 s c) ip := by
  obtain ⟨h1, h2, h3, h4⟩ := h
  have hne : (s.procs ip).chan ≠ c := by rw [h1]; exact fun e => hc e.symm
  refine ⟨by simpa using h1, ?_, ?_, ?_⟩
  · rw [wakeup1_slpque]
    by_cases e : HASH (procAddr cfg ip) = HASH c
    · rw [e, Function.update_same, List.count_filter (by simp [hne]), ← e, h2]
    · rw [Function.update_noteq e, h2]
  · intro h hh
    rw [wakeup1_slpque]
    by_cases e : h = HASH c
    · subst e
      rw [Function.update_same]
      exact fun hm => h3 _ hh (List.mem_filter.1 hm).1
    · rw [Function.update_noteq e]
      exact h3 h hh
  · rw [wakeup1_sched_que]
    intro hm
    rcases List.mem_append.1 hm with hm | hm
    · exact h4 hm
    · have := (List.mem_filter.1 hm).2
      simp [hne] at this

theorem wakeup1_asleep_or (cfg : Config) (s : State) (c ip : Nat)
    (h : InitAsleep cfg s ip ∨ InitWoken s ip) :
    InitAsleep cfg (wakeup1 s c) ip ∨ InitWoken (wakeup1 s c) ip := by
  rcases h with h | h
  · by_cases hc : c = procAddr cfg ip
    · subst hc; exact Or.inr (wakeup1_asleep_hit cfg s ip h)
    · exact Or.inl (wakeup1_asleep_miss cfg s c ip h hc)
  · exact Or.inr (wakeup1_woken s c ip h)

theorem wakeup1_hit_or (cfg : Config) (s : State) (ip : Nat)
    (h : InitAsleep cfg s ip ∨ InitWoken s ip) :
    InitWoken (wakeup1 s (procAddr cfg ip)) ip := by
  rcases h with h | h
  · exact wakeup1_asleep_hit cfg s ip h
  · exact wakeup1_woken s _ ip h

theorem setp_chan (s : State) (i j : Nat) (f : proc → proc) (hf : ∀ q, (f q).chan = q.chan) :
    ((setp s i f).procs j).chan = (s.procs j).chan := by
  rw [setp_procs]
  split
  · rename_i e; subst e; exact hf _
  · rfl

theorem setp_state (s : State) (i j : Nat) (f : proc → proc)
    (hf : ∀ q, (f q).state = q.state) :
    ((setp s i f).procs j).state = (s.procs j).state := by
  rw [setp_procs]
  split
  · rename_i e; subst e; exact hf _
  · rfl

theorem InitAsleep_setp (cfg : Config) (s : State) (i ip : Nat) (f : proc → proc)
    (hf : ∀ q, (f q).chan = q.chan) :
    InitAsleep cfg (setp s i f) ip ↔ InitAsleep cfg s ip := by
  simp only [InitAsleep, setp_chan s i ip f hf, setp_slpque, setp_sched_que]

theorem InitWoken_setp (s : State) (i ip : Nat) (f : proc → proc) :
    InitWoken (setp s i f) ip ↔ InitWoken s ip := by
  simp only [InitWoken, setp_slpque, setp_sched_que]

theorem exit_body_eq (cfg : Config) (cp ip p : Nat) (s : State)
    (hinit : s.initproc = some ip) (hpar : (s.procs p).parent = some cp) :
    exit_body cfg cp s p = .ok
      (if ((reparented s cp ip p).procs p).state = procstate.ZOMBIE
        then wakeup1 (reparented s cp ip p) (procAddr cfg ip) else reparented s cp ip p) := by
  unfold exit_body
  simp only [hpar, ne_eq, not_true_eq_false, if_false, hinit]
  by_cases hz : ((reparented s cp ip p).procs p).state = procstate.ZOMBIE
  · rw [if_pos hz]; exact if_pos hz
  · rw [if_neg hz]; exact if_neg hz

theorem reparented_state (s : State) (cp ip p j : Nat) :
    ((reparented s cp ip p).procs j).state = (s.procs j).state := by
  simp only [reparented, setp, Function.update_apply]
  split_ifs <;> simp_all

theorem reparented_chan (s : State) (cp ip p j : Nat) :
    ((reparented s cp ip p).procs j).chan = (s.procs j).chan := by
  simp only [reparented, setp, Function.update_apply]
  split_ifs <;> simp_all

theorem reparented_parent (s : State) (cp ip p j : Nat) :
    ((reparented s cp ip p).procs j).parent = if j = p then some ip else (s.procs j).parent := by
  simp only [reparented, setp, Function.update_apply]
  split_ifs <;> simp_all

theorem setp_child (s : State) (i j : Nat) (f : proc → proc)
    (hf : ∀ q, (f q).child = q.child) :
    ((setp s i f).procs j).child = (s.procs j).child := by
  rw [setp_procs]
  split
  · rename_i e; subst e; exact hf _
  · rfl

theorem reparented_child_cp (s : State) (cp ip p : Nat) (hne : cp ≠ ip) :
    ((reparented s cp ip p).procs cp).child = (s.procs cp).child.erase p := by
  unfold reparented
  rw [setp_procs_ne _ _ _ _ hne, setp_procs_same]
  show ((setp s p _).procs cp).child.erase p = _
  rw [setp_child]
  intro q
  rfl

theorem reparented_child_ip (s : State) (cp ip p : Nat) (hne : cp ≠ ip) :
    ((reparented s cp ip p).procs ip).child = (s.procs ip).child ++ [p] := by
  have hne2 : ip ≠ cp := fun e => hne e.symm
  unfold reparented
  rw [setp_procs_same, setp_procs_ne _ _ _ _ hne2]
  show ((setp s p _).procs ip).child ++ [p] = _
  rw [setp_child]
  intro q
  rfl

theorem InitAsleep_reparented (cfg : Config) (s : State) (cp ip p : Nat) :
    InitAsleep cfg (reparented s cp ip p) ip ↔ InitAsleep cfg s ip := by
  simp only [InitAsleep, reparented_chan]
  rfl

theorem InitWoken_reparented (s : State) (cp ip p : Nat) :
    InitWoken (reparented s cp ip p) ip ↔ InitWoken s ip := by
  rfl

theorem exit_loop_spec (cfg : Config) (cp ip : Nat) (hne : cp ≠ ip) (rest : List Nat) :
    ∀ st : State, st.initproc = some ip → (st.procs cp).child = rest → rest.Nodup →
      (∀ c ∈ rest, (st.procs c).parent = some cp) →
      ∃ st1, exit_loop cfg cp rest st = .ok st1 ∧ st1.initproc = some ip ∧
        st1.cpus = st.cpus ∧ (st1.procs cp).child = [] ∧
        (∀ c ∈ rest, (st1.procs c).parent = some ip ∧ c ∈ (st1.procs ip).child) ∧
        (∀ c, (st.procs c).parent = some ip → (st1.procs c).parent = some ip) ∧
        (∀ c, c ∈ (st.procs ip).child → c ∈ (st1.procs ip).child) ∧
        (∀ j, (st1.procs j).state = (st.procs j).state) ∧
        (InitAsleep cfg st ip ∨ InitWoken st ip →
          InitAsleep cfg st1 ip ∨ InitWoken st1 ip) ∧
        (InitWoken st ip → InitWoken st1 ip) ∧
        (InitAsleep cfg st ip ∨ InitWoken st ip →
          (∃ c ∈ rest, (st.procs c).state = procstate.ZOMBIE) → InitWoken st1 ip) := by
  induction rest with
  | nil =>
    intro st hi hc _ _
    refine ⟨st, rfl, hi, rfl, hc, ?_, fun _ h => h, fun _ h => h, fun _ => rfl,
      fun h => h, fun h => h, ?_⟩
    · intro c hm; cases hm
    · rintro _ ⟨c, hm, _⟩; cases hm
  | cons p rest ih =>
    intro st hi hc hnd hpar
    have hp : (st.procs p).parent = some cp := hpar p (List.mem_cons_self _ _)
    have hpn : p ∉ rest := (List.nodup_cons.1 hnd).1
    obtain ⟨sb, hsb, hsb_init, hsb_cpus, hsb_procs, hsb_or, hsb_w, hsb_z⟩ :
        ∃ sb, exit_body cfg cp st p = .ok sb ∧ sb.initproc = some ip ∧ sb.cpus = st.cpus ∧
          sb.procs = (reparented st cp ip p).procs ∧
          (InitAsleep cfg st ip ∨ InitWoken st ip → InitAsleep cfg sb ip ∨ InitWoken sb ip) ∧
          (InitWoken st ip → InitWoken sb ip) ∧
          (InitAsleep cfg st ip ∨ InitWoken st ip →
            (st.procs p).state = procstate.ZOMBIE → InitWoken sb ip) := by
      refine ⟨_, exit_body_eq cfg cp ip p st hi hp, ?_⟩
      rw [reparented_state]
      by_cases hz : (st.procs p).state = procstate.ZOMBIE
      · simp only [hz, if_true, wakeup1_initproc, wakeup1_cpus, wakeup1_procs]
        refine ⟨hi, rfl, trivial, ?_, ?_, ?_⟩
        · intro h
          exact Or.inr (wakeup1_hit_or cfg _ ip
            (by rw [InitAsleep_reparented, InitWoken_reparented]; exact h))
        · intro h
          exact wakeup1_woken _ _ ip (by rw [InitWoken_reparented]; exact h)
        · intro h _
          exact wakeup1_hit_or cfg _ ip
            (by rw [InitAsleep_reparented, InitWoken_reparented]; exact h)
      · simp only [hz, if_false]
        refine ⟨hi, rfl, trivial, ?_, ?_, ?_⟩
        · rw [InitAsleep_reparented, InitWoken_reparented]; exact fun h => h
        · rw [InitWoken_reparented]; exact fun h => h
        · intro _ h; exact absurd h (fun h => h)
    have hcb : (sb.procs cp).child = rest := by
      rw [hsb_procs, reparented_child_cp st cp ip p hne, hc, List.erase_cons_head]
    have hparb : ∀ c ∈ rest, (sb.procs c).parent = some cp := by
      intro c hm
      rw [hsb_procs, reparented_parent]
      have : c ≠ p := fun e => hpn (e ▸ hm)
      simp only [this, if_false]
      exact hpar c (List.mem_cons_of_mem _ hm)
    obtain ⟨st1, h1, h2, h3, h4, h5, h6, h7, h8, h9, hw, h10⟩ :=
      ih sb hsb_init hcb (List.nodup_cons.1 hnd).2 hparb
    refine ⟨st1, ?_, h2, by rw [h3, hsb_cpus], h4, ?_, ?_, ?_, ?_, ?_, ?_, ?_⟩
    · simp only [exit_loop, hsb, h1]
    · intro c hm
      rcases List.mem_cons.1 hm with e | hm
      · subst e
        refine ⟨h6 c (by rw [hsb_procs, reparented_parent]; simp), h7 c ?_⟩
        rw [hsb_procs, reparented_child_ip st cp ip c hne]
        simp
      · exact h5 c hm
    · intro c hcp
      apply h6
      rw [hsb_procs, reparented_parent]
      split
      · rfl
      · exact hcp
    · intro c hm
      apply h7
      rw [hsb_procs, reparented_child_ip st cp ip p hne]
      exact List.mem_append_left _ hm
    · intro j
      rw [h8, hsb_procs, reparented_state]
    · intro h
      exact h9 (hsb_or h)
    · intro h
      exact hw (hsb_w h)
    · rintro h ⟨c, hm, hz⟩
      rcases List.mem_cons.1 hm with e | hm
      · subst e
        exact hw (hsb_z h hz)
      · refine h10 (hsb_or h) ⟨c, hm, ?_⟩
        rw [hsb_procs, reparented_state]
        exact hz

theorem setp_parent (s : State) (i j : Nat) (f : proc → proc)
    (hf : ∀ q, (f q).parent = q.parent) :
    ((setp s i f).procs j).parent = (s.procs j).parent := by
  rw [setp_procs]
  split
  · rename_i e; subst e; exact hf _
  · rfl

/-- C3: when a process `cp` other than init exits (its child list being a
proper list of its own children), `exit` completes: `cp` is a Zombie with an
empty child list and has left the CPU, every former child has init as parent
and is on init's child list; and if init was blocked in `wait` and at least one
child was already a Zombie, init ends up linked exactly once on the ready queue
and on no sleep queue, however many Zombie children there were. -/
theorem exit_reparents (cfg : Config) (s : State) (k cp ip : Nat)
    (hrun : (s.cpus k).proc = some cp) (hinit : s.initproc = some ip) (hne : cp ≠ ip)
    (hnd : (s.procs cp).child.Nodup)
    (hpar : ∀ c ∈ (s.procs cp).child, (s.procs c).parent = some cp) :
    ∃ s1, exit cfg s k = .ok s1 ∧
      (s1.procs cp).child = [] ∧ (s1.procs cp).state = procstate.ZOMBIE ∧
      (s1.cpus k).proc = none ∧
      (∀ c ∈ (s.procs cp).child, (s1.procs c).parent = some ip ∧ c ∈ (s1.procs ip).child) ∧
      (InitAsleep cfg s ip →
        (∃ c ∈ (s.procs cp).child, (s.procs c).state = procstate.ZOMBIE) →
        s1.sched_que.count ip = 1 ∧ ∀ h, ip ∉ s1.slpque h) := by
  have hni : ¬ (some cp = s.initproc) := by
    rw [hinit]
    intro e
    exact hne (Option.some.inj e)
  -- the state in which the reparenting loop starts
  have hchild : ∀ (c0 : Nat),
      ((wakeup1 (setp s cp (fun q => { q with ofile := q.ofile.map (fun _ => 0), cwd := 0 }))
        c0).procs cp).child = (s.procs cp).child := by
    intro c0
    rw [wakeup1_procs, setp_child]
    intro q
    rfl
  have hpar2 : ∀ (c0 : Nat), ∀ c ∈ (s.procs cp).child,
      ((wakeup1 (setp s cp (fun q => { q with ofile := q.ofile.map (fun _ => 0), cwd := 0 }))
        c0).procs c).parent = some cp := by
    intro c0 c hm
    rw [wakeup1_procs, setp_parent]
    · exact hpar c hm
    · intro q
      rfl
  have hst2 : ∀ (c0 c : Nat),
      ((wakeup1 (setp s cp (fun q => { q with ofile := q.ofile.map (fun _ => 0), cwd := 0 }))
        c0).procs c).state = (s.procs c).state := by
    intro c0 c
    rw [wakeup1_procs, setp_state]
    intro q
    rfl
  unfold exit
  simp only [hrun, hni, if_false]
  generalize hc0 : chanOf cfg ((setp s cp
    (fun q => { q with ofile := q.ofile.map (fun _ => 0), cwd := 0 })).procs cp).parent = c0
  obtain ⟨st1, h1, h2, h3, h4, h5, _, _, h8, h9, _, h10⟩ :=
    exit_loop_spec cfg cp ip hne _
      (wakeup1 (setp s cp (fun q => { q with ofile := q.ofile.map (fun _ => 0), cwd := 0 })) c0)
      (by simpa using hinit) rfl (by rw [hchild]; exact hnd)
      (by rw [hchild]; exact hpar2 c0)
  rw [h1]
  simp only [h4, ne_eq, not_true_eq_false, if_false]
  refine ⟨_, rfl, ?_, ?_, ?_, ?_, ?_⟩
  · simp [h4]
  · simp
  · simp
  · intro c hm
    have h := h5 c (by rw [hchild]; exact hm)
    constructor
    · simp only [scheduler_back_procs]
      rw [setp_parent]
      · exact h.1
      · intro q; rfl
    · simp only [scheduler_back_procs]
      rw [setp_child]
      · exact h.2
      · intro q; rfl
  · intro hs hz
    have hs1 : InitAsleep cfg
        (setp s cp (fun q => { q with ofile := q.ofile.map (fun _ => 0), cwd := 0 })) ip := by
      rw [InitAsleep_setp]
      · exact hs
      · intro q; rfl
    have hw : InitWoken st1 ip := by
      refine h10 (wakeup1_asleep_or cfg _ c0 ip (Or.inl hs1)) ?_
      obtain ⟨c, hm, hzc⟩ := hz
      exact ⟨c, by rw [hchild]; exact hm, by rw [hst2]; exact hzc⟩
    exact hw

theorem demoExit_asleep : InitAsleep cfg4 demoExit 0 := by
  have ha : procAddr cfg4 0 = 0xFFFF000000090000 := by
    simp [procAddr, cfg4, cfgHead]
  have hh : HASH 0xFFFF000000090000 = 0 := by
    rw [HASH_eq]; norm_num
  unfold InitAsleep
  rw [ha, hh]
  refine ⟨by simp [demoExit], by simp [demoExit], ?_, by simp [demoExit, boot]⟩
  intro h hne
  simp [demoExit, hne]

/-- Witness for C3: slot 1 exits with two Zombie children while init sleeps in
`wait`; both children go to init and init is on the ready queue once. -/
theorem exit_reparents_witness :
    ∃ s1, exit cfg4 demoExit 0 = .ok s1 ∧
      (s1.procs 1).child = [] ∧ (s1.procs 1).state = procstate.ZOMBIE ∧
      (s1.cpus 0).proc = none ∧
      (∀ c ∈ (demoExit.procs 1).child, (s1.procs c).parent = some 0 ∧ c ∈ (s1.procs 0).child) ∧
      s1.sched_que.count 0 = 1 ∧ ∀ h, 0 ∉ s1.slpque h := by
  obtain ⟨s1, h1, h2, h3, h4, h5, h6⟩ := exit_reparents cfg4 demoExit 0 1 0 rfl rfl (by decide)
    (by simp [demoExit])
    (by
      intro c hc
      simp only [demoExit, if_true, if_false, one_ne_zero, List.mem_cons, List.mem_singleton,
        List.not_mem_nil, or_false] at hc
      rcases hc with rfl | rfl <;> simp [demoExit])
  exact ⟨s1, h1, h2, h3, h4, h5, h6 demoExit_asleep ⟨2, by simp [demoExit], by simp [demoExit]⟩⟩

/-! ## Closed forms of `fork`, `exit` and `wait` -/

theorem forked_sched_que (cfg : Config) (s : State) (cp np ka pg : Nat) :
    (forked cfg s cp np ka pg).sched_que = s.sched_que ++ [np] := rfl

theorem forked_slpque (cfg : Config) (s : State) (cp np ka pg : Nat) :
    (forked cfg s cp np ka pg).slpque = s.slpque := rfl

theorem forked_cpus (cfg : Config) (s : State) (cp np ka pg : Nat) :
    (forked cfg s cp np ka pg).cpus = s.cpus := rfl

theorem forked_initproc (cfg : Config) (s : State) (cp np ka pg : Nat) :
    (forked cfg s cp np ka pg).initproc = s.initproc := rfl

theorem forked_procs_np (cfg : Config) (s : State) (cp np ka pg : Nat) (hne : cp ≠ np) :
    ((forked cfg s cp np ka pg).procs np).state = procstate.EMBRYO ∧
    ((forked cfg s cp np ka pg).procs np).pid = (np : Int) ∧
    ((forked cfg s cp np ka pg).procs np).parent = some cp ∧
    ((forked cfg s cp np ka pg).procs np).child = [] := by
  have hne2 : np ≠ cp := fun e => hne e.symm
  simp [forked, setp_procs_ne _ _ _ _ hne2, alloc_slot]

theorem forked_procs_cp (cfg : Config) (s : State) (cp np ka pg : Nat) (hne : cp ≠ np) :
    (forked cfg s cp np ka pg).procs cp =
      { s.procs cp with child := (s.procs cp).child ++ [np] } := by
  simp only [forked, setp_procs_ne _ _ _ _ hne, setp_procs_same]

theorem forked_procs_other (cfg : Config) (s : State) (cp np ka pg j : Nat)
    (h1 : j ≠ np) (h2 : j ≠ cp) :
    (forked cfg s cp np ka pg).procs j = s.procs j := by
  simp only [forked, setp_procs_ne _ _ _ _ h1, setp_procs_ne _ _ _ _ h2]

theorem fork_success (cfg : Config) (s : State) (k cp np ka pg : Nat)
    (hrun : (s.cpus k).proc = some cp) (hfree : scan s.procs cfg.NPROC 0 = some np)
    (hka : ka ≠ 0) (hpg : pg ≠ 0) :
    fork cfg s k ka pg = .ok ((np : Int), forked cfg s cp np ka pg) := by
  have h1 := proc_alloc_fst_some cfg s ka np hfree hka
  have h2 := proc_alloc_snd_some cfg s ka np hfree hka
  unfold fork
  rw [hrun]
  cases ha : proc_alloc cfg s ka with
  | mk r s0 =>
    rw [ha] at h1 h2
    simp only at h1 h2
    subst h1
    subst h2
    simp only [hpg, if_false]
    refine congrArg Except.ok (Prod.ext ?_ ?_)
    · simp only [setp_procs_same, alloc_slot]
    · rfl

theorem exit_no_children (cfg : Config) (s : State) (k cp : Nat)
    (hrun : (s.cpus k).proc = some cp) (hni : some cp ≠ s.initproc)
    (hc : (s.procs cp).child = []) :
    exit cfg s k = .ok (exited cfg s k cp) := by
  have h1 : ((setp s cp (fun q => { q with ofile := q.ofile.map (fun _ => 0), cwd := 0 })).procs
      cp).parent = (s.procs cp).parent := by
    rw [setp_procs_same]
  have h2 : ∀ c0, ((wakeup1 (setp s cp
      (fun q => { q with ofile := q.ofile.map (fun _ => 0), cwd := 0 })) c0).procs cp).child
        = [] := by
    intro c0
    rw [wakeup1_procs, setp_procs_same]
    exact hc
  unfold exit
  simp only [hrun, hni, if_false, h1, h2, exit_loop, ne_eq, not_true_eq_false]
  rfl

theorem sleep_eq (s : State) (k p chan : Nat) (hrun : (s.cpus k).proc = some p) :
    sleep s k chan = .ok (asleep_on s k p chan) := by
  unfold sleep
  simp only [(HASHi_bounds chan).2, not_true_eq_false, if_false]
  rw [hrun]
  rfl

theorem wait_sleeps (cfg : Config) (s : State) (k cp : Nat)
    (hrun : (s.cpus k).proc = some cp) (hne : (s.procs cp).child ≠ [])
    (hnz : ∀ x ∈ (s.procs cp).child, (s.procs x).state ≠ procstate.ZOMBIE) :
    wait cfg s k = .ok (WaitRes.slept, asleep_on s k cp (procAddr cfg cp)) := by
  have hf : (s.procs cp).child.find? (fun p => decide ((s.procs p).state = procstate.ZOMBIE))
      = none := by
    rw [List.find?_eq_none]
    intro x hx
    simpa using hnz x hx
  unfold wait
  simp only [hrun, hne, if_false, hf, sleep_eq s k cp _ hrun]

theorem wait_returns_child (cfg : Config) (t : State) (k cp c : Nat) (pre : List Nat)
    (hrun : (t.cpus k).proc = some cp)
    (hch : (t.procs cp).child = pre ++ [c])
    (hpre : ∀ x ∈ pre, (t.procs x).state ≠ procstate.ZOMBIE)
    (hc : c ∉ pre)
    (hz : (t.procs c).state = procstate.ZOMBIE)
    (hpar : (t.procs c).parent = some cp)
    (hpid : (t.procs c).pid = (c : Int)) :
    wait cfg t k = .ok (WaitRes.ret (c : Int), reaped t cp c) ∧
      ((reaped t cp c).procs c).state = procstate.UNUSED ∧
      ((reaped t cp c).procs cp).child = pre := by
  have hf : (t.procs cp).child.find? (fun p => decide ((t.procs p).state = procstate.ZOMBIE))
      = some c := by
    rw [hch, List.find?_append]
    have h1 : pre.find? (fun p => decide ((t.procs p).state = procstate.ZOMBIE)) = none := by
      rw [List.find?_eq_none]
      intro x hx
      simpa using hpre x hx
    rw [h1]
    simp [hz]
  refine ⟨?_, ?_, ?_⟩
  · rw [wait_reap cfg t k cp c hrun hf hpar, hpid]
  · rw [reaped_state]; simp
  · rw [reaped_child, hch, List.erase_append_right _ hc]
    simp

theorem exited_procs (cfg : Config) (s : State) (k e j : Nat) :
    (exited cfg s k e).procs j =
      if j = e then { closed_files (s.procs e) with state := procstate.ZOMBIE }
      else s.procs j := by
  unfold exited
  rw [scheduler_back_procs, setp_procs, wakeup1_procs]
  split
  · rw [setp_procs_same]
  · rename_i h
    rw [setp_procs_ne _ _ _ _ h]

theorem exited_cpus (cfg : Config) (s : State) (k e : Nat) :
    (exited cfg s k e).cpus = Function.update s.cpus k { (s.cpus k) with proc := none } := by
  simp [exited, scheduler_back]

theorem exited_sched_que (cfg : Config) (s : State) (k e : Nat) :
    (exited cfg s k e).sched_que = s.sched_que ++
      (s.slpque (HASH (chanOf cfg (s.procs e).parent))).filter
        (fun p => decide ((s.procs p).chan = chanOf cfg (s.procs e).parent)) := by
  unfold exited
  rw [scheduler_back_sched_que, setp_sched_que, wakeup1_sched_que, setp_sched_que, setp_slpque]
  congr 1
  apply List.filter_congr
  intro x _
  rw [setp_chan]
  intro q
  rfl

theorem asleep_on_procs (s : State) (k p chan j : Nat) :
    (asleep_on s k p chan).procs j =
      if j = p then { s.procs p with chan := chan } else s.procs j := by
  unfold asleep_on
  rw [scheduler_back_procs]
  exact setp_procs s p j (fun q => { q with chan := chan })

theorem asleep_on_sched_que (s : State) (k p chan : Nat) :
    (asleep_on s k p chan).sched_que = s.sched_que := rfl

theorem asleep_on_slpque (s : State) (k p chan : Nat) :
    (asleep_on s k p chan).slpque =
      Function.update s.slpque (HASH chan) (s.slpque (HASH chan) ++ [p]) := rfl

theorem asleep_on_cpus (s : State) (k p chan : Nat) :
    (asleep_on s k p chan).cpus = Function.update s.cpus k { (s.cpus k) with proc := none } := by
  simp [asleep_on, scheduler_back]

theorem asleep_on_initproc (s : State) (k p chan : Nat) :
    (asleep_on s k p chan).initproc = s.initproc := rfl

theorem forked_state_other (cfg : Config) (s : State) (cp np ka pg j : Nat)
    (hne : cp ≠ np) (h1 : j ≠ np) :
    ((forked cfg s cp np ka pg).procs j).state = (s.procs j).state ∧
    ((forked cfg s cp np ka pg).procs j).chan = (s.procs j).chan := by
  by_cases h2 : j = cp
  · subst h2
    rw [forked_procs_cp cfg s j np ka pg hne]
    exact ⟨rfl, rfl⟩
  · rw [forked_procs_other cfg s cp np ka pg j h1 h2]
    exact ⟨rfl, rfl⟩

theorem set_running_cpus_ne (s : State) (k p k2 : Nat) (h : k2 ≠ k) :
    (set_running s k p).cpus k2 = s.cpus k2 := by
  simp [set_running, Function.update_noteq h]

@[simp] theorem set_running_initproc (s : State) (k p : Nat) :
    (set_running s k p).initproc = s.initproc := rfl

/-! ## Queue membership in reachable states (C10) -/

theorem count_filter_split (l : List Nat) (m : Nat → Bool) (x : Nat) :
    (l.filter m).count x + (l.filter (fun a => !m a)).count x = l.count x := by
  induction l with
  | nil => simp
  | cons a l ih =>
    simp only [List.filter_cons]
    cases h : m a <;> simp [List.count_cons, ← ih] <;> omega

theorem occ_slp_update_ge (q : Nat → List Nat) (p h0 : Nat) (l : List Nat) (n : Nat)
    (h : n ≤ h0) : occ_slp (Function.update q h0 l) p n = occ_slp q p n := by
  induction n with
  | zero => rfl
  | succ n ih =>
    have hne : n ≠ h0 := by omega
    simp only [occ_slp, Function.update_noteq hne]
    rw [ih (by omega)]

theorem occ_slp_update (q : Nat → List Nat) (p h0 : Nat) (l : List Nat) (n : Nat)
    (h : h0 < n) :
    occ_slp (Function.update q h0 l) p n + (q h0).count p = occ_slp q p n + l.count p := by
  induction n with
  | zero => omega
  | succ n ih =>
    by_cases e : n = h0
    · subst e
      simp only [occ_slp, Function.update_same]
      rw [occ_slp_update_ge q p n l n (le_refl n)]
      omega
    · simp only [occ_slp, Function.update_noteq e]
      have := ih (by omega)
      omega

theorem occ_slp_congr (q1 q2 : Nat → List Nat) (p n : Nat) (h : ∀ i, i < n → q1 i = q2 i) :
    occ_slp q1 p n = occ_slp q2 p n := by
  induction n with
  | zero => rfl
  | succ n ih =>
    simp only [occ_slp]
    rw [ih (fun i hi => h i (by omega)), h n (by omega)]

theorem occ_slp_nil (q : Nat → List Nat) (p n : Nat) (h : ∀ i, i < n → q i = []) :
    occ_slp q p n = 0 := by
  induction n with
  | zero => rfl
  | succ n ih =>
    simp only [occ_slp]
    rw [ih (fun i hi => h i (by omega)), h n (by omega)]
    rfl

theorem occ_wakeup1 (s : State) (c p : Nat) : occ (wakeup1 s c) p = occ s p := by
  unfold occ
  rw [wakeup1_sched_que, wakeup1_slpque, List.count_append]
  have h1 := occ_slp_update s.slpque p (HASH c)
    ((s.slpque (HASH c)).filter (fun p => !decide ((s.procs p).chan = c))) SQSIZE (HASH_lt c)
  have h2 := count_filter_split (s.slpque (HASH c)) (fun p => decide ((s.procs p).chan = c)) p
  omega

theorem view_wakeup1 (s : State) (c : Nat) : view (wakeup1 s c) = view s := by
  unfold view
  congr 1
  · funext p
    exact occ_wakeup1 s c p
  · rw [wakeup1_procs]
  · rw [wakeup1_cpus]

theorem occ_push_sched (s s1 : State) (p x : Nat) (h1 : s1.sched_que = s.sched_que ++ [p])
    (h2 : s1.slpque = s.slpque) : occ s1 x = occ s x + if x = p then 1 else 0 := by
  unfold occ
  rw [h1, h2, List.count_append, List.count_singleton]
  by_cases e : x = p
  · subst e; simp; omega
  · have e2 : ¬ (p = x) := fun h => e h.symm
    simp [e, e2]

theorem occ_push_slp (s s1 : State) (p x c : Nat) (h1 : s1.sched_que = s.sched_que)
    (h2 : s1.slpque = Function.update s.slpque (HASH c) (s.slpque (HASH c) ++ [p])) :
    occ s1 x = occ s x + if x = p then 1 else 0 := by
  unfold occ
  rw [h1, h2]
  have h3 := occ_slp_update s.slpque x (HASH c) (s.slpque (HASH c) ++ [p]) SQSIZE (HASH_lt c)
  rw [List.count_append, List.count_singleton] at h3
  by_cases e : x = p
  · subst e; simp at h3 ⊢; omega
  · have e2 : ¬ (p = x) := fun h => e h.symm
    simp [e, e2] at h3 ⊢
    omega

theorem occ_same (s s1 : State) (x : Nat) (h1 : s1.sched_que = s.sched_que)
    (h2 : s1.slpque = s.slpque) : occ s1 x = occ s x := by
  unfold occ
  rw [h1, h2]

theorem upd_proc_proc (c : Nat → cpu) (k k2 : Nat) (x : Option Nat) :
    (Function.update c k { (c k) with proc := x } k2).proc = if k2 = k then x else (c k2).proc := by
  by_cases h : k2 = k
  · subst h; simp
  · simp [Function.update_noteq h, h]

theorem upd_proc_idle (c : Nat → cpu) (k k2 : Nat) (x : Option Nat) :
    (Function.update c k { (c k) with proc := x } k2).idle = (c k2).idle := by
  by_cases h : k2 = k
  · subst h; simp
  · simp [Function.update_noteq h]

theorem upd_idle_idle (c : Nat → cpu) (k k2 : Nat) (x : Option Nat) :
    (Function.update c k { (c k) with idle := x } k2).idle = if k2 = k then x else (c k2).idle := by
  by_cases h : k2 = k
  · subst h; simp
  · simp [Function.update_noteq h, h]

theorem upd_idle_proc (c : Nat → cpu) (k k2 : Nat) (x : Option Nat) :
    (Function.update c k { (c k) with idle := x } k2).proc = (c k2).proc := by
  by_cases h : k2 = k
  · subst h; simp
  · simp [Function.update_noteq h]

theorem VFree_of_state (v : View) (i : Nat) (hv : VInv v) (h : v.st i ≠ procstate.EMBRYO) :
    VFree v i := by
  refine ⟨?_, ?_, ?_⟩
  · by_contra h0
    exact h (hv.queued i (Nat.pos_of_ne_zero h0))
  · intro k hk
    exact h (hv.running k i hk).2
  · intro k hk
    exact h (hv.idle k i hk).2

theorem VInv_deschedule (v : View) (k : Nat) (hv : VInv v) : VInv (v.deschedule k) := by
  have hp : ∀ k2 p, ((v.deschedule k).cpus k2).proc = some p → (v.cpus k2).proc = some p := by
    intro k2 p h
    simp only [View.deschedule, upd_proc_proc] at h
    split at h
    · cases h
    · exact h
  have hi : ∀ k2, ((v.deschedule k).cpus k2).idle = (v.cpus k2).idle := by
    intro k2
    simp only [View.deschedule, upd_proc_idle]
  constructor
  · exact hv.once
  · exact hv.queued
  · intro k2 p h
    exact hv.running k2 p (hp k2 p h)
  · intro k2 i h
    rw [hi] at h
    exact hv.idle k2 i h
  · intro k1 k2 i h1 h2
    rw [hi] at h1 h2
    exact hv.idle_inj k1 k2 i h1 h2
  · intro k1 k2 i h1 h2
    rw [hi] at h1
    exact hv.idle_run k1 k2 i h1 (hp k2 i h2)
  · intro k1 k2 p h1 h2
    exact hv.run_inj k1 k2 p (hp k1 p h1) (hp k2 p h2)

theorem VFree_deschedule (v : View) (k p : Nat) (hv : VInv v)
    (hrun : (v.cpus k).proc = some p) (hidle : some p ≠ (v.cpus k).idle) :
    VFree (v.deschedule k) p := by
  refine ⟨(hv.running k p hrun).1, ?_, ?_⟩
  · intro k2 h
    simp only [View.deschedule, upd_proc_proc] at h
    split at h
    · cases h
    · rename_i hne
      exact hne (hv.run_inj k k2 p hrun h).symm
  · intro k2 h
    simp only [View.deschedule, upd_proc_idle] at h
    have e := hv.idle_run k2 k p h hrun
    subst e
    exact hidle h.symm

theorem VInv_enqueue (v : View) (p : Nat) (hv : VInv v) (hf : VFree v p)
    (hs : v.st p = procstate.EMBRYO) : VInv (v.enqueue p) := by
  obtain ⟨f1, f2, f3⟩ := hf
  constructor
  · intro q
    simp only [View.enqueue]
    split
    · rename_i e; subst e; omega
    · have := hv.once q; omega
  · intro q h
    simp only [View.enqueue] at h ⊢
    split at h
    · rename_i e; subst e; exact hs
    · exact hv.queued q (by omega)
  · intro k q h
    have hne : q ≠ p := fun e => f2 k (e ▸ h)
    simp only [View.enqueue, hne, if_false, Nat.add_zero]
    exact hv.running k q h
  · intro k i h
    have hne : i ≠ p := fun e => f3 k (e ▸ h)
    simp only [View.enqueue, hne, if_false, Nat.add_zero]
    exact hv.idle k i h
  · exact hv.idle_inj
  · exact hv.idle_run
  · exact hv.run_inj

theorem VInv_run_head (v : View) (k p : Nat) (hv : VInv v) (_hk : (v.cpus k).proc = none)
    (hp : v.occ p = 1) : VInv (v.run_head k p) := by
  have hnr : ∀ k2, (v.cpus k2).proc ≠ some p := by
    intro k2 h
    have := (hv.running k2 p h).1
    omega
  have hni : ∀ k2, (v.cpus k2).idle ≠ some p := by
    intro k2 h
    have := (hv.idle k2 p h).1
    omega
  constructor
  · intro q
    have := hv.once q
    simp only [View.run_head]
    omega
  · intro q h
    simp only [View.run_head] at h ⊢
    exact hv.queued q (by omega)
  · intro k2 q h
    simp only [View.run_head, upd_proc_proc] at h ⊢
    split at h
    · simp only [Option.some.injEq] at h
      subst h
      simp only [if_true]
      exact ⟨by omega, hv.queued p (by omega)⟩
    · have := hv.running k2 q h
      exact ⟨by omega, this.2⟩
  · intro k2 i h
    simp only [View.run_head, upd_proc_idle] at h ⊢
    have := hv.idle k2 i h
    exact ⟨by omega, this.2⟩
  · intro k1 k2 i h1 h2
    simp only [View.run_head, upd_proc_idle] at h1 h2
    exact hv.idle_inj k1 k2 i h1 h2
  · intro k1 k2 i h1 h2
    simp only [View.run_head, upd_proc_idle, upd_proc_proc] at h1 h2
    split at h2
    · simp only [Option.some.injEq] at h2
      subst h2
      exact absurd h1 (hni k1)
    · exact hv.idle_run k1 k2 i h1 h2
  · intro k1 k2 q h1 h2
    simp only [View.run_head, upd_proc_proc] at h1 h2
    split at h1 <;> split at h2
    · rename_i e1 e2; rw [e1, e2]
    · simp only [Option.some.injEq] at h1
      subst h1
      exact absurd h2 (hnr k2)
    · simp only [Option.some.injEq] at h2
      subst h2
      exact absurd h1 (hnr k1)
    · exact hv.run_inj k1 k2 q h1 h2

theorem VInv_run (v : View) (k i : Nat) (hv : VInv v) (_hk : (v.cpus k).proc = none)
    (hi : (v.cpus k).idle = some i) : VInv (v.run k i) := by
  constructor
  · exact hv.once
  · exact hv.queued
  · intro k2 q h
    simp only [View.run, upd_proc_proc] at h
    split at h
    · simp only [Option.some.injEq] at h
      subst h
      exact hv.idle k _ hi
    · exact hv.running k2 q h
  · intro k2 j h
    simp only [View.run, upd_proc_idle] at h
    exact hv.idle k2 j h
  · intro k1 k2 j h1 h2
    simp only [View.run, upd_proc_idle] at h1 h2
    exact hv.idle_inj k1 k2 j h1 h2
  · intro k1 k2 j h1 h2
    simp only [View.run, upd_proc_idle, upd_proc_proc] at h1 h2
    split at h2
    · rename_i e
      simp only [Option.some.injEq] at h2
      subst h2
      rw [e]
      exact hv.idle_inj k k1 _ hi h1
    · exact hv.idle_run k1 k2 j h1 h2
  · intro k1 k2 q h1 h2
    simp only [View.run, upd_proc_proc] at h1 h2
    split at h1 <;> split at h2
    · rename_i e1 e2; rw [e1, e2]
    · rename_i e1 e2
      simp only [Option.some.injEq] at h1
      subst h1
      exact absurd (hv.idle_run k k2 _ hi h2) e2
    · rename_i e1 e2
      simp only [Option.some.injEq] at h2
      subst h2
      exact absurd (hv.idle_run k k1 _ hi h1) e1
    · exact hv.run_inj k1 k2 q h1 h2

theorem VInv_setState (v : View) (i : Nat) (x : procstate) (hv : VInv v) (hf : VFree v i) :
    VInv (v.setState i x) := by
  obtain ⟨f1, f2, f3⟩ := hf
  constructor
  · exact hv.once
  · intro q h
    have hne : q ≠ i := by
      intro e
      subst e
      simp only [View.setState] at h
      omega
    simp only [View.setState, Function.update_noteq hne]
    exact hv.queued q h
  · intro k q h
    have hne : q ≠ i := fun e => f2 k (e ▸ h)
    simp only [View.setState, Function.update_noteq hne]
    exact hv.running k q h
  · intro k j h
    have hne : j ≠ i := fun e => f3 k (e ▸ h)
    simp only [View.setState, Function.update_noteq hne]
    exact hv.idle k j h
  · exact hv.idle_inj
  · exact hv.idle_run
  · exact hv.run_inj

theorem VInv_setIdle (v : View) (k i : Nat) (hv : VInv v) (hf : VFree v i)
    (hs : v.st i = procstate.EMBRYO) : VInv (v.setIdle k i) := by
  obtain ⟨f1, f2, f3⟩ := hf
  constructor
  · exact hv.once
  · exact hv.queued
  · intro k2 q h
    simp only [View.setIdle, upd_idle_proc] at h
    exact hv.running k2 q h
  · intro k2 j h
    simp only [View.setIdle, upd_idle_idle] at h
    split at h
    · simp only [Option.some.injEq] at h
      subst h
      exact ⟨f1, hs⟩
    · exact hv.idle k2 j h
  · intro k1 k2 j h1 h2
    simp only [View.setIdle, upd_idle_idle] at h1 h2
    split at h1 <;> split at h2
    · rename_i e1 e2; rw [e1, e2]
    · simp only [Option.some.injEq] at h1
      subst h1
      exact absurd h2 (f3 k2)
    · simp only [Option.some.injEq] at h2
      subst h2
      exact absurd h1 (f3 k1)
    · exact hv.idle_inj k1 k2 j h1 h2
  · intro k1 k2 j h1 h2
    simp only [View.setIdle, upd_idle_idle, upd_idle_proc] at h1 h2
    split at h1
    · simp only [Option.some.injEq] at h1
      subst h1
      exact absurd h2 (f2 k2)
    · exact hv.idle_run k1 k2 j h1 h2
  · intro k1 k2 q h1 h2
    simp only [View.setIdle, upd_idle_proc] at h1 h2
    exact hv.run_inj k1 k2 q h1 h2

theorem view_eq_of (s s1 : State) (h1 : s1.sched_que = s.sched_que)
    (h2 : s1.slpque = s.slpque) (h3 : ∀ j, (s1.procs j).state = (s.procs j).state)
    (h4 : s1.cpus = s.cpus) : view s1 = view s := by
  unfold view
  congr 1
  · funext p
    exact occ_same s s1 p h1 h2
  · funext j
    exact h3 j

theorem Inv_wakeup (s : State) (c : Nat) (h : Inv s) : Inv (wakeup s c) := by
  unfold Inv wakeup
  rw [view_wakeup1]
  exact h

theorem Inv_scheduler_pick (s s1 : State) (k p : Nat) (h : Inv s)
    (hk : (s.cpus k).proc = none) (hp : scheduler_pick s k = .ok (p, s1)) : Inv s1 := by
  cases hq : s.sched_que with
  | nil =>
    cases hi : (s.cpus k).idle with
    | none => simp [scheduler_pick, hq, hi] at hp
    | some i =>
      rw [scheduler_pick_nil s k i hq hi] at hp
      simp only [Except.ok.injEq, Prod.mk.injEq] at hp
      rw [← hp.2]
      have e : view (set_running s k i) = (view s).run k i := rfl
      unfold Inv
      rw [e]
      exact VInv_run (view s) k i h hk hi
  | cons q rest =>
    rw [scheduler_pick_cons s k q rest hq] at hp
    simp only [Except.ok.injEq, Prod.mk.injEq] at hp
    rw [← hp.2]
    have hocc : ∀ x, occ s x = occ { s with sched_que := rest } x + if x = q then 1 else 0 := by
      intro x
      unfold occ
      rw [hq, List.count_cons]
      by_cases e : x = q
      · subst e; simp; omega
      · have e2 : ¬ (q = x) := fun h => e h.symm
        simp [e, e2]
    have e : view (set_running { s with sched_que := rest } k q) = (view s).run_head k q := by
      unfold view View.run_head
      congr 1
      funext x
      show occ { s with sched_que := rest } x = occ s x - if x = q then 1 else 0
      rw [hocc x]
      omega
    unfold Inv
    rw [e]
    apply VInv_run_head (view s) k q h hk
    have h1 := h.once q
    have h2 := hocc q
    simp only [if_true] at h2
    show occ s q = 1
    have h3 : (view s).occ q = occ s q := rfl
    omega

theorem Inv_yield (s s1 : State) (k : Nat) (h : Inv s) (hy : yield s k = .ok s1) : Inv s1 := by
  unfold yield at hy
  cases hr : (s.cpus k).proc with
  | none => simp [hr] at hy
  | some p =>
    simp only [hr, Except.ok.injEq] at hy
    rw [← hy]
    by_cases hi : some p = (s.cpus k).idle
    · simp only [hi, ne_eq, not_true_eq_false, if_false]
      have e : view (scheduler_back s k) = (view s).deschedule k := rfl
      unfold Inv
      rw [e]
      exact VInv_deschedule (view s) k h
    · simp only [hi, ne_eq, not_false_eq_true, if_true]
      have e : view (scheduler_back { s with sched_que := s.sched_que ++ [p] } k) =
          ((view s).deschedule k).enqueue p := by
        unfold view View.deschedule View.enqueue
        congr 1
        funext x
        exact occ_push_sched s _ p x rfl rfl
      unfold Inv
      rw [e]
      exact VInv_enqueue _ p (VInv_deschedule (view s) k h)
        (VFree_deschedule (view s) k p h hr hi) (h.running k p hr).2

theorem view_asleep_on (s : State) (k p chan : Nat) :
    view (asleep_on s k p chan) = ((view s).deschedule k).enqueue p := by
  unfold view View.deschedule View.enqueue
  congr 1
  · funext x
    exact occ_push_slp s _ p x chan (asleep_on_sched_que s k p chan) (asleep_on_slpque s k p chan)
  · funext j
    rw [asleep_on_procs]
    split
    · rename_i e; subst e; rfl
    · rfl

theorem Inv_asleep_on (s : State) (k p chan : Nat) (h : Inv s)
    (hr : (s.cpus k).proc = some p) (hi : some p ≠ (s.cpus k).idle) :
    Inv (asleep_on s k p chan) := by
  unfold Inv
  rw [view_asleep_on]
  exact VInv_enqueue _ p (VInv_deschedule (view s) k h)
    (VFree_deschedule (view s) k p h hr hi) (h.running k p hr).2

theorem Inv_sleep (s s1 : State) (k p chan : Nat) (h : Inv s)
    (hr : (s.cpus k).proc = some p) (hi : some p ≠ (s.cpus k).idle)
    (hs : sleep s k chan = .ok s1) : Inv s1 := by
  rw [sleep_eq s k p chan hr] at hs
  simp only [Except.ok.injEq] at hs
  rw [← hs]
  exact Inv_asleep_on s k p chan h hr hi

theorem fork_cases (cfg : Config) (s s1 : State) (k ka pg : Nat) (v : Int)
    (h : fork cfg s k ka pg = .ok (v, s1)) :
    ∃ cp np, (s.cpus k).proc = some cp ∧ scan s.procs cfg.NPROC 0 = some np ∧ ka ≠ 0 ∧
      ((pg = 0 ∧ s1 = fork_failed cfg s np ka) ∨ (pg ≠ 0 ∧ s1 = forked cfg s cp np ka pg)) := by
  cases hr : (s.cpus k).proc with
  | none => simp [fork, hr] at h
  | some cp =>
    cases ha : (proc_alloc cfg s ka).1 with
    | none =>
      rw [fork_of_alloc_none cfg s k ka pg ha] at h
      cases h
    | some np =>
      obtain ⟨hs, hk⟩ := proc_alloc_fst_some_inv cfg s ka np ha
      refine ⟨cp, np, rfl, hs, hk, ?_⟩
      by_cases hp : pg = 0
      · left
        refine ⟨hp, ?_⟩
        subst hp
        have h2 := proc_alloc_snd_some cfg s ka np hs hk
        unfold fork at h
        rw [hr] at h
        cases hpa : proc_alloc cfg s ka with
        | mk r s0 =>
          rw [hpa] at ha h2 h
          simp only at ha h2
          subst ha
          subst h2
          simp only [if_true, Except.ok.injEq, Prod.mk.injEq] at h
          rw [← h.2]
          rfl
      · right
        refine ⟨hp, ?_⟩
        rw [fork_success cfg s k cp np ka pg hr hs hk hp] at h
        simp only [Except.ok.injEq, Prod.mk.injEq] at h
        exact h.2.symm

theorem view_fork_failed (cfg : Config) (s : State) (np ka : Nat)
    (hu : (s.procs np).state = procstate.UNUSED) : view (fork_failed cfg s np ka) = view s := by
  refine view_eq_of s (fork_failed cfg s np ka) rfl rfl ?_ rfl
  intro j
  by_cases e : j = np
  · subst e
    simp only [fork_failed, setp_procs_same]
    exact hu.symm
  · simp only [fork_failed, setp_procs_ne _ _ _ _ e]

theorem view_forked (cfg : Config) (s : State) (cp np ka pg : Nat) (hne : cp ≠ np) :
    view (forked cfg s cp np ka pg) = ((view s).setState np procstate.EMBRYO).enqueue np := by
  unfold view View.setState View.enqueue
  congr 1
  · funext x
    exact occ_push_sched s _ np x (forked_sched_que cfg s cp np ka pg)
      (forked_slpque cfg s cp np ka pg)
  · funext j
    by_cases e : j = np
    · subst e
      rw [(forked_procs_np cfg s cp j ka pg hne).1]
      simp
    · rw [(forked_state_other cfg s cp np ka pg j hne e).1]
      show _ = Function.update (fun j => (s.procs j).state) np procstate.EMBRYO j
      rw [Function.update_noteq e]

theorem VFree_setState (v : View) (i j : Nat) (x : procstate) (h : VFree v i) :
    VFree (v.setState j x) i := h

theorem Inv_fork (cfg : Config) (s s1 : State) (k ka pg : Nat) (v : Int) (h : Inv s)
    (hf : fork cfg s k ka pg = .ok (v, s1)) : Inv s1 := by
  obtain ⟨cp, np, hr, hs, _, hc⟩ := fork_cases cfg s s1 k ka pg v hf
  have hu : (s.procs np).state = procstate.UNUSED := (scan_some _ _ _ _ hs).2.2.1
  have hfree : VFree (view s) np := VFree_of_state (view s) np h (by
    show (s.procs np).state ≠ procstate.EMBRYO
    rw [hu]
    decide)
  rcases hc with ⟨_, e⟩ | ⟨_, e⟩
  · subst e
    unfold Inv
    rw [view_fork_failed cfg s np ka hu]
    exact h
  · subst e
    have hne : cp ≠ np := by
      intro e
      subst e
      have := (h.running k cp hr).2
      have h2 : (view s).st cp = (s.procs cp).state := rfl
      rw [h2, hu] at this
      cases this
    unfold Inv
    rw [view_forked cfg s cp np ka pg hne]
    apply VInv_enqueue
    · exact VInv_setState (view s) np _ h hfree
    · exact VFree_setState (view s) np np _ hfree
    · simp [View.setState]

theorem view_reparented (s : State) (cp ip p : Nat) : view (reparented s cp ip p) = view s :=
  view_eq_of s _ rfl rfl (reparented_state s cp ip p) rfl

theorem exit_body_view (cfg : Config) (cp p : Nat) (s s1 : State)
    (h : exit_body cfg cp s p = .ok s1) : view s1 = view s := by
  by_cases hp : (s.procs p).parent = some cp
  · cases hi : s.initproc with
    | none => simp [exit_body, hp, hi] at h
    | some ip =>
      rw [exit_body_eq cfg cp ip p s hi hp] at h
      simp only [Except.ok.injEq] at h
      rw [← h]
      split
      · rw [view_wakeup1, view_reparented]
      · rw [view_reparented]
  · simp [exit_body, hp] at h

theorem exit_loop_view (cfg : Config) (cp : Nat) (rest : List Nat) :
    ∀ s s1 : State, exit_loop cfg cp rest s = .ok s1 → view s1 = view s := by
  induction rest with
  | nil =>
    intro s s1 h
    simp only [exit_loop, Except.ok.injEq] at h
    rw [h]
  | cons p rest ih =>
    intro s s1 h
    simp only [exit_loop] at h
    cases hb : exit_body cfg cp s p with
    | error e => simp [hb] at h
    | ok sb =>
      simp only [hb] at h
      rw [ih sb s1 h, exit_body_view cfg cp p s sb hb]

theorem view_setp_same (s : State) (i : Nat) (f : proc → proc)
    (hf : ∀ q, (f q).state = q.state) : view (setp s i f) = view s :=
  view_eq_of s _ rfl rfl (fun j => setp_state s i j f hf) rfl

theorem view_zombie_back (s : State) (k cp : Nat) :
    view (scheduler_back (setp s cp (fun q => { q with state := procstate.ZOMBIE })) k) =
      ((view s).deschedule k).setState cp procstate.ZOMBIE := by
  unfold view View.deschedule View.setState
  congr 1
  funext j
  rw [scheduler_back_procs]
  show _ = Function.update (fun j => (s.procs j).state) cp procstate.ZOMBIE j
  by_cases e : j = cp
  · subst e
    rw [setp_procs_same, Function.update_same]
  · rw [setp_procs_ne _ _ _ _ e, Function.update_noteq e]

theorem exit_view (cfg : Config) (s s1 : State) (k : Nat) (h : exit cfg s k = .ok s1) :
    ∃ cp, (s.cpus k).proc = some cp ∧
      view s1 = ((view s).deschedule k).setState cp procstate.ZOMBIE := by
  unfold exit at h
  cases hr : (s.cpus k).proc with
  | none => simp [hr] at h
  | some cp =>
    refine ⟨cp, rfl, ?_⟩
    simp only [hr] at h
    split at h
    · cases h
    · generalize hc0 : chanOf cfg ((setp s cp
        (fun q => { q with ofile := q.ofile.map (fun _ => 0), cwd := 0 })).procs cp).parent = c0
        at h
      cases hl : exit_loop cfg cp
        ((wakeup1 (setp s cp (fun q => { q with ofile := q.ofile.map (fun _ => 0), cwd := 0 }))
          c0).procs cp).child
        (wakeup1 (setp s cp (fun q => { q with ofile := q.ofile.map (fun _ => 0), cwd := 0 }))
          c0) with
      | error e =>
        rw [hl] at h
        cases h
      | ok s3 =>
        rw [hl] at h
        simp only at h
        split at h
        · cases h
        · simp only [Except.ok.injEq] at h
          rw [← h, view_zombie_back, exit_loop_view cfg cp _ _ s3 hl, view_wakeup1,
            view_setp_same]
          intro q
          rfl

theorem Inv_exit (cfg : Config) (s s1 : State) (k p : Nat) (h : Inv s)
    (hr : (s.cpus k).proc = some p) (hi : some p ≠ (s.cpus k).idle)
    (hx : exit cfg s k = .ok s1) : Inv s1 := by
  obtain ⟨cp, hr2, e⟩ := exit_view cfg s s1 k hx
  rw [hr] at hr2
  have e2 : p = cp := Option.some.inj hr2
  subst e2
  unfold Inv
  rw [e]
  exact VInv_setState _ p _ (VInv_deschedule (view s) k h)
    (VFree_deschedule (view s) k p h hr hi)

theorem wait_cases (cfg : Config) (s s1 : State) (k : Nat) (r : WaitRes)
    (h : wait cfg s k = .ok (r, s1)) :
    ∃ cp, (s.cpus k).proc = some cp ∧
      (s1 = s ∨ (∃ a, (s.procs a).state = procstate.ZOMBIE ∧ s1 = reaped s cp a) ∨
        s1 = asleep_on s k cp (procAddr cfg cp)) := by
  cases hr : (s.cpus k).proc with
  | none => simp [wait, hr] at h
  | some cp =>
    refine ⟨cp, rfl, ?_⟩
    by_cases hc : (s.procs cp).child = []
    · rw [wait_of_child_nil cfg s k cp hr hc] at h
      simp only [Except.ok.injEq, Prod.mk.injEq] at h
      exact Or.inl h.2.symm
    · cases hf : (s.procs cp).child.find?
        (fun p => decide ((s.procs p).state = procstate.ZOMBIE)) with
      | none =>
        have hnz : ∀ x ∈ (s.procs cp).child, (s.procs x).state ≠ procstate.ZOMBIE := by
          intro x hx
          have := List.find?_eq_none.1 hf x hx
          simpa using this
        rw [wait_sleeps cfg s k cp hr hc hnz] at h
        simp only [Except.ok.injEq, Prod.mk.injEq] at h
        exact Or.inr (Or.inr h.2.symm)
      | some a =>
        have hz : (s.procs a).state = procstate.ZOMBIE := by
          have := List.find?_some hf
          simpa using this
        by_cases hp : (s.procs a).parent = some cp
        · rw [wait_reap cfg s k cp a hr hf hp] at h
          simp only [Except.ok.injEq, Prod.mk.injEq] at h
          exact Or.inr (Or.inl ⟨a, hz, h.2.symm⟩)
        · simp [wait, hr, hc, hf, hp] at h

theorem view_reaped (s : State) (cp a : Nat) :
    view (reaped s cp a) = (view s).setState a procstate.UNUSED := by
  unfold view View.setState
  congr 1
  funext j
  rw [reaped_state]
  show _ = Function.update (fun j => (s.procs j).state) a procstate.UNUSED j
  by_cases e : j = a
  · subst e
    simp
  · simp [e]

theorem Inv_wait (cfg : Config) (s s1 : State) (k p : Nat) (r : WaitRes) (h : Inv s)
    (hr : (s.cpus k).proc = some p) (hi : some p ≠ (s.cpus k).idle)
    (hw : wait cfg s k = .ok (r, s1)) : Inv s1 := by
  obtain ⟨cp, hr2, hc⟩ := wait_cases cfg s s1 k r hw
  rw [hr] at hr2
  have e2 : p = cp := Option.some.inj hr2
  subst e2
  rcases hc with e | ⟨a, hz, e⟩ | e
  · subst e; exact h
  · subst e
    unfold Inv
    rw [view_reaped]
    exact VInv_setState (view s) a _ h (VFree_of_state (view s) a h (by
      show (s.procs a).state ≠ procstate.EMBRYO
      rw [hz]
      decide))
  · subst e
    exact Inv_asleep_on s k p _ h hr hi

theorem proc_alloc_eq_some (cfg : Config) (s : State) (ka np : Nat)
    (h : (proc_alloc cfg s ka).1 = some np) :
    (s.procs np).state = procstate.UNUSED ∧
      proc_alloc cfg s ka = (some np, setp s np (alloc_slot cfg np ka)) := by
  obtain ⟨hs, hk⟩ := proc_alloc_fst_some_inv cfg s ka np h
  refine ⟨(scan_some _ _ _ _ hs).2.2.1, Prod.ext h ?_⟩
  exact proc_alloc_snd_some cfg s ka np hs hk

theorem alloc_slot_state (cfg : Config) (i ka : Nat) (q : proc) :
    (alloc_slot cfg i ka q).state = procstate.EMBRYO := rfl

theorem idle_init_view (cfg : Config) (s s1 : State) (k ka pg : Nat)
    (h : idle_init cfg s k ka pg = .ok s1) :
    ∃ np, (s.procs np).state = procstate.UNUSED ∧
      view s1 = ((view s).setState np procstate.EMBRYO).setIdle k np := by
  cases ha : (proc_alloc cfg s ka).1 with
  | none =>
    unfold idle_init at h
    cases hp : proc_alloc cfg s ka with
    | mk r s0 =>
      rw [hp] at ha h
      simp only at ha
      subst ha
      cases h
  | some np =>
    obtain ⟨hu, he⟩ := proc_alloc_eq_some cfg s ka np ha
    refine ⟨np, hu, ?_⟩
    unfold idle_init at h
    rw [he] at h
    simp only [Except.ok.injEq] at h
    rw [← h]
    unfold view View.setState View.setIdle
    congr 1
    funext j
    dsimp only
    by_cases e : j = np
    · subst e
      rw [setp_procs_same, setp_procs_same, Function.update_same]
      rfl
    · rw [setp_procs_ne _ _ _ _ e, setp_procs_ne _ _ _ _ e, Function.update_noteq e]

theorem Inv_idle_init (cfg : Config) (s s1 : State) (k ka pg : Nat) (h : Inv s)
    (hi : idle_init cfg s k ka pg = .ok s1) : Inv s1 := by
  obtain ⟨np, hu, e⟩ := idle_init_view cfg s s1 k ka pg hi
  have hfree : VFree (view s) np := VFree_of_state (view s) np h (by
    show (s.procs np).state ≠ procstate.EMBRYO
    rw [hu]
    decide)
  unfold Inv
  rw [e]
  apply VInv_setIdle
  · exact VInv_setState (view s) np _ h hfree
  · exact VFree_setState (view s) np np _ hfree
  · simp [View.setState]

theorem user_init_view (cfg : Config) (s s1 : State) (ka pg root : Nat)
    (h : user_init cfg s ka pg root = .ok s1) :
    ∃ np, (s.procs np).state = procstate.UNUSED ∧ s1.initproc = some np ∧
      s1.sched_que = s.sched_que ++ [np] ∧ s1.slpque = s.slpque ∧
      (s1.procs np).state = procstate.EMBRYO ∧
      view s1 = ((view s).setState np procstate.EMBRYO).enqueue np := by
  cases ha : (proc_alloc cfg s ka).1 with
  | none =>
    unfold user_init at h
    cases hp : proc_alloc cfg s ka with
    | mk r s0 =>
      rw [hp] at ha h
      simp only at ha
      subst ha
      cases h
  | some np =>
    obtain ⟨hu, he⟩ := proc_alloc_eq_some cfg s ka np ha
    refine ⟨np, hu, ?_⟩
    unfold user_init at h
    rw [he] at h
    simp only at h
    split at h
    · cases h
    · split at h
      · cases h
      · simp only [Except.ok.injEq] at h
        rw [← h]
        refine ⟨rfl, rfl, rfl, ?_, ?_⟩
        · dsimp only
          rw [setp_procs_same]
          dsimp only
          rw [setp_procs_same, setp_procs_same]
          rfl
        · unfold view View.setState View.enqueue
          congr 1
          · funext x
            exact occ_push_sched s _ np x rfl rfl
          · funext j
            dsimp only
            by_cases e : j = np
            · subst e
              rw [setp_procs_same, Function.update_same]
              dsimp only
              rw [setp_procs_same, setp_procs_same]
              rfl
            · rw [setp_procs_ne _ _ _ _ e, Function.update_noteq e]
              dsimp only
              rw [setp_procs_ne _ _ _ _ e, setp_procs_ne _ _ _ _ e]

theorem proc_init_eq (cfg : Config) (s : State) (ka pg root : Nat) :
    proc_init cfg s ka pg root = user_init cfg (queues_reset s) ka pg root := rfl

theorem occ_queues_reset (s : State) (p : Nat) : occ (queues_reset s) p = 0 := by
  unfold occ
  rw [occ_slp_nil]
  · rfl
  · intro i hi
    simp [queues_reset, hi]

theorem Inv_queues_reset (s : State) (hc : ∀ k, s.cpus k = { proc := none, idle := none }) :
    Inv (queues_reset s) := by
  have hc2 : ∀ k, (view (queues_reset s)).cpus k = { proc := none, idle := none } := hc
  have ho : ∀ p, (view (queues_reset s)).occ p = 0 := occ_queues_reset s
  constructor
  · intro p; rw [ho]; omega
  · intro p h; rw [ho] at h; omega
  · intro k p h; rw [hc2] at h; cases h
  · intro k i h; rw [hc2] at h; cases h
  · intro k k2 i h; rw [hc2] at h; cases h
  · intro k k2 i h; rw [hc2] at h; cases h
  · intro k k2 p h; rw [hc2] at h; cases h

theorem Inv_proc_init (cfg : Config) (b s0 : State) (ka pg root : Nat)
    (hc : ∀ k, b.cpus k = { proc := none, idle := none })
    (h : proc_init cfg b ka pg root = .ok s0) : Inv s0 := by
  rw [proc_init_eq] at h
  obtain ⟨np, hu, _, _, _, _, e⟩ := user_init_view cfg _ s0 ka pg root h
  have hi := Inv_queues_reset b hc
  have hfree : VFree (view (queues_reset b)) np := VFree_of_state _ np hi (by
    show ((queues_reset b).procs np).state ≠ procstate.EMBRYO
    rw [hu]
    decide)
  unfold Inv
  rw [e]
  apply VInv_enqueue
  · exact VInv_setState _ np _ hi hfree
  · exact VFree_setState _ np np _ hfree
  · simp [View.setState]

theorem Inv_step (cfg : Config) (s s1 : State) (h : Inv s) (hs : Step cfg s s1) : Inv s1 := by
  cases hs
  case idle_init k ka pg _ _ h3 => exact Inv_idle_init cfg s s1 k ka pg h h3
  case pick k p h1 h2 => exact Inv_scheduler_pick s s1 k p h h1 h2
  case yield k h1 => exact Inv_yield s s1 k h h1
  case sleep k p chan h1 h2 h3 => exact Inv_sleep s s1 k p chan h h1 h2 h3
  case wakeup chan => exact Inv_wakeup s chan h
  case fork k ka pg v h1 => exact Inv_fork cfg s s1 k ka pg v h h1
  case exit k p h1 h2 h3 => exact Inv_exit cfg s s1 k p h h1 h2 h3
  case wait k p r h1 h2 h3 => exact Inv_wait cfg s s1 k p r h h1 h2 h3

theorem Inv_reachable (cfg : Config) (s : State) (h : Reachable cfg s) : Inv s := by
  induction h with
  | init b s0 ka pg root hc _ hp => exact Inv_proc_init cfg b s0 ka pg root hc hp
  | step s s1 _ hs ih => exact Inv_step cfg s s1 ih hs

/-- What does hold of the queues in every state reachable from `proc_init()`:
every slot is linked at most once in total on the ready queue and the `SQSIZE`
sleep queues; a slot that is `UNUSED`, `ZOMBIE`, running on a CPU or the idle
process of a CPU is linked on none of them; and every linked slot has the state
`EMBRYO`, the state that `proc_alloc` gave it. -/
theorem reachable_queue_invariant (cfg : Config) (s : State) (h : Reachable cfg s) :
    (∀ p, occ s p ≤ 1) ∧
    (∀ p, ((s.procs p).state = procstate.UNUSED ∨ (s.procs p).state = procstate.ZOMBIE ∨
        (∃ k, (s.cpus k).proc = some p) ∨ ∃ k, (s.cpus k).idle = some p) →
      occ s p = 0 ∧ p ∉ s.sched_que ∧ ∀ i, i < SQSIZE → p ∉ s.slpque i) ∧
    (∀ p, 0 < occ s p → (s.procs p).state = procstate.EMBRYO) := by
  have hi := Inv_reachable cfg s h
  have hmem : ∀ p, occ s p = 0 → p ∉ s.sched_que ∧ ∀ i, i < SQSIZE → p ∉ s.slpque i := by
    intro p h0
    unfold occ at h0
    constructor
    · apply List.count_eq_zero.1
      omega
    · have hz : occ_slp s.slpque p SQSIZE = 0 := by omega
      have hgen : ∀ n, occ_slp s.slpque p n = 0 → ∀ i, i < n → p ∉ s.slpque i := by
        intro n
        induction n with
        | zero => intro _ i hi; omega
        | succ n ih =>
          intro hn i hi
          simp only [occ_slp] at hn
          by_cases e : i = n
          · subst e
            apply List.count_eq_zero.1
            omega
          · exact ih (by omega) i (by omega)
      exact hgen SQSIZE hz
  have hocc : ∀ p, ((s.procs p).state = procstate.UNUSED ∨
      (s.procs p).state = procstate.ZOMBIE ∨ (∃ k, (s.cpus k).proc = some p) ∨
      ∃ k, (s.cpus k).idle = some p) → occ s p = 0 := by
    intro p hp
    rcases hp with hp | hp | ⟨k, hp⟩ | ⟨k, hp⟩
    · by_contra h0
      have := hi.queued p (Nat.pos_of_ne_zero h0)
      have e : (view s).st p = (s.procs p).state := rfl
      rw [e, hp] at this
      cases this
    · by_contra h0
      have := hi.queued p (Nat.pos_of_ne_zero h0)
      have e : (view s).st p = (s.procs p).state := rfl
      rw [e, hp] at this
      cases this
    · exact (hi.running k p hp).1
    · exact (hi.idle k p hp).1
  exact ⟨hi.once, fun p hp => ⟨hocc p hp, hmem p (hocc p hp)⟩, fun p hp => hi.queued p hp⟩

theorem Tie_of_fields (P c : Nat) (t u : State) (h : Tie P c t)
    (h1 : (u.procs P).state = (t.procs P).state)
    (h2 : (u.procs P).child = (t.procs P).child)
    (h3 : (u.procs c).state = (t.procs c).state)
    (h4 : (u.procs c).parent = (t.procs c).parent)
    (h5 : (u.procs c).pid = (t.procs c).pid) : Tie P c u :=
  ⟨h.ne, by rw [h1]; exact h.plive, by rw [h3]; exact h.clive, by rw [h4]; exact h.parent,
    by rw [h5]; exact h.pid, by rw [h2]; exact h.once⟩

theorem Tie_of_procs (P c : Nat) (t u : State) (h : Tie P c t)
    (hP : u.procs P = t.procs P) (hc : u.procs c = t.procs c) : Tie P c u :=
  Tie_of_fields P c t u h (by rw [hP]) (by rw [hP]) (by rw [hc]) (by rw [hc]) (by rw [hc])

theorem scheduler_pick_procs (s s1 : State) (k p : Nat)
    (h : scheduler_pick s k = .ok (p, s1)) : s1.procs = s.procs := by
  unfold scheduler_pick at h
  split at h
  · split at h
    · cases h
    · simp only [Except.ok.injEq, Prod.mk.injEq] at h
      rw [← h.2]
      rfl
  · simp only [Except.ok.injEq, Prod.mk.injEq] at h
    rw [← h.2]
    rfl

theorem yield_procs (s s1 : State) (k : Nat) (h : yield s k = .ok s1) : s1.procs = s.procs := by
  unfold yield at h
  split at h
  · cases h
  · simp only [Except.ok.injEq] at h
    rw [← h, scheduler_back_procs]
    split <;> rfl

theorem sleep_cases (s s1 : State) (k chan : Nat) (h : sleep s k chan = .ok s1) :
    ∃ p, (s.cpus k).proc = some p ∧ s1 = asleep_on s k p chan := by
  cases hr : (s.cpus k).proc with
  | none =>
    simp only [sleep, hr] at h
    split at h <;> cases h
  | some p =>
    rw [sleep_eq s k p chan hr] at h
    simp only [Except.ok.injEq] at h
    exact ⟨p, rfl, h.symm⟩

theorem idle_init_procs (cfg : Config) (s s1 : State) (k ka pg : Nat)
    (h : idle_init cfg s k ka pg = .ok s1) :
    ∃ np, (s.procs np).state = procstate.UNUSED ∧ ∀ j, j ≠ np → s1.procs j = s.procs j := by
  cases ha : (proc_alloc cfg s ka).1 with
  | none =>
    unfold idle_init at h
    cases hp : proc_alloc cfg s ka with
    | mk r s0 =>
      rw [hp] at ha h
      simp only at ha
      subst ha
      cases h
  | some np =>
    obtain ⟨hu, he⟩ := proc_alloc_eq_some cfg s ka np ha
    refine ⟨np, hu, ?_⟩
    unfold idle_init at h
    rw [he] at h
    simp only [Except.ok.injEq] at h
    intro j e
    rw [← h]
    dsimp only
    rw [setp_procs_ne _ _ _ _ e, setp_procs_ne _ _ _ _ e]

theorem fork_failed_procs (cfg : Config) (s : State) (np ka j : Nat) (e : j ≠ np) :
    (fork_failed cfg s np ka).procs j = s.procs j := by
  simp only [fork_failed, setp_procs_ne _ _ _ _ e]

theorem fork_ok_pid (cfg : Config) (s s1 : State) (k ka pg c : Nat)
    (h : fork cfg s k ka pg = .ok ((c : Int), s1)) :
    ∃ cp, (s.cpus k).proc = some cp ∧ scan s.procs cfg.NPROC 0 = some c ∧ ka ≠ 0 ∧ pg ≠ 0 ∧
      s1 = forked cfg s cp c ka pg := by
  cases hr : (s.cpus k).proc with
  | none => simp [fork, hr] at h
  | some cp =>
    cases ha : (proc_alloc cfg s ka).1 with
    | none =>
      rw [fork_of_alloc_none cfg s k ka pg ha] at h
      cases h
    | some np =>
      obtain ⟨hs, hk⟩ := proc_alloc_fst_some_inv cfg s ka np ha
      by_cases hp : pg = 0
      · subst hp
        have h2 := proc_alloc_snd_some cfg s ka np hs hk
        unfold fork at h
        rw [hr] at h
        cases hpa : proc_alloc cfg s ka with
        | mk r s0 =>
          rw [hpa] at ha h2 h
          simp only at ha h2
          subst ha
          subst h2
          simp only [if_true, Except.ok.injEq, Prod.mk.injEq] at h
          omega
      · rw [fork_success cfg s k cp np ka pg hr hs hk hp] at h
        simp only [Except.ok.injEq, Prod.mk.injEq] at h
        have e : np = c := by omega
        subst e
        exact ⟨cp, rfl, hs, hk, hp, h.2.symm⟩

theorem forked_procs_ne (cfg : Config) (s : State) (cp np ka pg j : Nat) (h1 : j ≠ np) :
    (forked cfg s cp np ka pg).procs j =
      if j = cp then { s.procs cp with child := (s.procs cp).child ++ [np] } else s.procs j := by
  by_cases h2 : j = cp
  · subst h2
    rw [if_pos rfl]
    exact forked_procs_cp cfg s j np ka pg h1
  · rw [if_neg h2]
    exact forked_procs_other cfg s cp np ka pg j h1 h2

theorem reparented_pid (s : State) (cp ip p j : Nat) :
    ((reparented s cp ip p).procs j).pid = (s.procs j).pid := by
  simp only [reparented, setp, Function.update_apply]
  split_ifs <;> simp_all

theorem reparented_child (s : State) (cp ip p j : Nat) (hne : cp ≠ ip) :
    ((reparented s cp ip p).procs j).child =
      if j = ip then (s.procs ip).child ++ [p]
      else if j = cp then (s.procs cp).child.erase p else (s.procs j).child := by
  by_cases h1 : j = ip
  · subst h1
    rw [if_pos rfl]
    exact reparented_child_ip s cp j p hne
  · rw [if_neg h1]
    by_cases h2 : j = cp
    · subst h2
      rw [if_pos rfl]
      exact reparented_child_cp s j ip p hne
    · rw [if_neg h2]
      unfold reparented
      rw [setp_procs_ne _ _ _ _ h1, setp_procs_ne _ _ _ _ h2, setp_child]
      intro q
      rfl

theorem reaped_parent (s : State) (cp a j : Nat) :
    ((reaped s cp a).procs j).parent = (s.procs j).parent := by
  simp only [reaped, setp, Function.update_apply]
  split_ifs <;> simp_all

theorem reaped_child_other (s : State) (cp a j : Nat) (h : j ≠ cp) :
    ((reaped s cp a).procs j).child = (s.procs j).child := by
  simp only [reaped, setp, Function.update_apply]
  split_ifs <;> simp_all

theorem Tie_fork (cfg : Config) (P c : Nat) (s s1 : State) (k ka pg : Nat) (v : Int)
    (h : Tie P c s) (hf : fork cfg s k ka pg = .ok (v, s1)) : Tie P c s1 := by
  obtain ⟨cp, np, _, hs, _, hc⟩ := fork_cases cfg s s1 k ka pg v hf
  have hu : (s.procs np).state = procstate.UNUSED := (scan_some _ _ _ _ hs).2.2.1
  have hP : P ≠ np := fun e => h.plive.1 (e ▸ hu)
  have hcn : c ≠ np := fun e => h.clive (e ▸ hu)
  rcases hc with ⟨_, e⟩ | ⟨_, e⟩
  · subst e
    exact Tie_of_procs P c s _ h (fork_failed_procs cfg s np ka P hP)
      (fork_failed_procs cfg s np ka c hcn)
  · subst e
    have e1 := forked_procs_ne cfg s cp np ka pg P hP
    have e2 := forked_procs_ne cfg s cp np ka pg c hcn
    refine ⟨h.ne, ?_, ?_, ?_, ?_, ?_⟩
    · rw [e1]; split <;> rename_i e
      · subst e; exact h.plive
      · exact h.plive
    · rw [e2]; split <;> rename_i e
      · subst e; exact h.clive
      · exact h.clive
    · rw [e2]; split <;> rename_i e
      · subst e; exact h.parent
      · exact h.parent
    · rw [e2]; split <;> rename_i e
      · subst e; exact h.pid
      · exact h.pid
    · rw [e1]; split <;> rename_i e
      · subst e
        show ((s.procs P).child ++ [np]).count c = 1
        rw [List.count_append, h.once]
        simp [List.count_cons, Ne.symm hcn]
      · exact h.once

theorem Tie_idle_init (cfg : Config) (P c : Nat) (s s1 : State) (k ka pg : Nat)
    (h : Tie P c s) (hi : idle_init cfg s k ka pg = .ok s1) : Tie P c s1 := by
  obtain ⟨np, hu, hp⟩ := idle_init_procs cfg s s1 k ka pg hi
  exact Tie_of_procs P c s s1 h (hp P (fun e => h.plive.1 (e ▸ hu)))
    (hp c (fun e => h.clive (e ▸ hu)))

theorem Tie_asleep_on (P c : Nat) (s : State) (k p chan : Nat) (h : Tie P c s) :
    Tie P c (asleep_on s k p chan) := by
  refine Tie_of_fields P c s _ h ?_ ?_ ?_ ?_ ?_ <;>
    (rw [asleep_on_procs]; split <;> rename_i e)
  all_goals first
    | (subst e; rfl)
    | rfl

theorem Tie_exit_body (cfg : Config) (P c cp p : Nat) (st sb : State) (hne : cp ≠ P)
    (hni : some cp ≠ st.initproc) (h : Tie P c st) (hb : exit_body cfg cp st p = .ok sb) :
    Tie P c sb ∧ sb.initproc = st.initproc := by
  by_cases hp : (st.procs p).parent = some cp
  · cases hi : st.initproc with
    | none => simp [exit_body, hp, hi] at hb
    | some ip =>
      have hcpip : cp ≠ ip := fun e => hni (by rw [hi, e])
      have hpc : c ≠ p := by
        intro e
        subst e
        rw [h.parent] at hp
        exact hne (Option.some.inj hp).symm
      have key : Tie P c (reparented st cp ip p) := by
        refine ⟨h.ne, ?_, ?_, ?_, ?_, ?_⟩
        · rw [reparented_state]; exact h.plive
        · rw [reparented_state]; exact h.clive
        · rw [reparented_parent, if_neg hpc]; exact h.parent
        · rw [reparented_pid]; exact h.pid
        · rw [reparented_child _ _ _ _ _ hcpip]
          split
          · rename_i e
            rw [← e, List.count_append, h.once]
            simp [List.count_cons, Ne.symm hpc]
          · rw [if_neg (Ne.symm hne)]
            exact h.once
      rw [exit_body_eq cfg cp ip p st hi hp] at hb
      simp only [Except.ok.injEq] at hb
      rw [← hb]
      split
      · exact ⟨Tie_of_procs P c _ _ key (by rw [wakeup1_procs]) (by rw [wakeup1_procs]),
          (wakeup1_initproc _ _).trans hi⟩
      · exact ⟨key, hi⟩
  · simp [exit_body, hp] at hb

theorem Tie_exit_loop (cfg : Config) (P c cp : Nat) (hne : cp ≠ P) (rest : List Nat) :
    ∀ st st1 : State, some cp ≠ st.initproc → Tie P c st →
      exit_loop cfg cp rest st = .ok st1 → Tie P c st1 := by
  induction rest with
  | nil =>
    intro st st1 _ h hl
    simp only [exit_loop, Except.ok.injEq] at hl
    rw [← hl]
    exact h
  | cons p rest ih =>
    intro st st1 hni h hl
    simp only [exit_loop] at hl
    cases hb : exit_body cfg cp st p with
    | error e => simp [hb] at hl
    | ok sb =>
      simp only [hb] at hl
      obtain ⟨h1, h2⟩ := Tie_exit_body cfg P c cp p st sb hne hni h hb
      exact ih sb st1 (by rw [h2]; exact hni) h1 hl

theorem exit_inv (cfg : Config) (s s1 : State) (k : Nat) (h : exit cfg s k = .ok s1) :
    ∃ cp s3, (s.cpus k).proc = some cp ∧ some cp ≠ s.initproc ∧
      exit_loop cfg cp (s.procs cp).child
        (wakeup1 (setp s cp closed_files) (chanOf cfg (s.procs cp).parent)) = .ok s3 ∧
      s1 = scheduler_back (setp s3 cp (fun q => { q with state := procstate.ZOMBIE })) k := by
  unfold exit at h
  cases hr : (s.cpus k).proc with
  | none => simp [hr] at h
  | some cp =>
    simp only [hr] at h
    split at h
    · cases h
    · rename_i hni
      have e1 : ((setp s cp (fun q => { q with ofile := q.ofile.map (fun _ => 0), cwd := 0 })).procs
          cp).parent = (s.procs cp).parent := by
        rw [setp_procs_same]
      have e2 : ∀ c0, ((wakeup1 (setp s cp
          (fun q => { q with ofile := q.ofile.map (fun _ => 0), cwd := 0 })) c0).procs cp).child
            = (s.procs cp).child := by
        intro c0
        rw [wakeup1_procs, setp_procs_same]
      rw [e1, e2] at h
      cases hl : exit_loop cfg cp (s.procs cp).child
        (wakeup1 (setp s cp (fun q => { q with ofile := q.ofile.map (fun _ => 0), cwd := 0 }))
          (chanOf cfg (s.procs cp).parent)) with
      | error e =>
        rw [hl] at h
        cases h
      | ok s3 =>
        rw [hl] at h
        simp only at h
        split at h
        · cases h
        · simp only [Except.ok.injEq] at h
          exact ⟨cp, s3, rfl, hni, hl, h.symm⟩

theorem Tie_exit (cfg : Config) (P c k : Nat) (s s1 : State)
    (hne : (s.cpus k).proc ≠ some P) (h : Tie P c s) (hx : exit cfg s k = .ok s1) :
    Tie P c s1 := by
  obtain ⟨cp, s3, hr, hni, hl, e⟩ := exit_inv cfg s s1 k hx
  have hcp : cp ≠ P := by
    intro e2
    rw [hr, e2] at hne
    exact hne rfl
  have h1 : Tie P c (wakeup1 (setp s cp closed_files) (chanOf cfg (s.procs cp).parent)) := by
    refine Tie_of_fields P c s _ h ?_ ?_ ?_ ?_ ?_
    · rw [wakeup1_procs, setp_state]; intro q; rfl
    · rw [wakeup1_procs, setp_child]; intro q; rfl
    · rw [wakeup1_procs, setp_state]; intro q; rfl
    · rw [wakeup1_procs, setp_parent]; intro q; rfl
    · rw [wakeup1_procs, setp_procs]
      split
      · rename_i e3; subst e3; rfl
      · rfl
  have h3 := Tie_exit_loop cfg P c cp hcp _ _ s3 (by rw [wakeup1_initproc]; exact hni) h1 hl
  subst e
  refine ⟨h3.ne, ?_, ?_, ?_, ?_, ?_⟩
  · rw [scheduler_back_procs, setp_procs_ne _ _ _ _ (Ne.symm hcp)]
    exact h3.plive
  · rw [scheduler_back_procs, setp_procs]
    split
    · simp
    · exact h3.clive
  · rw [scheduler_back_procs, setp_parent]
    · exact h3.parent
    · intro q; rfl
  · rw [scheduler_back_procs, setp_procs]
    split
    · rename_i e3; subst e3; exact h3.pid
    · exact h3.pid
  · rw [scheduler_back_procs, setp_child]
    · exact h3.once
    · intro q; rfl

theorem wait_cases_ret (cfg : Config) (s s1 : State) (k : Nat) (r : WaitRes)
    (h : wait cfg s k = .ok (r, s1)) :
    ∃ cp, (s.cpus k).proc = some cp ∧
      (s1 = s ∨
        (∃ a, (s.procs a).state = procstate.ZOMBIE ∧ (s.procs a).parent = some cp ∧
          r = WaitRes.ret (s.procs a).pid ∧ s1 = reaped s cp a) ∨
        s1 = asleep_on s k cp (procAddr cfg cp)) := by
  cases hr : (s.cpus k).proc with
  | none => simp [wait, hr] at h
  | some cp =>
    refine ⟨cp, rfl, ?_⟩
    by_cases hc : (s.procs cp).child = []
    · rw [wait_of_child_nil cfg s k cp hr hc] at h
      simp only [Except.ok.injEq, Prod.mk.injEq] at h
      exact Or.inl h.2.symm
    · cases hf : (s.procs cp).child.find?
        (fun p => decide ((s.procs p).state = procstate.ZOMBIE)) with
      | none =>
        have hnz : ∀ x ∈ (s.procs cp).child, (s.procs x).state ≠ procstate.ZOMBIE := by
          intro x hx
          have := List.find?_eq_none.1 hf x hx
          simpa using this
        rw [wait_sleeps cfg s k cp hr hc hnz] at h
        simp only [Except.ok.injEq, Prod.mk.injEq] at h
        exact Or.inr (Or.inr h.2.symm)
      | some a =>
        have hz : (s.procs a).state = procstate.ZOMBIE := by
          have := List.find?_some hf
          simpa using this
        by_cases hp : (s.procs a).parent = some cp
        · rw [wait_reap cfg s k cp a hr hf hp] at h
          simp only [Except.ok.injEq, Prod.mk.injEq] at h
          exact Or.inr (Or.inl ⟨a, hz, hp, h.1.symm, h.2.symm⟩)
        · simp [wait, hr, hc, hf, hp] at h

theorem Tie_wait (cfg : Config) (P c k : Nat) (s s1 : State) (r : WaitRes)
    (hex : ¬ ((s.cpus k).proc = some P ∧ r = WaitRes.ret (c : Int)))
    (h : Tie P c s) (hw : wait cfg s k = .ok (r, s1)) : Tie P c s1 := by
  obtain ⟨cp, hr, hc⟩ := wait_cases_ret cfg s s1 k r hw
  rcases hc with e | ⟨a, hz, hpa, hret, e⟩ | e
  · subst e; exact h
  · subst e
    have haP : P ≠ a := fun e => h.plive.2 (e ▸ hz)
    have hac : c ≠ a := by
      intro e
      subst e
      rw [h.parent] at hpa
      have e2 : P = cp := Option.some.inj hpa
      subst e2
      rw [h.pid] at hret
      exact hex ⟨hr, hret⟩
    refine ⟨h.ne, ?_, ?_, ?_, ?_, ?_⟩
    · rw [reaped_state, if_neg haP]; exact h.plive
    · rw [reaped_state, if_neg hac]; exact h.clive
    · rw [reaped_parent]; exact h.parent
    · rw [reaped_pid]; exact h.pid
    · by_cases e : P = cp
      · subst e
        rw [reaped_child, List.count_erase_of_ne hac]
        exact h.once
      · rw [reaped_child_other _ _ _ _ e]
        exact h.once
  · subst e
    exact Tie_asleep_on P c s k cp _ h

theorem Tie_between (cfg : Config) (P c : Nat) (s t : State) (hb : Between cfg P c s t)
    (h : Tie P c s) : Tie P c t := by
  induction hb with
  | refl => exact h
  | idle_init t u k ka pg _ h2 ih => exact Tie_idle_init cfg P c t u k ka pg ih h2
  | pick t u k p _ h2 ih =>
    have e := scheduler_pick_procs t u k p h2
    exact Tie_of_procs P c t u ih (by rw [e]) (by rw [e])
  | yield t u k _ h2 ih =>
    have e := yield_procs t u k h2
    exact Tie_of_procs P c t u ih (by rw [e]) (by rw [e])
  | sleep t u k chan _ h2 ih =>
    obtain ⟨p, _, e⟩ := sleep_cases t u k chan h2
    subst e
    exact Tie_asleep_on P c t k p chan ih
  | wakeup t chan _ ih =>
    exact Tie_of_procs P c t _ ih (by rw [wakeup, wakeup1_procs]) (by rw [wakeup, wakeup1_procs])
  | fork t u k ka pg v _ h2 ih => exact Tie_fork cfg P c t u k ka pg v ih h2
  | exit t u k _ h2 h3 ih => exact Tie_exit cfg P c k t u h2 ih h3
  | wait t u k r _ h2 h3 ih => exact Tie_wait cfg P c k t u r h2 ih h3

theorem Tie_forked (cfg : Config) (s : State) (P c ka pg : Nat)
    (hlive : (s.procs P).state ≠ procstate.UNUSED ∧ (s.procs P).state ≠ procstate.ZOMBIE)
    (hkids : ∀ x ∈ (s.procs P).child, (s.procs x).state ≠ procstate.UNUSED)
    (hu : (s.procs c).state = procstate.UNUSED) : Tie P c (forked cfg s P c ka pg) := by
  have hne : P ≠ c := fun e => hlive.1 (e ▸ hu)
  obtain ⟨f1, f2, f3, _⟩ := forked_procs_np cfg s P c ka pg hne
  have f5 := forked_procs_cp cfg s P c ka pg hne
  refine ⟨hne, ?_, ?_, f3, f2, ?_⟩
  · rw [f5]; exact hlive
  · rw [f1]; decide
  · rw [f5]
    show ((s.procs P).child ++ [c]).count c = 1
    rw [List.count_append, List.count_eq_zero.2 (fun hm => hkids c hm hu)]
    simp

theorem wait_reaps_first_zombie (cfg : Config) (t : State) (k P c : Nat)
    (h : Tie P c t) (hrun : (t.cpus k).proc = some P)
    (hz : (t.procs c).state = procstate.ZOMBIE)
    (hahead : ∀ pre post, (t.procs P).child = pre ++ c :: post →
      ∀ x ∈ pre, (t.procs x).state ≠ procstate.ZOMBIE) :
    wait cfg t k = .ok (WaitRes.ret (c : Int), reaped t P c) ∧
      ((reaped t P c).procs c).state = procstate.UNUSED ∧
      c ∉ ((reaped t P c).procs P).child := by
  have hm : c ∈ (t.procs P).child := by
    apply List.count_pos_iff.1
    rw [h.once]
    exact Nat.one_pos
  obtain ⟨pre, post, hsplit⟩ := List.append_of_mem hm
  have hf : (t.procs P).child.find? (fun p => decide ((t.procs p).state = procstate.ZOMBIE))
      = some c := by
    rw [hsplit, List.find?_append]
    have h1 : pre.find? (fun p => decide ((t.procs p).state = procstate.ZOMBIE)) = none := by
      rw [List.find?_eq_none]
      intro x hx
      simpa using hahead pre post hsplit x hx
    rw [h1]
    simp [hz]
  refine ⟨?_, ?_, ?_⟩
  · rw [wait_reap cfg t k P c hrun hf h.parent, h.pid]
  · rw [reaped_state]; simp
  · rw [reaped_child]
    apply List.count_eq_zero.1
    rw [List.count_erase_self, h.once]

theorem exit_wakes_parent (cfg : Config) (u : State) (j P c : Nat)
    (hrun : (u.cpus j).proc = some c) (hpar : (u.procs c).parent = some P)
    (hch : (u.procs c).child = []) (hni : some c ≠ u.initproc)
    (hq : P ∈ u.slpque (HASH (procAddr cfg P))) (hchan : (u.procs P).chan = procAddr cfg P) :
    exit cfg u j = .ok (exited cfg u j c) ∧
      ((exited cfg u j c).procs c).state = procstate.ZOMBIE ∧
      P ∈ (exited cfg u j c).sched_que := by
  refine ⟨exit_no_children cfg u j c hrun hni hch, ?_, ?_⟩
  · rw [exited_procs, if_pos rfl]
  · rw [exited_sched_que, hpar]
    apply List.mem_append_right
    rw [List.mem_filter]
    exact ⟨hq, by simpa [chanOf] using hchan⟩

/-! ## Well-formed child lists in reachable states -/

theorem Fam_of_fields (s u : State) (h : Fam s)
    (hf : ∀ j, (u.procs j).state = (s.procs j).state ∧ (u.procs j).parent = (s.procs j).parent ∧
      (u.procs j).child = (s.procs j).child) : Fam u := by
  constructor
  · intro q x hx
    rw [(hf q).2.2] at hx
    rw [(hf x).1, (hf x).2.1]
    exact h.kid q x hx
  · intro q
    rw [(hf q).2.2]
    exact h.nodup q

theorem Fam_of_procs (s u : State) (h : Fam s) (hp : u.procs = s.procs) : Fam u :=
  Fam_of_fields s u h (fun j => by rw [hp]; exact ⟨rfl, rfl, rfl⟩)

theorem Fam_fresh (s u : State) (np : Nat) (h : Fam s)
    (hu : (s.procs np).state = procstate.UNUSED) (hnp : (u.procs np).child = [])
    (ho : ∀ j, j ≠ np → u.procs j = s.procs j) : Fam u := by
  constructor
  · intro q x hx
    by_cases e : q = np
    · subst e
      rw [hnp] at hx
      cases hx
    · rw [ho q e] at hx
      have hk := h.kid q x hx
      have hx2 : x ≠ np := fun e2 => hk.1 (e2 ▸ hu)
      rw [ho x hx2]
      exact hk
  · intro q
    by_cases e : q = np
    · subst e
      rw [hnp]
      exact List.nodup_nil
    · rw [ho q e]
      exact h.nodup q

theorem idle_init_child (cfg : Config) (s s1 : State) (k ka pg : Nat)
    (h : idle_init cfg s k ka pg = .ok s1) :
    ∃ np, (s.procs np).state = procstate.UNUSED ∧ (s1.procs np).child = [] ∧
      ∀ j, j ≠ np → s1.procs j = s.procs j := by
  cases ha : (proc_alloc cfg s ka).1 with
  | none =>
    unfold idle_init at h
    cases hp : proc_alloc cfg s ka with
    | mk r s0 =>
      rw [hp] at ha h
      simp only at ha
      subst ha
      cases h
  | some np =>
    obtain ⟨hu, he⟩ := proc_alloc_eq_some cfg s ka np ha
    refine ⟨np, hu, ?_⟩
    unfold idle_init at h
    rw [he] at h
    simp only [Except.ok.injEq] at h
    rw [← h]
    constructor
    · dsimp only
      rw [setp_procs_same, setp_procs_same]
      rfl
    · intro j e
      dsimp only
      rw [setp_procs_ne _ _ _ _ e, setp_procs_ne _ _ _ _ e]

theorem fork_failed_child (cfg : Config) (s : State) (np ka : Nat) :
    ((fork_failed cfg s np ka).procs np).child = [] := by
  simp only [fork_failed, setp_procs_same]
  rfl

theorem Fam_forked (cfg : Config) (s : State) (cp np ka pg : Nat) (h : Fam s)
    (hne : cp ≠ np) (hu : (s.procs np).state = procstate.UNUSED) :
    Fam (forked cfg s cp np ka pg) := by
  obtain ⟨f1, _, f3, f4⟩ := forked_procs_np cfg s cp np ka pg hne
  have f5 := forked_procs_cp cfg s cp np ka pg hne
  have hold : ∀ q x, x ∈ (s.procs q).child →
      ((forked cfg s cp np ka pg).procs x).state ≠ procstate.UNUSED ∧
        ((forked cfg s cp np ka pg).procs x).parent = some q := by
    intro q x hx
    have hk := h.kid q x hx
    have hx2 : x ≠ np := fun e2 => hk.1 (e2 ▸ hu)
    rw [forked_procs_ne cfg s cp np ka pg x hx2]
    split
    · rename_i e
      subst e
      exact hk
    · exact hk
  constructor
  · intro q x hx
    by_cases e1 : q = np
    · subst e1
      rw [f4] at hx
      cases hx
    · rw [forked_procs_ne cfg s cp np ka pg q e1] at hx
      split at hx
      · rename_i e2
        subst e2
        rcases List.mem_append.1 hx with hx | hx
        · exact hold q x hx
        · simp only [List.mem_singleton] at hx
          subst hx
          exact ⟨by rw [f1]; decide, f3⟩
      · exact hold q x hx
  · intro q
    by_cases e1 : q = np
    · subst e1
      rw [f4]
      exact List.nodup_nil
    · rw [forked_procs_ne cfg s cp np ka pg q e1]
      split
      · rename_i e2
        subst e2
        show ((s.procs q).child ++ [np]).Nodup
        rw [List.nodup_append]
        refine ⟨h.nodup q, List.nodup_singleton np, ?_⟩
        intro a ha hb
        simp only [List.mem_singleton] at hb
        subst hb
        exact (h.kid q a ha).1 hu
      · exact h.nodup q

theorem Fam_fork (cfg : Config) (s s1 : State) (k ka pg : Nat) (v : Int) (hi : Inv s)
    (h : Fam s) (hf : fork cfg s k ka pg = .ok (v, s1)) : Fam s1 := by
  obtain ⟨cp, np, hr, hs, _, hc⟩ := fork_cases cfg s s1 k ka pg v hf
  have hu : (s.procs np).state = procstate.UNUSED := (scan_some _ _ _ _ hs).2.2.1
  rcases hc with ⟨_, e⟩ | ⟨_, e⟩
  · subst e
    exact Fam_fresh s _ np h hu (fork_failed_child cfg s np ka)
      (fun j e => fork_failed_procs cfg s np ka j e)
  · subst e
    have hne : cp ≠ np := by
      intro e
      subst e
      have := (hi.running k cp hr).2
      have h2 : (view s).st cp = (s.procs cp).state := rfl
      rw [h2, hu] at this
      cases this
    exact Fam_forked cfg s cp np ka pg h hne hu

theorem Fam_reparented (s : State) (cp ip p : Nat) (h : Fam s) (hne : cp ≠ ip)
    (hp : p ∈ (s.procs cp).child) : Fam (reparented s cp ip p) := by
  have hpk := h.kid cp p hp
  have hpip : p ∉ (s.procs ip).child := by
    intro hm
    have := (h.kid ip p hm).2
    rw [hpk.2] at this
    exact hne (Option.some.inj this)
  constructor
  · intro q x hx
    rw [reparented_child s cp ip p q hne] at hx
    rw [reparented_state, reparented_parent]
    split at hx
    · rename_i e
      subst e
      rcases List.mem_append.1 hx with hx | hx
      · have hk := h.kid q x hx
        have hxp : x ≠ p := fun e => hpip (e ▸ hx)
        rw [if_neg hxp]
        exact hk
      · simp only [List.mem_singleton] at hx
        subst hx
        rw [if_pos rfl]
        exact ⟨hpk.1, rfl⟩
    · split at hx
      · rename_i _ e
        subst e
        have hx2 := (List.Nodup.mem_erase_iff (h.nodup q)).1 hx
        rw [if_neg hx2.1]
        exact h.kid q x hx2.2
      · rename_i e1 e2
        have hk := h.kid q x hx
        have hxp : x ≠ p := by
          intro e
          subst e
          rw [hpk.2] at hk
          exact e2 (Option.some.inj hk.2).symm
        rw [if_neg hxp]
        exact hk
  · intro q
    rw [reparented_child s cp ip p q hne]
    split
    · rw [List.nodup_append]
      refine ⟨h.nodup ip, List.nodup_singleton p, ?_⟩
      intro a ha hb
      simp only [List.mem_singleton] at hb
      subst hb
      exact hpip ha
    · split
      · exact (h.nodup cp).erase p
      · exact h.nodup q

theorem Fam_exit_body (cfg : Config) (cp p : Nat) (rest : List Nat) (st sb : State)
    (hni : some cp ≠ st.initproc) (h : Fam st) (hc : (st.procs cp).child = p :: rest)
    (hb : exit_body cfg cp st p = .ok sb) :
    Fam sb ∧ sb.initproc = st.initproc ∧ (sb.procs cp).child = rest := by
  by_cases hp : (st.procs p).parent = some cp
  · cases hi : st.initproc with
    | none => simp [exit_body, hp, hi] at hb
    | some ip =>
      have hcpip : cp ≠ ip := fun e => hni (by rw [hi, e])
      have key : Fam (reparented st cp ip p) :=
        Fam_reparented st cp ip p h hcpip (by rw [hc]; exact List.mem_cons_self _ _)
      have hch : ((reparented st cp ip p).procs cp).child = rest := by
        rw [reparented_child_cp st cp ip p hcpip, hc, List.erase_cons_head]
      rw [exit_body_eq cfg cp ip p st hi hp] at hb
      simp only [Except.ok.injEq] at hb
      rw [← hb]
      split
      · exact ⟨Fam_of_procs _ _ key (wakeup1_procs _ _), (wakeup1_initproc _ _).trans hi,
          by rw [wakeup1_procs]; exact hch⟩
      · exact ⟨key, hi, hch⟩
  · simp [exit_body, hp] at hb

theorem Fam_exit_loop (cfg : Config) (cp : Nat) (rest : List Nat) :
    ∀ st st1 : State, some cp ≠ st.initproc → Fam st → (st.procs cp).child = rest →
      exit_loop cfg cp rest st = .ok st1 → Fam st1 := by
  induction rest with
  | nil =>
    intro st st1 _ h _ hl
    simp only [exit_loop, Except.ok.injEq] at hl
    rw [← hl]
    exact h
  | cons p rest ih =>
    intro st st1 hni h hc hl
    simp only [exit_loop] at hl
    cases hb : exit_body cfg cp st p with
    | error e => simp [hb] at hl
    | ok sb =>
      simp only [hb] at hl
      obtain ⟨h1, h2, h3⟩ := Fam_exit_body cfg cp p rest st sb hni h hc hb
      exact ih sb st1 (by rw [h2]; exact hni) h1 h3 hl

theorem Fam_exit (cfg : Config) (s s1 : State) (k : Nat) (h : Fam s)
    (hx : exit cfg s k = .ok s1) : Fam s1 := by
  obtain ⟨cp, s3, _, hni, hl, e⟩ := exit_inv cfg s s1 k hx
  have h1 : Fam (wakeup1 (setp s cp closed_files) (chanOf cfg (s.procs cp).parent)) := by
    refine Fam_of_fields s _ h ?_
    intro j
    refine ⟨?_, ?_, ?_⟩
    · rw [wakeup1_procs, setp_state]; intro q; rfl
    · rw [wakeup1_procs, setp_parent]; intro q; rfl
    · rw [wakeup1_procs, setp_child]; intro q; rfl
  have hc : ((wakeup1 (setp s cp closed_files) (chanOf cfg (s.procs cp).parent)).procs cp).child
      = (s.procs cp).child := by
    rw [wakeup1_procs, setp_child]
    intro q
    rfl
  have h3 := Fam_exit_loop cfg cp _ _ s3 (by rw [wakeup1_initproc]; exact hni) h1 hc hl
  subst e
  constructor
  · intro q x hx
    rw [scheduler_back_procs, setp_child] at hx
    · have hk := h3.kid q x hx
      rw [scheduler_back_procs]
      refine ⟨?_, ?_⟩
      · rw [setp_procs]
        split
        · simp
        · exact hk.1
      · rw [setp_parent]
        · exact hk.2
        · intro q; rfl
    · intro q; rfl
  · intro q
    rw [scheduler_back_procs, setp_child]
    · exact h3.nodup q
    · intro q; rfl

theorem Fam_reaped (s : State) (cp a : Nat) (h : Fam s) (ha : a ∈ (s.procs cp).child) :
    Fam (reaped s cp a) := by
  have hak := h.kid cp a ha
  constructor
  · intro q x hx
    have hx2 : x ≠ a ∧ x ∈ (s.procs q).child := by
      by_cases e : q = cp
      · subst e
        rw [reaped_child] at hx
        exact (List.Nodup.mem_erase_iff (h.nodup q)).1 hx
      · rw [reaped_child_other _ _ _ _ e] at hx
        refine ⟨?_, hx⟩
        intro e2
        subst e2
        have := (h.kid q x hx).2
        rw [hak.2] at this
        exact e (Option.some.inj this).symm
    rw [reaped_state, if_neg hx2.1, reaped_parent]
    exact h.kid q x hx2.2
  · intro q
    by_cases e : q = cp
    · subst e
      rw [reaped_child]
      exact (h.nodup q).erase a
    · rw [reaped_child_other _ _ _ _ e]
      exact h.nodup q

theorem wait_cases_mem (cfg : Config) (s s1 : State) (k : Nat) (r : WaitRes)
    (h : wait cfg s k = .ok (r, s1)) :
    ∃ cp, (s.cpus k).proc = some cp ∧
      (s1 = s ∨ (∃ a, a ∈ (s.procs cp).child ∧ s1 = reaped s cp a) ∨
        s1 = asleep_on s k cp (procAddr cfg cp)) := by
  cases hr : (s.cpus k).proc with
  | none => simp [wait, hr] at h
  | some cp =>
    refine ⟨cp, rfl, ?_⟩
    by_cases hc : (s.procs cp).child = []
    · rw [wait_of_child_nil cfg s k cp hr hc] at h
      simp only [Except.ok.injEq, Prod.mk.injEq] at h
      exact Or.inl h.2.symm
    · cases hf : (s.procs cp).child.find?
        (fun p => decide ((s.procs p).state = procstate.ZOMBIE)) with
      | none =>
        have hnz : ∀ x ∈ (s.procs cp).child, (s.procs x).state ≠ procstate.ZOMBIE := by
          intro x hx
          have := List.find?_eq_none.1 hf x hx
          simpa using this
        rw [wait_sleeps cfg s k cp hr hc hnz] at h
        simp only [Except.ok.injEq, Prod.mk.injEq] at h
        exact Or.inr (Or.inr h.2.symm)
      | some a =>
        by_cases hp : (s.procs a).parent = some cp
        · rw [wait_reap cfg s k cp a hr hf hp] at h
          simp only [Except.ok.injEq, Prod.mk.injEq] at h
          exact Or.inr (Or.inl ⟨a, List.mem_of_find?_eq_some hf, h.2.symm⟩)
        · simp [wait, hr, hc, hf, hp] at h

theorem Fam_asleep_on (s : State) (k p chan : Nat) (h : Fam s) : Fam (asleep_on s k p chan) := by
  refine Fam_of_fields s _ h ?_
  intro j
  rw [asleep_on_procs]
  split
  · rename_i e
    subst e
    exact ⟨rfl, rfl, rfl⟩
  · exact ⟨rfl, rfl, rfl⟩

theorem Fam_wait (cfg : Config) (s s1 : State) (k : Nat) (r : WaitRes) (h : Fam s)
    (hw : wait cfg s k = .ok (r, s1)) : Fam s1 := by
  obtain ⟨cp, _, hc⟩ := wait_cases_mem cfg s s1 k r hw
  rcases hc with e | ⟨a, ha, e⟩ | e
  · subst e; exact h
  · subst e; exact Fam_reaped s cp a h ha
  · subst e; exact Fam_asleep_on s k cp _ h

theorem user_init_child (cfg : Config) (s s1 : State) (ka pg root : Nat)
    (hs : ∀ j, (s.procs j).child = [])
    (h : user_init cfg s ka pg root = .ok s1) : ∀ j, (s1.procs j).child = [] := by
  cases ha : (proc_alloc cfg s ka).1 with
  | none =>
    unfold user_init at h
    cases hp : proc_alloc cfg s ka with
    | mk r s0 =>
      rw [hp] at ha h
      simp only at ha
      subst ha
      cases h
  | some np =>
    obtain ⟨_, he⟩ := proc_alloc_eq_some cfg s ka np ha
    unfold user_init at h
    rw [he] at h
    simp only at h
    split at h
    · cases h
    · split at h
      · cases h
      · simp only [Except.ok.injEq] at h
        rw [← h]
        intro j
        dsimp only
        by_cases e : j = np
        · subst e
          rw [setp_procs_same]
          dsimp only
          rw [setp_procs_same, setp_procs_same]
          rfl
        · rw [setp_procs_ne _ _ _ _ e]
          dsimp only
          rw [setp_procs_ne _ _ _ _ e, setp_procs_ne _ _ _ _ e]
          exact hs j

theorem Fam_of_child_nil (s : State) (h : ∀ j, (s.procs j).child = []) : Fam s := by
  constructor
  · intro q x hx
    rw [h q] at hx
    cases hx
  · intro q
    rw [h q]
    exact List.nodup_nil

theorem Fam_step (cfg : Config) (s s1 : State) (hi : Inv s) (h : Fam s) (hs : Step cfg s s1) :
    Fam s1 := by
  cases hs
  case idle_init k ka pg _ _ h3 =>
    obtain ⟨np, hu, hc, ho⟩ := idle_init_child cfg s s1 k ka pg h3
    exact Fam_fresh s s1 np h hu hc ho
  case pick k p _ h2 => exact Fam_of_procs s s1 h (scheduler_pick_procs s s1 k p h2)
  case yield k h1 => exact Fam_of_procs s s1 h (yield_procs s s1 k h1)
  case sleep k p chan _ _ h3 =>
    obtain ⟨q, _, e⟩ := sleep_cases s s1 k chan h3
    subst e
    exact Fam_asleep_on s k q chan h
  case wakeup chan => exact Fam_of_procs s _ h (wakeup1_procs s chan)
  case fork k ka pg v h1 => exact Fam_fork cfg s s1 k ka pg v hi h h1
  case exit k p _ _ h3 => exact Fam_exit cfg s s1 k h h3
  case wait k p r _ _ h3 => exact Fam_wait cfg s s1 k r h h3

theorem Fam_reachable (cfg : Config) (s : State) (h : Reachable cfg s) : Fam s := by
  induction h with
  | init b s0 ka pg root _ hb hp =>
    rw [proc_init_eq] at hp
    exact Fam_of_child_nil s0 (user_init_child cfg (queues_reset b) s0 ka pg root hb hp)
  | step s s1 hr hs ih => exact Fam_step cfg s s1 (Inv_reachable cfg s hr) ih hs

/-- In every reachable state a process that runs on a CPU is neither a free
slot nor a Zombie, and no entry of its child list is a free slot: the
conditions under which `fork` is considered below. -/
theorem reachable_parent_wellformed (cfg : Config) (s : State) (k P : Nat)
    (h : Reachable cfg s) (hrun : (s.cpus k).proc = some P) :
    ((s.procs P).state ≠ procstate.UNUSED ∧ (s.procs P).state ≠ procstate.ZOMBIE) ∧
      ∀ x ∈ (s.procs P).child, (s.procs x).state ≠ procstate.UNUSED := by
  have hs : (s.procs P).state = procstate.EMBRYO := ((Inv_reachable cfg s h).running k P hrun).2
  refine ⟨?_, fun x hx => ((Fam_reachable cfg s h).kid P x hx).1⟩
  rw [hs]
  exact ⟨by decide, by decide⟩

theorem demoParent_scan (st1 : procstate) (h : st1 ≠ procstate.UNUSED) :
    scan (demoParent st1).procs cfg4.NPROC 0 = some 2 := by
  apply scan_eq_some_of _ _ _ _ (Nat.zero_le 2) (by decide)
  · simp [demoParent, zproc]
  · intro l _ hl
    interval_cases l
    · simp [demoParent]
    · simpa [demoParent] using h

/-- C4, amended: let `fork` by the live process `P` (no free slot on its child
list) return the pid `c`, and let any operations follow, by any processes on
any CPUs, in which `P` does not exit and no `wait` by `P` has returned `c`.  If
`c` has exited (is a Zombie) when `P` calls `wait` and no child ahead of `c` on
the child list of `P` is a Zombie then, this pass of `wait` returns `c`, and
afterwards slot `c` is `UNUSED` and `c` is not on the child list of `P`.
Moreover a pass of `wait` by `P` that finds children but no Zombie among them
puts `P` to sleep on its own address, and the `exit` of `c` (which has not
forked and is not the init process) makes `c` a Zombie and puts a `P` that
sleeps so on the ready queue. -/
theorem fork_then_wait_returns_child (cfg : Config) (s s1 t : State)
    (k k2 P c ka pg : Nat)
    (hrun : (s.cpus k).proc = some P)
    (hlive : (s.procs P).state ≠ procstate.UNUSED ∧ (s.procs P).state ≠ procstate.ZOMBIE)
    (hkids : ∀ x ∈ (s.procs P).child, (s.procs x).state ≠ procstate.UNUSED)
    (hfork : fork cfg s k ka pg = .ok ((c : Int), s1))
    (hbetween : Between cfg P c s1 t)
    (hexit : (t.procs c).state = procstate.ZOMBIE)
    (hcall : (t.cpus k2).proc = some P)
    (hahead : ∀ pre post, (t.procs P).child = pre ++ c :: post →
      ∀ x ∈ pre, (t.procs x).state ≠ procstate.ZOMBIE) :
    (wait cfg t k2 = .ok (WaitRes.ret (c : Int), reaped t P c) ∧
      ((reaped t P c).procs c).state = procstate.UNUSED ∧
      c ∉ ((reaped t P c).procs P).child) ∧
    (∀ u k3, (u.cpus k3).proc = some P → (u.procs P).child ≠ [] →
      (∀ x ∈ (u.procs P).child, (u.procs x).state ≠ procstate.ZOMBIE) →
      wait cfg u k3 = .ok (WaitRes.slept, asleep_on u k3 P (procAddr cfg P)) ∧
      P ∈ (asleep_on u k3 P (procAddr cfg P)).slpque (HASH (procAddr cfg P)) ∧
      ((asleep_on u k3 P (procAddr cfg P)).procs P).chan = procAddr cfg P) ∧
    (∀ u j, (u.cpus j).proc = some c → (u.procs c).parent = some P →
      (u.procs c).child = [] → some c ≠ u.initproc →
      P ∈ u.slpque (HASH (procAddr cfg P)) → (u.procs P).chan = procAddr cfg P →
      exit cfg u j = .ok (exited cfg u j c) ∧
      ((exited cfg u j c).procs c).state = procstate.ZOMBIE ∧
      P ∈ (exited cfg u j c).sched_que) := by
  obtain ⟨cp, hr, hs, _, _, e⟩ := fork_ok_pid cfg s s1 k ka pg c hfork
  rw [hrun] at hr
  have e2 : P = cp := Option.some.inj hr
  subst e2
  subst e
  have hu : (s.procs c).state = procstate.UNUSED := (scan_some _ _ _ _ hs).2.2.1
  have h1 := Tie_forked cfg s P c ka pg hlive hkids hu
  have h2 := Tie_between cfg P c _ t hbetween h1
  refine ⟨wait_reaps_first_zombie cfg t k2 P c h2 hcall hexit hahead, ?_, ?_⟩
  · intro u k3 hr hne hnz
    refine ⟨wait_sleeps cfg u k3 P hr hne hnz, ?_, ?_⟩
    · rw [asleep_on_slpque, Function.update_same]
      simp
    · rw [asleep_on_procs, if_pos rfl]
  · intro u j g1 g2 g3 g4 g5 g6
    exact exit_wakes_parent cfg u j P c g1 g2 g3 g4 g5 g6

/-- Witness for the amended C4 on `demoParent EMBRYO`, where init has the live
child 1: init forks the child 2, CPU 1 selects the child, the child exits there
(`demoChildExited`), and `wait` by init on CPU 0 returns 2. -/
theorem fork_then_wait_returns_child_witness :
    fork cfg4 (demoParent procstate.EMBRYO) 0 0x5000 0x6000 =
        .ok (2, forked cfg4 (demoParent procstate.EMBRYO) 0 2 0x5000 0x6000) ∧
      wait cfg4 demoChildExited 0 = .ok (WaitRes.ret 2, reaped demoChildExited 0 2) ∧
      ((reaped demoChildExited 0 2).procs 2).state = procstate.UNUSED ∧
      2 ∉ ((reaped demoChildExited 0 2).procs 0).child := by
  have hf := fork_success cfg4 (demoParent procstate.EMBRYO) 0 0 2 0x5000 0x6000 rfl
    (demoParent_scan _ (by decide)) (by decide) (by decide)
  obtain ⟨_, _, _, f4⟩ :=
    forked_procs_np cfg4 (demoParent procstate.EMBRYO) 0 2 0x5000 0x6000 (by decide)
  have f5 := forked_procs_cp cfg4 (demoParent procstate.EMBRYO) 0 2 0x5000 0x6000 (by decide)
  have f6 := forked_procs_other cfg4 (demoParent procstate.EMBRYO) 0 2 0x5000 0x6000 1
    (by decide) (by decide)
  have hp := scheduler_pick_cons (forked cfg4 (demoParent procstate.EMBRYO) 0 2 0x5000 0x6000)
    1 2 [] rfl
  have hx := exit_no_children cfg4
    (set_running { forked cfg4 (demoParent procstate.EMBRYO) 0 2 0x5000 0x6000 with
      sched_que := [] } 1 2) 1 2
    (by simp) (by show some 2 ≠ some 0; decide) f4
  have hc : (demoChildExited.procs 0).child = [1, 2] := by
    unfold demoChildExited
    rw [exited_procs, if_neg (by decide)]
    show ((forked cfg4 (demoParent procstate.EMBRYO) 0 2 0x5000 0x6000).procs 0).child = _
    rw [f5]
    simp [demoParent]
  have h1 : demoChildExited.procs 1 = (demoParent procstate.EMBRYO).procs 1 := by
    unfold demoChildExited
    rw [exited_procs, if_neg (by decide)]
    exact f6
  exact ⟨hf, (fork_then_wait_returns_child cfg4 (demoParent procstate.EMBRYO)
    (forked cfg4 (demoParent procstate.EMBRYO) 0 2 0x5000 0x6000) demoChildExited
    0 0 0 2 0x5000 0x6000 rfl (by simp [demoParent])
    (by
      intro x hx
      simp only [demoParent, if_true, List.mem_singleton] at hx
      subst hx
      simp [demoParent])
    hf
    (Between.exit _ _ _ 1 (Between.pick _ _ _ 1 2 (Between.refl _) hp) (by simp) hx)
    (by
      unfold demoChildExited
      rw [exited_procs, if_pos rfl])
    (by
      unfold demoChildExited
      rw [exited_cpus, Function.update_noteq (by decide),
        set_running_cpus_ne _ _ _ _ (by decide)]
      rfl)
    (by
      intro pre post hsplit x hx
      rw [hc] at hsplit
      have hcount := congrArg (List.count 2) hsplit
      have hmem : x ∈ [1, 2] := by
        rw [hsplit]
        exact List.mem_append_left _ hx
      simp only [List.mem_cons, List.mem_singleton, List.not_mem_nil, or_false] at hmem
      rcases hmem with e | e
      · subst e
        rw [h1]
        simp [demoParent]
      · subst e
        exfalso
        have hpos : 0 < pre.count 2 := List.count_pos_iff.2 hx
        simp [List.count_append, List.count_cons] at hcount
        omega)).1⟩

/-- Counterexample to C4 as stated: on `demoParent ZOMBIE` the parent already
has the Zombie child 1.  `fork` returns 2, the child 2 runs on CPU 1 and exits,
and the parent's `wait` returns 1, not 2; slot 2 is still a Zombie and still on
the parent's child list. -/
theorem fork_then_wait_other_zombie :
    ∃ s4, fork_exit_wait cfg4 (demoParent procstate.ZOMBIE) 0 1 0x5000 0x6000 =
        .ok (2, 2, WaitRes.ret 1, s4) ∧
      (s4.procs 2).state = procstate.ZOMBIE ∧ 2 ∈ (s4.procs 0).child := by
  have hf := fork_success cfg4 (demoParent procstate.ZOMBIE) 0 0 2 0x5000 0x6000 rfl
    (demoParent_scan _ (by decide)) (by decide) (by decide)
  obtain ⟨f1, f2, f3, f4⟩ :=
    forked_procs_np cfg4 (demoParent procstate.ZOMBIE) 0 2 0x5000 0x6000 (by decide)
  have f5 := forked_procs_cp cfg4 (demoParent procstate.ZOMBIE) 0 2 0x5000 0x6000 (by decide)
  have f6 := forked_procs_other cfg4 (demoParent procstate.ZOMBIE) 0 2 0x5000 0x6000 1
    (by decide) (by decide)
  have hp := scheduler_pick_cons (forked cfg4 (demoParent procstate.ZOMBIE) 0 2 0x5000 0x6000)
    1 2 [] rfl
  have hx := exit_no_children cfg4
    (set_running { forked cfg4 (demoParent procstate.ZOMBIE) 0 2 0x5000 0x6000 with
      sched_que := [] } 1 2) 1 2
    (by simp) (by show some 2 ≠ some 0; decide) f4
  have hc : ((exited cfg4 (set_running
      { forked cfg4 (demoParent procstate.ZOMBIE) 0 2 0x5000 0x6000 with sched_que := [] } 1 2)
        1 2).procs 0).child = [1, 2] := by
    rw [exited_procs, if_neg (by decide)]
    show ((forked cfg4 (demoParent procstate.ZOMBIE) 0 2 0x5000 0x6000).procs 0).child = _
    rw [f5]
    simp [demoParent]
  have h1 : (exited cfg4 (set_running
      { forked cfg4 (demoParent procstate.ZOMBIE) 0 2 0x5000 0x6000 with sched_que := [] } 1 2)
        1 2).procs 1 = (demoParent procstate.ZOMBIE).procs 1 := by
    rw [exited_procs, if_neg (by decide)]
    exact f6
  have hw := wait_reap cfg4 (exited cfg4 (set_running
      { forked cfg4 (demoParent procstate.ZOMBIE) 0 2 0x5000 0x6000 with sched_que := [] } 1 2)
        1 2) 0 0 1
    (by
      rw [exited_cpus, Function.update_noteq (by decide),
        set_running_cpus_ne _ _ _ _ (by decide)]
      rfl)
    (by
      rw [hc]
      exact List.find?_cons_of_pos _ (by rw [h1]; simp [demoParent]))
    (by rw [h1]; simp [demoParent])
  have hpid : ((demoParent procstate.ZOMBIE).procs 1).pid = 1 := by simp [demoParent]
  rw [h1, hpid] at hw
  refine ⟨reaped (exited cfg4 (set_running
      { forked cfg4 (demoParent procstate.ZOMBIE) 0 2 0x5000 0x6000 with sched_que := [] } 1 2)
        1 2) 0 1, ?_, ?_, ?_⟩
  · unfold fork_exit_wait
    simp only [hf, hp, hx, hw]
    rfl
  · rw [reaped_state, if_neg (by decide), exited_procs, if_pos rfl]
  · rw [reaped_child, hc]
    decide

end Rpi3os
